import Mathlib

/-!
# pg2ch: logical-replication decoder, replication engine and copy-line decoder

A shallow embedding of `pkg/decoder/decoder.go`, `pkg/replicator/stream.go` and
`pkg/utils/chutils/bulkupload/utils.go`.

Conventions of the embedding:

* a byte is a `Nat` below 256 and a byte slice or Go string is a `List Nat`;
* `uint8/16/32/64`, `OID` and `LSN` values are `Nat`, `int32/int64` values are `Int`,
  and every narrowing or wrapping conversion is written out with an explicit modulus;
* the read position of `bytes.Buffer` is the list of bytes not yet consumed;
* a Go runtime panic is a result of its own, distinct from a returned `error`.
-/

namespace Pg2ch

/-! ## Data model (package `message`, as used by the decoder) -/

/-- Kind of a tuple: `message.TupleText`, `message.TupleNull`, `message.TupleUnchanged`. -/
inductive TupleKind where
  | TupleText
  | TupleNull
  | TupleUnchanged
deriving DecidableEq, Repr

/-- One column value, `message.Tuple`. -/
structure Tuple where
  Kind : TupleKind
  Value : List Nat
deriving DecidableEq, Repr

/-- A row, `[]*message.Tuple`: `none` is a nil pointer left in the slice by `make`. -/
abbrev Row := List (Option Tuple)

/-- Column descriptor, `message.Column`. -/
structure Column where
  IsKey : Bool
  Name : List Nat
  TypeOID : Nat
  Mode : Int
deriving DecidableEq, Repr

/-- Decoded records. Every constructor but `BeginVal` stands for a pointer to the
message struct of that name (what `Parse` returns); `BeginVal` is a `message.Begin`
held by value, the dynamic type the engine's first type assertion asks for.
`Timestamp` is a `time.Time`, kept as its offset in nanoseconds from
2000-01-01T00:00:00Z. A nil `OldRow` is the empty list. -/
inductive Message where
  | Begin (FinalLSN : Nat) (Timestamp : Int) (XID : Int)
  | Commit (Flags : Nat) (LSN : Nat) (TransactionLSN : Nat) (Timestamp : Int)
  | Origin (LSN : Nat) (Name : List Nat)
  | Relation (OID : Nat) (Namespace : List Nat) (Name : List Nat) (ReplicaIdentity : Nat)
      (Columns : List Column)
  | Type_ (OID : Nat) (Namespace : List Nat) (Name : List Nat)
  | Insert (RelationOID : Nat) (IsNew : Bool) (NewRow : Row)
  | Update (RelationOID : Nat) (IsKey : Bool) (IsOld : Bool) (IsNew : Bool) (OldRow : Row)
      (NewRow : Row)
  | Delete (RelationOID : Nat) (IsKey : Bool) (IsOld : Bool) (OldRow : Row)
  | Truncate (Cascade : Bool) (RestartIdentity : Bool) (RelationOIDs : List Nat)
  | BeginVal (FinalLSN : Nat) (Timestamp : Int) (XID : Int)
deriving DecidableEq, Repr

/-! ## The decoder (`pkg/decoder/decoder.go`) -/

/-- Runtime panics the decoder can raise. -/
inductive Panic where
  /-- Index out of range: `Next(1)[0]` on an empty buffer, `Uint16/32/64` on a short
  slice, `src[0]` on an empty input. -/
  | indexOutOfRange
  /-- The `panic(err)` of `string()`: `ReadBytes(0)` reached the end without a NUL. -/
  | eof
deriving DecidableEq, Repr

/-! A reader returns the value read and the bytes left in the buffer, or panics. -/

def truncateCascadeBit : Nat := 1
def truncateRestartIdentityBit : Nat := 2

def InsertMsgType : Nat := 73    -- 'I'
def DeleteMsgType : Nat := 68    -- 'D'
def UpdateMsgType : Nat := 85    -- 'U'
def TruncateMsgType : Nat := 84  -- 'T'
def BeginMsgType : Nat := 66     -- 'B'
def CommitMsgType : Nat := 67    -- 'C'
def TypeMsgType : Nat := 89      -- 'Y'
def OriginMsgType : Nat := 79    -- 'O'
def RelationMsgType : Nat := 82  -- 'R'

namespace decoder

/-- The reader `d.uint8()`: `d.buf.Next(1)[0]`. -/
def uint8 : List Nat → Except Panic (Nat × List Nat)
  | [] => .error .indexOutOfRange
  | b :: rest => .ok (b, rest)

/-- The reader `d.bool()`: `d.buf.Next(1)[0] != 0`. -/
def bool : List Nat → Except Panic (Bool × List Nat)
  | [] => .error .indexOutOfRange
  | b :: rest => .ok (decide (b ≠ 0), rest)

/-- The reader `d.uint16()`: big-endian, panics when fewer than 2 bytes are left. -/
def uint16 : List Nat → Except Panic (Nat × List Nat)
  | b0 :: b1 :: rest => .ok (b0 * 256 + b1, rest)
  | _ => .error .indexOutOfRange

/-- The reader `d.uint32()`: big-endian, panics when fewer than 4 bytes are left. -/
def uint32 : List Nat → Except Panic (Nat × List Nat)
  | b0 :: b1 :: b2 :: b3 :: rest => .ok (((b0 * 256 + b1) * 256 + b2) * 256 + b3, rest)
  | _ => .error .indexOutOfRange

/-- The reader `d.uint64()`: big-endian, panics when fewer than 8 bytes are left. -/
def uint64 : List Nat → Except Panic (Nat × List Nat)
  | b0 :: b1 :: b2 :: b3 :: b4 :: b5 :: b6 :: b7 :: rest =>
    .ok ((((((((b0 * 256 + b1) * 256 + b2) * 256 + b3) * 256 + b4) * 256 + b5) * 256 + b6)
      * 256 + b7), rest)
  | _ => .error .indexOutOfRange

def oid (buf : List Nat) : Except Panic (Nat × List Nat) := uint32 buf
def lsn (buf : List Nat) : Except Panic (Nat × List Nat) := uint64 buf

/-- Conversion `int32(x)` of a `uint32` (4294967296 is 2^32). -/
def toInt32 (u : Nat) : Int :=
  if u % 2 ^ 32 < 2 ^ 31 then ((u % 2 ^ 32 : Nat) : Int)
  else ((u % 2 ^ 32 : Nat) : Int) - 4294967296

/-- Conversion `int64(x)` (and `int(x)` on a 64-bit platform) of a `uint64`
(18446744073709551616 is 2^64). -/
def toInt64 (u : Nat) : Int :=
  if u % 2 ^ 64 < 2 ^ 63 then ((u % 2 ^ 64 : Nat) : Int)
  else ((u % 2 ^ 64 : Nat) : Int) - 18446744073709551616

/-- Result of an `int64` operation whose mathematical value is `i`: two's-complement
wrap-around. -/
def wrapInt64 (i : Int) : Int := toInt64 (i % 18446744073709551616).toNat

def int32 (buf : List Nat) : Except Panic (Int × List Nat) :=
  match uint32 buf with
  | .error e => .error e
  | .ok (u, rest) => .ok (toInt32 u, rest)

/-- Scan of `d.buf.ReadBytes(0)`: the bytes before the first NUL and the bytes after
it, or `none` when there is no NUL. -/
def readBytes0 : List Nat → Option (List Nat × List Nat)
  | [] => none
  | b :: rest =>
    if b = 0 then some ([], rest)
    else match readBytes0 rest with
      | none => none
      | some (s, r) => some (b :: s, r)

/-- The reader `d.string()`: the NUL is consumed and stripped; no NUL is a panic. -/
def string (buf : List Nat) : Except Panic (List Nat × List Nat) :=
  match readBytes0 buf with
  | none => .error .eof
  | some p => .ok p

/-- The reader `d.timestamp()`: `micro := int(d.uint64())`, then
`ts.Add(time.Duration(micro) * time.Microsecond)` from 2000-01-01T00:00:00Z.
`time.Duration` is an `int64` count of nanoseconds and `time.Microsecond` is 1000, so
the product is taken in `int64`. `Time.Add` itself is exact here: the result stays
within 293 years of 2000. The value is the offset from 2000-01-01T00:00:00Z in
nanoseconds. -/
def timestamp (buf : List Nat) : Except Panic (Int × List Nat) :=
  match uint64 buf with
  | .error e => .error e
  | .ok (u, rest) => .ok (wrapInt64 (toInt64 u * 1000), rest)

/-- The reader `d.rowInfo(char)`: `Next(1)[0]` panics on an empty buffer; on a
mismatch `UnreadByte` (valid right after a read) puts the byte back. -/
def rowInfo (char : Nat) : List Nat → Except Panic (Bool × List Nat)
  | [] => .error .indexOutOfRange
  | b :: rest => if b = char then .ok (true, rest) else .ok (false, b :: rest)

/-- The loop of `tupleData` with `n` iterations left. `Next(vsize)` returns at most
`vsize` bytes and never panics; a kind tag matching no case consumes only the tag and
leaves the nil that `make` put in `data[i]`. -/
def tupleLoop : Nat → List Nat → Except Panic (Row × List Nat)
  | 0, buf => .ok ([], buf)
  | _ + 1, [] => .error .indexOutOfRange
  | n + 1, k :: rest =>
    if k = 116 then              -- 't'
      match uint32 rest with
      | .error e => .error e
      | .ok (vsize, rest1) =>
        match tupleLoop n (rest1.drop vsize) with
        | .error e => .error e
        | .ok (ts, r) => .ok (some ⟨.TupleText, rest1.take vsize⟩ :: ts, r)
    else if k = 110 then         -- 'n'
      match tupleLoop n rest with
      | .error e => .error e
      | .ok (ts, r) => .ok (some ⟨.TupleNull, []⟩ :: ts, r)
    else if k = 117 then         -- 'u'
      match tupleLoop n rest with
      | .error e => .error e
      | .ok (ts, r) => .ok (some ⟨.TupleUnchanged, []⟩ :: ts, r)
    else
      match tupleLoop n rest with
      | .error e => .error e
      | .ok (ts, r) => .ok (none :: ts, r)

/-- The reader `d.tupleData()`. -/
def tupleData (buf : List Nat) : Except Panic (Row × List Nat) :=
  match uint16 buf with
  | .error e => .error e
  | .ok (size, rest) => tupleLoop size rest

/-- The loop of `columns` with `n` iterations left. -/
def columnLoop : Nat → List Nat → Except Panic (List Column × List Nat)
  | 0, buf => .ok ([], buf)
  | n + 1, buf => do
    let (isKey, b1) ← bool buf
    let (name, b2) ← string b1
    let (typeOID, b3) ← oid b2
    let (mode, b4) ← int32 b3
    let (cs, r) ← columnLoop n b4
    return (⟨isKey, name, typeOID, mode⟩ :: cs, r)

/-- The reader `d.columns()`. -/
def columns (buf : List Nat) : Except Panic (List Column × List Nat) :=
  match uint16 buf with
  | .error e => .error e
  | .ok (size, rest) => columnLoop size rest

/-- The loop of the Truncate case reading `n` relation OIDs. -/
def oidLoop : Nat → List Nat → Except Panic (List Nat × List Nat)
  | 0, buf => .ok ([], buf)
  | n + 1, buf => do
    let (o, rest) ← oid buf
    let (os, r) ← oidLoop n rest
    return (o :: os, r)

end decoder

open decoder in
/-- Body of `case BeginMsgType`. -/
def parseBegin (buf : List Nat) : Except Panic Message := do
  let (finalLSN, b1) ← lsn buf
  let (ts, b2) ← timestamp b1
  let (xid, _) ← int32 b2
  return .Begin finalLSN ts xid

open decoder in
/-- Body of `case CommitMsgType`. -/
def parseCommit (buf : List Nat) : Except Panic Message := do
  let (flags, b1) ← uint8 buf
  let (l, b2) ← lsn b1
  let (txl, b3) ← lsn b2
  let (ts, _) ← timestamp b3
  return .Commit flags l txl ts

open decoder in
/-- Body of `case OriginMsgType`. -/
def parseOrigin (buf : List Nat) : Except Panic Message := do
  let (l, b1) ← lsn buf
  let (name, _) ← string b1
  return .Origin l name

open decoder in
/-- Body of `case RelationMsgType`. -/
def parseRelation (buf : List Nat) : Except Panic Message := do
  let (o, b1) ← oid buf
  let (ns, b2) ← string b1
  let (name, b3) ← string b2
  let (ri, b4) ← uint8 b3
  let (cols, _) ← columns b4
  return .Relation o ns name ri cols

open decoder in
/-- Body of `case TypeMsgType`. -/
def parseType (buf : List Nat) : Except Panic Message := do
  let (o, b1) ← oid buf
  let (ns, b2) ← string b1
  let (name, _) ← string b2
  return .Type_ o ns name

open decoder in
/-- Body of `case InsertMsgType`. -/
def parseInsert (buf : List Nat) : Except Panic Message := do
  let (o, b1) ← oid buf
  let (c, b2) ← uint8 b1
  let (row, _) ← tupleData b2
  return .Insert o (decide (c = 78)) row

open decoder in
/-- Body of `case UpdateMsgType`. -/
def parseUpdate (buf : List Nat) : Except Panic Message := do
  let (o, b1) ← oid buf
  let (isKey, b2) ← rowInfo 75 b1     -- 'K'
  let (isOld, b3) ← rowInfo 79 b2     -- 'O'
  let (oldRow, b4) ← if isKey || isOld then tupleData b3 else pure ([], b3)
  let (c, b5) ← uint8 b4
  let (newRow, _) ← tupleData b5
  return .Update o isKey isOld (decide (c = 78)) oldRow newRow

open decoder in
/-- Body of `case DeleteMsgType`. -/
def parseDelete (buf : List Nat) : Except Panic Message := do
  let (o, b1) ← oid buf
  let (isKey, b2) ← rowInfo 75 b1     -- 'K'
  let (isOld, b3) ← rowInfo 79 b2     -- 'O'
  let (oldRow, _) ← tupleData b3
  return .Delete o isKey isOld oldRow

open decoder in
/-- Body of `case TruncateMsgType`. In Go `&` binds tighter than `==`, so the two
flag tests are `(options & bit) == 1`. The slice of OIDs is allocated before the
loop; when fewer OIDs follow than the count announces, the loop panics. -/
def parseTruncate (buf : List Nat) : Except Panic Message := do
  let (relationsCnt, b1) ← uint32 buf
  let (options, b2) ← uint8 b1
  let cascade := decide (options &&& truncateCascadeBit = 1)
  let restartIdentity := decide (options &&& truncateRestartIdentityBit = 1)
  let (oids, _) ← oidLoop relationsCnt b2
  return .Truncate cascade restartIdentity oids

/-- What a call of `Parse` does: return a record with a nil error, return a nil
record with the unknown-message-type error, or panic. -/
inductive ParseResult where
  | record (m : Message)
  | error (msgType : Nat)
  | panic (p : Panic)
deriving DecidableEq, Repr

def ParseResult.ofExcept : Except Panic Message → ParseResult
  | .ok m => .record m
  | .error p => .panic p

/-- The function `Parse`: `src[0]` selects the case, the rest is the buffer. -/
def Parse (src : List Nat) : ParseResult :=
  match src with
  | [] => .panic .indexOutOfRange
  | msgType :: buf =>
    if msgType = BeginMsgType then .ofExcept (parseBegin buf)
    else if msgType = CommitMsgType then .ofExcept (parseCommit buf)
    else if msgType = OriginMsgType then .ofExcept (parseOrigin buf)
    else if msgType = RelationMsgType then .ofExcept (parseRelation buf)
    else if msgType = TypeMsgType then .ofExcept (parseType buf)
    else if msgType = InsertMsgType then .ofExcept (parseInsert buf)
    else if msgType = UpdateMsgType then .ofExcept (parseUpdate buf)
    else if msgType = DeleteMsgType then .ofExcept (parseDelete buf)
    else if msgType = TruncateMsgType then .ofExcept (parseTruncate buf)
    else .error msgType

/-! ## Wire layout

The layout of the nine message types as the source produces them (the layout `Parse`
reads), written as an encoder so that a decoded record can be laid out again. -/

namespace wire

def u8 (n : Nat) : List Nat := [n % 256]

def u16 (n : Nat) : List Nat := [n / 256 % 256, n % 256]

def u32 (n : Nat) : List Nat :=
  [n / 16777216 % 256, n / 65536 % 256, n / 256 % 256, n % 256]

def u64 (n : Nat) : List Nat :=
  [n / 72057594037927936 % 256, n / 281474976710656 % 256, n / 1099511627776 % 256,
   n / 4294967296 % 256, n / 16777216 % 256, n / 65536 % 256, n / 256 % 256, n % 256]

/-- Signed 32-bit field, two's complement. -/
def i32 (i : Int) : List Nat := u32 (i % 4294967296).toNat

/-- NUL-terminated string. -/
def cstring (s : List Nat) : List Nat := s ++ [0]

/-- Timestamp field: the signed 64-bit count of microseconds since
2000-01-01T00:00:00Z, from an offset in nanoseconds. -/
def micros (t : Int) : List Nat := u64 ((t / 1000) % 18446744073709551616).toNat

/-- One tuple: kind tag, and for Text the 32-bit length and the value bytes. A nil
pointer has no layout. -/
def tuple : Option Tuple → List Nat
  | some ⟨.TupleText, v⟩ => 116 :: (u32 v.length ++ v)
  | some ⟨.TupleNull, _⟩ => [110]
  | some ⟨.TupleUnchanged, _⟩ => [117]
  | none => []

def tuples : Row → List Nat
  | [] => []
  | t :: ts => tuple t ++ tuples ts

/-- Tuple list: 16-bit count, then the tuples. -/
def tupleData (r : Row) : List Nat := u16 r.length ++ tuples r

def column (c : Column) : List Nat :=
  (if c.IsKey then 1 else 0) :: (cstring c.Name ++ (u32 c.TypeOID ++ i32 c.Mode))

def columnList : List Column → List Nat
  | [] => []
  | c :: cs => column c ++ columnList cs

/-- Column list: 16-bit count, then the columns. -/
def columns (cs : List Column) : List Nat := u16 cs.length ++ columnList cs

def oids : List Nat → List Nat
  | [] => []
  | o :: os => u32 o ++ oids os

/-- Options byte of Truncate: bit 0 is cascade, bit 1 is restart identity. -/
def truncateOptions (cascade restartIdentity : Bool) : Nat :=
  (if cascade then 1 else 0) + (if restartIdentity then 2 else 0)

/-- Layout of a record. -/
def encode : Message → List Nat
  | .Begin l t x => 66 :: (u64 l ++ (micros t ++ i32 x))
  | .BeginVal l t x => 66 :: (u64 l ++ (micros t ++ i32 x))
  | .Commit f l tl t => 67 :: (u8 f ++ (u64 l ++ (u64 tl ++ micros t)))
  | .Origin l n => 79 :: (u64 l ++ cstring n)
  | .Relation o ns n ri cols =>
    82 :: (u32 o ++ (cstring ns ++ (cstring n ++ (u8 ri ++ columns cols))))
  | .Type_ o ns n => 89 :: (u32 o ++ (cstring ns ++ cstring n))
  | .Insert o _ row => 73 :: (u32 o ++ (78 :: tupleData row))
  | .Update o isKey isOld _ oldRow newRow =>
    85 :: (u32 o ++
      ((if isKey then 75 :: tupleData oldRow
        else if isOld then 79 :: tupleData oldRow else []) ++ (78 :: tupleData newRow)))
  | .Delete o isKey _ oldRow => 68 :: (u32 o ++ ((if isKey then 75 else 79) :: tupleData oldRow))
  | .Truncate c ri os => 84 :: (u32 os.length ++ (truncateOptions c ri :: oids os))

/-- A tuple the source produces: Text with a 32-bit length, Null or Unchanged
without value bytes. -/
def WFTuple : Option Tuple → Prop
  | some ⟨.TupleText, v⟩ => v.length < 2 ^ 32
  | some ⟨.TupleNull, v⟩ => v = []
  | some ⟨.TupleUnchanged, v⟩ => v = []
  | none => False

/-- A row the source produces: a 16-bit count of well-formed tuples. -/
def WFRow (r : Row) : Prop := r.length < 2 ^ 16 ∧ ∀ t ∈ r, WFTuple t

/-- A column descriptor the source produces. -/
def WFColumn (c : Column) : Prop :=
  0 ∉ c.Name ∧ c.TypeOID < 2 ^ 32 ∧ -2147483648 ≤ c.Mode ∧ c.Mode < 2147483648

/-- A timestamp the source produces: a whole number of microseconds that fits the
signed 64-bit field (the bounds are 2^63 microseconds, in nanoseconds). -/
def WFTimestamp (t : Int) : Prop :=
  t % 1000 = 0 ∧ -9223372036854775808000 ≤ t ∧ t < 9223372036854775808000

/-- A record whose layout is a message the source produces: every field fits its
width, strings hold no NUL, the new-row marker is present, an Update carries at
most one old-row marker and a Delete exactly one. After a key marker the high byte
of the tuple count is not the letter O (the source sends far fewer columns). -/
def WellFormed : Message → Prop
  | .Begin l t x => l < 2 ^ 64 ∧ WFTimestamp t ∧ -2147483648 ≤ x ∧ x < 2147483648
  | .BeginVal _ _ _ => False
  | .Commit f l tl t => f < 2 ^ 8 ∧ l < 2 ^ 64 ∧ tl < 2 ^ 64 ∧ WFTimestamp t
  | .Origin l n => l < 2 ^ 64 ∧ 0 ∉ n
  | .Relation o ns n ri cols =>
    o < 2 ^ 32 ∧ 0 ∉ ns ∧ 0 ∉ n ∧ ri < 2 ^ 8 ∧ cols.length < 2 ^ 16 ∧ ∀ c ∈ cols, WFColumn c
  | .Type_ o ns n => o < 2 ^ 32 ∧ 0 ∉ ns ∧ 0 ∉ n
  | .Insert o isNew row => o < 2 ^ 32 ∧ isNew = true ∧ WFRow row
  | .Update o isKey isOld isNew oldRow newRow =>
    o < 2 ^ 32 ∧ isNew = true ∧ (isKey = false ∨ isOld = false) ∧
    (isKey = false → isOld = false → oldRow = []) ∧
    (isKey = true ∨ isOld = true → WFRow oldRow) ∧
    (isKey = true → oldRow.length / 256 ≠ 79) ∧ WFRow newRow
  | .Delete o isKey isOld oldRow =>
    o < 2 ^ 32 ∧ isKey = !isOld ∧ WFRow oldRow ∧ (isKey = true → oldRow.length / 256 ≠ 79)
  | .Truncate _ _ os => os.length < 2 ^ 32 ∧ ∀ o ∈ os, o < 2 ^ 32

/-- The timestamp of a Begin or Commit lies within the range of `time.Duration`:
its offset from 2000-01-01T00:00:00Z in nanoseconds fits an `int64` (the bounds are
2^63). -/
def DurationRange : Message → Prop
  | .Begin _ t _ => -9223372036854775808 ≤ t ∧ t < 9223372036854775808
  | .Commit _ _ _ t => -9223372036854775808 ≤ t ∧ t < 9223372036854775808
  | _ => True

/-- The restart-identity bit of a Truncate is clear. -/
def RestartIdentityClear : Message → Prop
  | .Truncate _ ri _ => ri = false
  | _ => True

end wire

/-! ## The replication engine (`pkg/replicator/stream.go`)

The table buffers, the consumer and the checkpoint store are collaborators outside
the engine: every call the engine makes on a buffer or on the consumer is appended
to a log, and whether a buffer call returns an error is decided by a parameter that
sees the log so far. Go maps are association lists without a fixed meaning of their
order (a `range` over a map visits the keys in list order; no theorem depends on it).
The throughput counters of `HandleMessage` touch nothing else and are left out. -/

/-- Name of a source table, `config.PgTableName`. -/
abbrev PgTableName := String

/-- Modelled from the spec: the constant `dbtypes.InvalidLSN`, declared outside the
sources at hand; the spec gives `InvalidLSN = 0`. -/
def InvalidLSN : Nat := 0

/-- Modelled from the spec: the lifecycle states of the engine, declared outside the
sources at hand. `StateWorking` and `StateShuttingDown` are the two that `stream.go`
names; the spec lists Init, Syncing, Working and ShuttingDown. -/
inductive ReplState where
  | StateInit
  | StateSyncing
  | StateWorking
  | StateShuttingDown
deriving DecidableEq, Repr

/-- A call made on a table buffer (`clickHouseTable`) or on the consumer. -/
inductive Effect where
  | tblBegin (t : PgTableName) (finalLSN : Nat)
  | tblInsert (t : PgTableName) (newRow : Row)
  | tblUpdate (t : PgTableName) (oldRow : Row) (newRow : Row)
  | tblDelete (t : PgTableName) (oldRow : Row)
  | tblTruncate (t : PgTableName)
  | tblCommit (t : PgTableName)
  | tblFlush (t : PgTableName)
  | advanceLSN (lsn : Nat)
deriving DecidableEq, Repr

/-- The table buffer a call is made on; `none` for a call on the consumer. -/
def Effect.table : Effect → Option PgTableName
  | .tblBegin t _ => some t
  | .tblInsert t _ => some t
  | .tblUpdate t _ _ => some t
  | .tblDelete t _ => some t
  | .tblTruncate t => some t
  | .tblCommit t => some t
  | .tblFlush t => some t
  | .advanceLSN _ => none

/-- What `persStorage.ReadLSN` does for a key the store has: return the LSN, return
an LSN together with an error (the disk store returns `InvalidLSN` then), or panic
(the disk store on a value that does not parse). -/
inductive StoredLSN where
  | value (lsn : Nat)
  | failure (lsn : Nat)
  | corrupted
deriving DecidableEq, Repr

/-- Errors `HandleMessage` returns. -/
inductive EngineError where
  | couldNotBegin
  | couldNotInsert
  | couldNotUpdate
  | couldNotDelete
  | couldNotTruncate
  | couldNotCommit
  | couldNotFlush
deriving DecidableEq, Repr

/-- State of the engine. `chTables` lists the tables that have a buffer (a buffer is
named by its table); `persStorage` is the checkpoint store seen through each table's
`KeyName()`; `inTxMutex` is true while the mutex is held; `ctxDone` is true once the
context is cancelled; `log` is the sequence of calls made so far. -/
structure Replicator where
  oidName : List (Nat × PgTableName)
  chTables : List PgTableName
  tablesToFlush : List PgTableName
  inTxTables : List PgTableName
  tblRelMsgs : List (PgTableName × Message)
  persStorage : List (PgTableName × StoredLSN)
  txFinalLSN : Nat
  curTxTblFlushIsNeeded : Bool
  isEmptyTx : Bool
  curState : ReplState
  inTxMutex : Bool
  ctxDone : Bool
  log : List Effect
deriving DecidableEq, Repr

/-- Collaborators of the engine: `tblErr log call` tells whether the buffer call
`call`, made after the calls in `log`, returns an error; `relEqual` is
`(*message.Relation).Equal`. -/
structure EngineEnv where
  tblErr : List Effect → Effect → Bool
  relEqual : Message → Message → Bool

/-- How a call into the engine ends when it does not return. -/
inductive Abort where
  /-- The call waits for `inTxMutex`, which is held, for ever. -/
  | blocked
  /-- A call of `logger.Fatalf`, or the unlock of a mutex that is not locked. -/
  | fatal
  /-- A runtime panic. -/
  | panic
deriving DecidableEq, Repr

/-- Result of a call into the engine: it returns `val` in state `r`, or it does not
return and leaves state `r`. -/
inductive Outcome (α : Type) where
  | returned (val : α) (r : Replicator)
  | aborted (why : Abort) (r : Replicator)
deriving Repr

/-- Map lookup on an association list. -/
def lookupKey {κ ν : Type} [DecidableEq κ] (k : κ) : List (κ × ν) → Option ν
  | [] => none
  | (k1, v) :: rest => if k1 = k then some v else lookupKey k rest

/-- Make one buffer call: log it and ask the environment whether it fails. -/
def Replicator.call (env : EngineEnv) (r : Replicator) (e : Effect) : Bool × Replicator :=
  (env.tblErr r.log e, { r with log := r.log ++ [e] })

/-- The method `checkAndGetTable`: the buffer to forward to (`none` is the nil table)
and the error. -/
def checkAndGetTable (env : EngineEnv) (r : Replicator) (oid : Nat) :
    Outcome (Option PgTableName × Option EngineError) :=
  match lookupKey oid r.oidName with
  | none => .returned (none, none) r
  | some tblName =>
    if tblName ∉ r.chTables then .returned (none, none) r
    else
      let r1 : Replicator :=
        if tblName ∈ r.tablesToFlush then r
        else { r with tablesToFlush := r.tablesToFlush ++ [tblName] }
      match lookupKey tblName r1.persStorage with
      | some .corrupted => .aborted .panic r1
      | stored =>
        let tblLSN : Nat :=
          match stored with
          | some (.value l) => l
          | some (.failure l) => l
          | _ => InvalidLSN
        let chTbl : Option PgTableName := if r1.txFinalLSN ≤ tblLSN then none else some tblName
        if tblName ∉ r1.inTxTables ∧ chTbl ≠ none then
          let r2 : Replicator := { r1 with inTxTables := r1.inTxTables ++ [tblName] }
          let (failed, r3) := r2.call env (.tblBegin tblName r2.txFinalLSN)
          .returned (chTbl, if failed then some .couldNotBegin else none) r3
        else .returned (chTbl, none) r1

/-- The method `processBegin`. -/
def processBegin (r : Replicator) (finalLSN : Nat) : Outcome (Option EngineError) :=
  if r.inTxMutex then .aborted .blocked r
  else .returned none
    { r with inTxMutex := true, txFinalLSN := finalLSN, curTxTblFlushIsNeeded := false,
             isEmptyTx := true }

/-- The loop of `processCommit` over the buffers in `inTxTables`: true when a
`Commit()` returned an error (the loop stops there). -/
def commitLoop (env : EngineEnv) (r : Replicator) : List PgTableName → Bool × Replicator
  | [] => (false, r)
  | t :: ts =>
    let (failed, r1) := r.call env (.tblCommit t)
    if failed then (true, r1) else commitLoop env r1 ts

/-- The deferred `r.inTxMutex.Unlock()` of `processCommit`. -/
def unlockDeferred (val : Option EngineError) (r : Replicator) : Outcome (Option EngineError) :=
  if r.inTxMutex then .returned val { r with inTxMutex := false }
  else .aborted .fatal r

/-- The method `processCommit`. -/
def processCommit (env : EngineEnv) (r : Replicator) : Outcome (Option EngineError) :=
  let (failed, r1) := if !r.isEmptyTx then commitLoop env r r.inTxTables else (false, r)
  if failed then unlockDeferred (some .couldNotCommit) r1
  else
    let r2 : Replicator := { r1 with inTxTables := [] }
    let r3 : Replicator := { r2 with log := r2.log ++ [.advanceLSN r2.txFinalLSN] }
    unlockDeferred none r3

/-- The method `processRelation`. -/
def processRelation (env : EngineEnv) (r : Replicator) (msg : Message) (oid : Nat) :
    Outcome (Option EngineError) :=
  match checkAndGetTable env r oid with
  | .aborted w r1 => .aborted w r1
  | .returned (_, some err) r1 => .returned (some err) r1
  | .returned (none, none) r1 => .returned none r1
  | .returned (some _, none) r1 =>
    match lookupKey oid r1.oidName with
    | none => .returned none r1
    | some tblName =>
      match lookupKey tblName r1.tblRelMsgs with
      | none => .returned none r1
      | some relMsg => if env.relEqual relMsg msg then .returned none r1 else .aborted .fatal r1

/-- The method `processInsert`. -/
def processInsert (env : EngineEnv) (r : Replicator) (oid : Nat) (newRow : Row) :
    Outcome (Option EngineError) :=
  match checkAndGetTable env r oid with
  | .aborted w r1 => .aborted w r1
  | .returned (_, some err) r1 => .returned (some err) r1
  | .returned (none, none) r1 => .returned none r1
  | .returned (some chTbl, none) r1 =>
    let (failed, r2) := r1.call env (.tblInsert chTbl newRow)
    if failed then .returned (some .couldNotInsert) r2
    else .returned none { r2 with isEmptyTx := false }

/-- The method `processUpdate`. -/
def processUpdate (env : EngineEnv) (r : Replicator) (oid : Nat) (oldRow newRow : Row) :
    Outcome (Option EngineError) :=
  match checkAndGetTable env r oid with
  | .aborted w r1 => .aborted w r1
  | .returned (_, some err) r1 => .returned (some err) r1
  | .returned (none, none) r1 => .returned none r1
  | .returned (some chTbl, none) r1 =>
    let (failed, r2) := r1.call env (.tblUpdate chTbl oldRow newRow)
    if failed then .returned (some .couldNotUpdate) r2
    else .returned none { r2 with isEmptyTx := false }

/-- The method `processDelete`. -/
def processDelete (env : EngineEnv) (r : Replicator) (oid : Nat) (oldRow : Row) :
    Outcome (Option EngineError) :=
  match checkAndGetTable env r oid with
  | .aborted w r1 => .aborted w r1
  | .returned (_, some err) r1 => .returned (some err) r1
  | .returned (none, none) r1 => .returned none r1
  | .returned (some chTbl, none) r1 =>
    let (failed, r2) := r1.call env (.tblDelete chTbl oldRow)
    if failed then .returned (some .couldNotDelete) r2
    else .returned none { r2 with isEmptyTx := false }

/-- The method `processTruncate`: the loop over `msg.RelationOIDs`, then
`isEmptyTx = false`. -/
def processTruncate (env : EngineEnv) (r : Replicator) : List Nat → Outcome (Option EngineError)
  | [] => .returned none { r with isEmptyTx := false }
  | oid :: oids =>
    match checkAndGetTable env r oid with
    | .aborted w r1 => .aborted w r1
    | .returned (_, some err) r1 => .returned (some err) r1
    | .returned (none, none) r1 => processTruncate env r1 oids
    | .returned (some chTbl, none) r1 =>
      let (failed, r2) := r1.call env (.tblTruncate chTbl)
      if failed then .returned (some .couldNotTruncate) r2
      else processTruncate env r2 oids

/-- The type assertion `msg.(message.Begin)`: it holds for a `message.Begin` held by
value only, not for the pointer that `Parse` returns. -/
def isBeginVal : Message → Bool
  | .BeginVal _ _ _ => true
  | _ => false

/-- The method `HandleMessage` (the `lsn` argument is not used by the body). -/
def HandleMessage (env : EngineEnv) (r : Replicator) (msg : Message) :
    Outcome (Option EngineError) :=
  if r.txFinalLSN = InvalidLSN ∧ isBeginVal msg = false then .returned none r
  else
    match msg with
    | .Begin finalLSN _ _ =>
      if r.curState = .StateShuttingDown then .returned none { r with txFinalLSN := InvalidLSN }
      else processBegin r finalLSN
    | .Commit _ _ _ _ => processCommit env r
    | .Relation oid _ _ _ _ => processRelation env r msg oid
    | .Insert oid _ newRow => processInsert env r oid newRow
    | .Update oid _ _ _ oldRow newRow => processUpdate env r oid oldRow newRow
    | .Delete oid _ _ oldRow => processDelete env r oid oldRow
    | .Type_ _ _ _ => .returned none r
    | .Truncate _ _ oids => processTruncate env r oids
    | _ => .returned none r

/-- The loop of `tblBuffersFlush` over `tablesToFlush` (`pending` is what is left to
visit): a cancelled context returns nil at once, a failed `Flush()` returns the
error, a flushed table is deleted from the set. -/
def flushLoop (env : EngineEnv) (r : Replicator) :
    List PgTableName → Option (Option EngineError) × Replicator
  | [] => (none, r)
  | t :: pending =>
    if r.ctxDone then (some none, r)
    else
      let (failed, r1) := r.call env (.tblFlush t)
      if failed then (some (some .couldNotFlush), r1)
      else flushLoop env { r1 with tablesToFlush := r1.tablesToFlush.filter (· ≠ t) } pending

/-- The method `tblBuffersFlush`. -/
def tblBuffersFlush (env : EngineEnv) (r : Replicator) : Option EngineError × Replicator :=
  match flushLoop env r r.tablesToFlush with
  | (some ret, r1) => (ret, r1)
  | (none, r1) => (none, { r1 with log := r1.log ++ [.advanceLSN r1.txFinalLSN] })

/-- One tick of the inactivity flusher (`flushFn`): nothing unless the state is
`StateWorking`; otherwise lock, flush, unlock. The error goes to the error channel. -/
def inactivityFlush (env : EngineEnv) (r : Replicator) : Outcome (Option EngineError) :=
  if r.curState ≠ .StateWorking then .returned none r
  else if r.inTxMutex then .aborted .blocked r
  else
    let (err, r1) := tblBuffersFlush env { r with inTxMutex := true }
    .returned err { r1 with inTxMutex := false }

/-- The calls in a log that were made on the buffer of table `t`. -/
def callsOn (t : PgTableName) (log : List Effect) : List Effect :=
  log.filter (fun e => e.table = some t)

/-- The state an outcome leaves. -/
def Outcome.state {α : Type} : Outcome α → Replicator
  | .returned _ r => r
  | .aborted _ r => r

/-! ## The copy-line decoder (`pkg/utils/chutils/bulkupload/utils.go`)

The writer `out` and `chutils.ConvertColumn` are collaborators: the tab bytes that
`DecodeCopyToTuples` writes itself and its calls of `ConvertColumn` are collected in
order, and whether one of them returns an error is decided by a parameter that sees
what was collected so far. -/

/-- The function `decodeDigit`. -/
def decodeDigit (c : Nat) (onlyOctal : Bool) : Nat × Bool :=
  if 48 ≤ c ∧ c ≤ 55 then (c - 48, true)
  else if onlyOctal = false ∧ 56 ≤ c ∧ c ≤ 57 then (c - 48, true)
  else if onlyOctal = false ∧ 97 ≤ c ∧ c ≤ 102 then (c - 97 + 10, true)
  else if onlyOctal = false ∧ 65 ≤ c ∧ c ≤ 70 then (c - 65 + 10, true)
  else (0, false)

def decodeOctDigit (c : Nat) : Nat × Bool := decodeDigit c true
def decodeHexDigit (c : Nat) : Nat × Bool := decodeDigit c false

/-- What `DecodeCopyToTuples` sends out: a tab byte written with `out.WriteByte`, or
a call `ConvertColumn(out, pgColumns[colId], tuple, colProps[colId])`. -/
inductive CopyOut (κ : Type) where
  | tab
  | convert (colId : Nat) (pgCol : κ) (t : Tuple)
deriving DecidableEq, Repr

/-- Errors `DecodeCopyToTuples` returns. -/
inductive CopyError where
  | unknownEscape
  | shouldNotReach
  | writeFailed
  | convertFailed
deriving DecidableEq, Repr

/-- Arguments and collaborators of `DecodeCopyToTuples`: the column map, and whether
a write of the tab or a conversion fails after the given output. -/
structure CopyEnv (κ : Type) where
  pgColumns : Nat → Option κ
  writeErr : List (CopyOut κ) → Bool
  convertErr : List (CopyOut κ) → Nat → κ → Tuple → Bool

/-- State of the loop of `DecodeCopyToTuples` besides the read position. -/
structure CopyState (κ : Type) where
  colBuf : List Nat
  colId : Nat
  tupleKind : TupleKind
  out : List (CopyOut κ)

/-- The part of the loop body shared by both terminators: the tab before a forwarded
column other than column 0, then the conversion of the column. -/
def forwardColumn {κ : Type} (env : CopyEnv κ) (st : CopyState κ) :
    Option CopyError × List (CopyOut κ) :=
  match env.pgColumns st.colId with
  | none => (none, st.out)
  | some pgCol =>
    if 0 < st.colId ∧ env.writeErr st.out = true then (some .writeFailed, st.out)
    else
      let out1 := if 0 < st.colId then st.out ++ [.tab] else st.out
      let tupleData : Tuple := ⟨st.tupleKind, st.colBuf⟩
      if env.convertErr out1 st.colId pgCol tupleData then (some .convertFailed, out1)
      else (none, out1 ++ [.convert st.colId pgCol tupleData])

/-- The loop of `DecodeCopyToTuples` from the current read position: `fuel` bounds
the number of iterations (each consumes at least one byte). -/
def copyLoop {κ : Type} (env : CopyEnv κ) :
    Nat → List Nat → CopyState κ → Option CopyError × List (CopyOut κ)
  | 0, _, st => (some .shouldNotReach, st.out)
  | _ + 1, [], st => (some .shouldNotReach, st.out)
  | fuel + 1, c :: rest, st =>
    if c = 9 ∨ c = 10 then
      match forwardColumn env st with
      | (some err, out1) => (some err, out1)
      | (none, out1) =>
        if c = 9 then
          copyLoop env fuel rest ⟨[], st.colId + 1, .TupleText, out1⟩
        else (none, out1)
    else if c ≠ 92 then
      copyLoop env fuel rest { st with colBuf := st.colBuf ++ [c] }
    else
      match rest with
      | [] => (some .unknownEscape, st.out)
      | ch :: rest1 =>
        if ch = 78 then                                   -- N
          copyLoop env fuel rest1 { st with tupleKind := .TupleNull }
        else if ch = 98 ∨ ch = 102 ∨ ch = 110 ∨ ch = 114 ∨ ch = 116 ∨ ch = 118 ∨ ch = 92 then
          copyLoop env fuel rest1 { st with colBuf := st.colBuf ++ [92, ch] }
        else if ch = 120 then                             -- x
          match rest1 with
          | [] => (some .unknownEscape, st.out)
          | h1 :: rest2 =>
            if (decodeHexDigit h1).2 = false then (some .unknownEscape, st.out)
            else
              match rest2 with
              | [] =>
                copyLoop env fuel rest2 { st with colBuf := st.colBuf ++ [(decodeHexDigit h1).1] }
              | h2 :: rest3 =>
                if (decodeHexDigit h2).2 then
                  copyLoop env fuel rest3
                    { st with colBuf := st.colBuf ++
                        [((decodeHexDigit h1).1 * 16 % 256 + (decodeHexDigit h2).1) % 256] }
                else
                  copyLoop env fuel rest2
                    { st with colBuf := st.colBuf ++ [(decodeHexDigit h1).1] }
        else if 48 ≤ ch ∧ ch ≤ 55 then
          let d1 := (decodeOctDigit ch).1
          match rest1 with
          | [] => copyLoop env fuel rest1 { st with colBuf := st.colBuf ++ [d1] }
          | o2 :: rest2 =>
            if (decodeOctDigit o2).2 then
              let d2 := (d1 * 8 % 256 + (decodeOctDigit o2).1) % 256
              match rest2 with
              | [] => copyLoop env fuel rest2 { st with colBuf := st.colBuf ++ [d2] }
              | o3 :: rest3 =>
                if (decodeOctDigit o3).2 then
                  copyLoop env fuel rest3
                    { st with colBuf := st.colBuf ++
                        [(d2 * 8 % 256 + (decodeOctDigit o3).1) % 256] }
                else copyLoop env fuel rest2 { st with colBuf := st.colBuf ++ [d2] }
            else
              -- the second test of `i+1 < n` looks at the same byte again
              copyLoop env fuel rest1 { st with colBuf := st.colBuf ++ [d1] }
        else (some .unknownEscape, st.out)

/-- The function `DecodeCopyToTuples` on the line `input`: the error it returns
(`none` is nil) and what it sent out. The loop runs at most once per byte. -/
def DecodeCopyToTuples {κ : Type} (env : CopyEnv κ) (input : List Nat) :
    Option CopyError × List (CopyOut κ) :=
  copyLoop env (input.length + 1) input ⟨[], 0, .TupleText, []⟩

/-- The source's text copy format for one column value, byte by byte: backslash and
the control bytes with a letter escape are written as backslash and letter, every
other control byte as backslash and three octal digits, any other byte as itself. -/
def escapeByte (c : Nat) : List Nat :=
  if c = 92 then [92, 92]
  else if c = 8 then [92, 98]
  else if c = 12 then [92, 102]
  else if c = 10 then [92, 110]
  else if c = 13 then [92, 114]
  else if c = 9 then [92, 116]
  else if c = 11 then [92, 118]
  else if c < 32 then [92, 48 + c / 64, 48 + c / 8 % 8, 48 + c % 8]
  else [c]

/-- Escaping of a column value. -/
def escapeColumn : List Nat → List Nat
  | [] => []
  | c :: cs => escapeByte c ++ escapeColumn cs

/-- What the decoder keeps of one escaped byte: a letter escape stays the two bytes
backslash and letter, every other byte is itself. -/
def keptByte (c : Nat) : List Nat :=
  if c = 92 ∨ c = 8 ∨ c = 12 ∨ c = 10 ∨ c = 13 ∨ c = 9 ∨ c = 11 then escapeByte c else [c]

def keptColumn : List Nat → List Nat
  | [] => []
  | c :: cs => keptByte c ++ keptColumn cs

/-- The environment with the single column 0 in the map and no failing collaborator. -/
def oneColumnEnv : CopyEnv Unit where
  pgColumns := fun i => if i = 0 then some () else none
  writeErr := fun _ => false
  convertErr := fun _ _ _ _ => false

/-! ### A line as the loop reads it

One iteration of the loop of `DecodeCopyToTuples` takes one lexeme from the input: a
column terminator, the escape `\N`, or bytes for the column buffer. The theorems on
whole lines speak of a line through the lexemes the loop reads from it. -/

/-- What an iteration inside a column takes from the input: the escape `\N`, or bytes
for the column buffer (a plain byte, a letter escape kept as it is, a decoded hex or
octal escape). -/
inductive Piece where
  | null
  | bytes (bs : List Nat)
deriving DecidableEq, Repr

/-- What one iteration takes from the input. -/
inductive Lexeme where
  | tab
  | newline
  | piece (p : Piece)
deriving DecidableEq, Repr

/-- The lexeme at the read position and the input after it, along the branches of the
loop body of `DecodeCopyToTuples`; `none` at the end of the input and at an escape
the loop rejects. -/
def lexeme : List Nat → Option (Lexeme × List Nat)
  | [] => none
  | c :: rest =>
    if c = 9 then some (.tab, rest)
    else if c = 10 then some (.newline, rest)
    else if c ≠ 92 then some (.piece (.bytes [c]), rest)
    else
      match rest with
      | [] => none
      | ch :: rest1 =>
        if ch = 78 then some (.piece .null, rest1)
        else if ch = 98 ∨ ch = 102 ∨ ch = 110 ∨ ch = 114 ∨ ch = 116 ∨ ch = 118 ∨ ch = 92 then
          some (.piece (.bytes [92, ch]), rest1)
        else if ch = 120 then
          match rest1 with
          | [] => none
          | h1 :: rest2 =>
            if (decodeHexDigit h1).2 = false then none
            else
              match rest2 with
              | [] => some (.piece (.bytes [(decodeHexDigit h1).1]), rest2)
              | h2 :: rest3 =>
                if (decodeHexDigit h2).2 then
                  some (.piece (.bytes
                    [((decodeHexDigit h1).1 * 16 % 256 + (decodeHexDigit h2).1) % 256]), rest3)
                else some (.piece (.bytes [(decodeHexDigit h1).1]), rest2)
        else if 48 ≤ ch ∧ ch ≤ 55 then
          let d1 := (decodeOctDigit ch).1
          match rest1 with
          | [] => some (.piece (.bytes [d1]), rest1)
          | o2 :: rest2 =>
            if (decodeOctDigit o2).2 then
              let d2 := (d1 * 8 % 256 + (decodeOctDigit o2).1) % 256
              match rest2 with
              | [] => some (.piece (.bytes [d2]), rest2)
              | o3 :: rest3 =>
                if (decodeOctDigit o3).2 then
                  some (.piece (.bytes [(d2 * 8 % 256 + (decodeOctDigit o3).1) % 256]), rest3)
                else some (.piece (.bytes [d2]), rest2)
            else some (.piece (.bytes [d1]), rest1)
        else none

/-- The input after the given lexemes, when the loop reads exactly these lexemes from
the start of the input; `none` otherwise. -/
def reads : List Lexeme → List Nat → Option (List Nat)
  | [], input => some input
  | l :: ls, input =>
    match lexeme input with
    | none => none
    | some (l1, rest) => if l1 = l then reads ls rest else none

/-- The lexemes of a row of tab-separated columns, first column `col`, without the
row terminator. -/
def joinRow (col : List Piece) : List (List Piece) → List Lexeme
  | [] => col.map .piece
  | col1 :: cols => col.map .piece ++ .tab :: joinRow col1 cols

/-- The kind a column is forwarded with: Null once `\N` occurred in it. -/
def colKind (col : List Piece) : TupleKind :=
  if Piece.null ∈ col then .TupleNull else .TupleText

/-- The bytes the loop has put into the column buffer at the end of a column. -/
def colBytes : List Piece → List Nat
  | [] => []
  | .null :: ps => colBytes ps
  | .bytes bs :: ps => bs ++ colBytes ps

/-- What the loop sends out for the columns `cols`, the first of which has index
`colId`: for a column in the map a tab unless it is column 0, then its conversion. -/
def forwarded {κ : Type} (pgColumns : Nat → Option κ) :
    Nat → List (List Piece) → List (CopyOut κ)
  | _, [] => []
  | colId, col :: cols =>
    (match pgColumns colId with
      | none => []
      | some pgCol =>
        (if 0 < colId then [.tab] else []) ++
          [.convert colId pgCol ⟨colKind col, colBytes col⟩]) ++
    forwarded pgColumns (colId + 1) cols

/-- The calls of `ConvertColumn` among what was sent out. -/
def conversions {κ : Type} (out : List (CopyOut κ)) : List (CopyOut κ) :=
  out.filter (fun o => match o with | .convert _ _ _ => true | .tab => false)

/-- The tab bytes among what was sent out. -/
def tabsWritten {κ : Type} (out : List (CopyOut κ)) : Nat :=
  (out.filter (fun o => match o with | .tab => true | .convert _ _ _ => false)).length

/-- No write of a tab and no conversion fails. -/
def CopyEnv.Quiet {κ : Type} (env : CopyEnv κ) : Prop :=
  (∀ out, env.writeErr out = false) ∧
  (∀ out colId pgCol t, env.convertErr out colId pgCol t = false)

/-- The environment with the single column 1 in the map and no failing collaborator. -/
def secondColumnEnv : CopyEnv Unit where
  pgColumns := fun i => if i = 1 then some () else none
  writeErr := fun _ => false
  convertErr := fun _ _ _ _ => false

/-- The value of a string of octal digits. -/
def octalValue (ds : List Nat) : Nat := ds.foldl (fun acc d => acc * 8 + (d - 48)) 0

/-- Whether a byte is one of the digits `0` to `7`. -/
def isOctalDigit (c : Nat) : Bool := decide (48 ≤ c ∧ c ≤ 55)

/-- Records that carry row changes. -/
def isDML : Message → Bool
  | .Insert _ _ _ => true
  | .Update _ _ _ _ _ _ => true
  | .Delete _ _ _ _ => true
  | .Truncate _ _ _ => true
  | _ => false

/-- The nine message type tags. -/
def msgTypes : List Nat :=
  [BeginMsgType, CommitMsgType, OriginMsgType, RelationMsgType, TypeMsgType, InsertMsgType,
   UpdateMsgType, DeleteMsgType, TruncateMsgType]

/-- An environment in which no buffer call fails. -/
def quietEnv : EngineEnv where
  tblErr := fun _ _ => false
  relEqual := fun a b => decide (a = b)

/-- An engine that has just started working: nothing recorded, no transaction seen,
one configured table `public.t` with OID 7. -/
def freshEngine : Replicator where
  oidName := [(7, "public.t")]
  chTables := ["public.t"]
  tablesToFlush := []
  inTxTables := []
  tblRelMsgs := []
  persStorage := []
  txFinalLSN := InvalidLSN
  curTxTblFlushIsNeeded := false
  isEmptyTx := false
  curState := .StateWorking
  inTxMutex := false
  ctxDone := false
  log := []

/-- An engine inside the transaction with final LSN 5, whose table `public.t` is
checkpointed at LSN 9. -/
def openTxEngine : Replicator :=
  { freshEngine with txFinalLSN := 5, inTxMutex := true, isEmptyTx := true,
                     persStorage := [("public.t", .value 9)] }

/-! ## Runs of the engine

The stream reader calls `HandleMessage` once per record, and the inactivity flusher
ticks in a goroutine of its own. A tick is two steps of a run. First `flushFn` tests
the lifecycle state, without the mutex; a tick that finds `StateWorking` goes on to
`Lock()` and waits there. Later such a tick obtains the mutex, when it is free, and
runs `tblBuffersFlush` and `Unlock()`; other steps can stand in between, also the
handling of a Begin record during shutdown, which writes `txFinalLSN` without the
mutex. From `Lock()` to `Unlock()` the tick is one step: the records of a
transaction arrive while the transaction holds the mutex, and what a record handled
without the mutex does to the tick is the same whether it comes before `Lock()` or
before the read of `txFinalLSN`. A call of `HandleMessage` that does not return ends
the run. A call that returns an error is followed by the next step. -/

/-- Modelled from the spec: a change of the lifecycle state, made by code outside the
sources at hand. The spec has transitions into `ShuttingDown` from any state and none
out of it. -/
def setState (r : Replicator) (s : ReplState) : Replicator :=
  if r.curState = .StateShuttingDown then r else { r with curState := s }

/-- One event at the engine: a record for `HandleMessage`; the state check of a tick
of the inactivity flusher; a tick that waits at `Lock()` obtaining the mutex; a
change of the lifecycle state. -/
inductive Step where
  | record (m : Message)
  | flushTick
  | flushLock
  | lifecycle (s : ReplState)
deriving DecidableEq, Repr

/-- The part of `flushFn` behind its state check, run with the mutex free: `Lock()`,
`tblBuffersFlush`, `Unlock()`. The error goes to the error channel. -/
def flushLocked (env : EngineEnv) (r : Replicator) : Replicator :=
  let (_, r1) := tblBuffersFlush env { r with inTxMutex := true }
  { r1 with inTxMutex := false }

/-- The state after one step, the number of ticks that have passed their state check
and wait at `Lock()`, and whether the run goes on. A check that does not find
`StateWorking` ends its tick; the step of a waiting tick does nothing while no tick
waits or the mutex is held. -/
def stepEngine (env : EngineEnv) (r : Replicator) (waiting : Nat) :
    Step → Replicator × Nat × Bool
  | .record m =>
    match HandleMessage env r m with
    | .returned _ r1 => (r1, waiting, true)
    | .aborted _ r1 => (r1, waiting, false)
  | .flushTick =>
    if r.curState ≠ .StateWorking then (r, waiting, true) else (r, waiting + 1, true)
  | .flushLock =>
    if waiting = 0 ∨ r.inTxMutex = true then (r, waiting, true)
    else (flushLocked env r, waiting - 1, true)
  | .lifecycle s => (setState r s, waiting, true)

/-- The state a run reaches from `r` with `waiting` ticks at `Lock()`: the steps are
taken in order until one ends the run. -/
def runFrom (env : EngineEnv) : Replicator → Nat → List Step → Replicator
  | r, _, [] => r
  | r, waiting, s :: ss =>
    match stepEngine env r waiting s with
    | (r1, waiting1, true) => runFrom env r1 waiting1 ss
    | (r1, _, false) => r1

/-- The state a run reaches when no tick waits at its start. -/
def run (env : EngineEnv) (r : Replicator) (steps : List Step) : Replicator :=
  runFrom env r 0 steps

/-- The LSNs passed to the consumer's `AdvanceLSN`, in order. -/
def advances : List Effect → List Nat
  | [] => []
  | .advanceLSN l :: log => l :: advances log
  | _ :: log => advances log

/-- The calls of `Commit()` on table buffers, in order. -/
def commitCalls (log : List Effect) : List Effect :=
  log.filter (fun e => match e with
    | .tblCommit _ => true
    | _ => false)

/-- The final LSNs of the Begin records of a run, in order. -/
def beginLSNs : List Step → List Nat
  | [] => []
  | .record (.Begin l _ _) :: ss => l :: beginLSNs ss
  | _ :: ss => beginLSNs ss

/-- Records that open or close no transaction and carry no row change: Relation,
Type and Origin. -/
def isMeta : Message → Bool
  | .Relation _ _ _ _ _ => true
  | .Type_ _ _ _ => true
  | .Origin _ _ => true
  | _ => false

/-- The calls a record with row changes makes on table buffers: `Begin`, `Insert`,
`Update`, `Delete`, `Truncate`. -/
def Effect.isDataCall : Effect → Bool
  | .tblBegin _ _ => true
  | .tblInsert _ _ => true
  | .tblUpdate _ _ _ => true
  | .tblDelete _ _ => true
  | .tblTruncate _ => true
  | _ => false

/-- From `r` to `r1` the final LSN, the lifecycle state and the mutex are unchanged
and only data calls were added to the log. -/
structure DataStep (r r1 : Replicator) : Prop where
  txFinalLSN : r1.txFinalLSN = r.txFinalLSN
  curState : r1.curState = r.curState
  inTxMutex : r1.inTxMutex = r.inTxMutex
  log : ∃ evs, r1.log = r.log ++ evs ∧ ∀ e ∈ evs, Effect.isDataCall e = true

/-- An engine in the transaction with final LSN 5 that has forwarded an Insert to
`public.t`. -/
def dmlTxEngine : Replicator :=
  { freshEngine with txFinalLSN := 5, inTxMutex := true, isEmptyTx := false,
                     inTxTables := ["public.t"], tablesToFlush := ["public.t"],
                     log := [.tblBegin "public.t" 5, .tblInsert "public.t" []] }

/-- An environment in which every `Commit()` of a buffer fails. -/
def failingCommitEnv : EngineEnv where
  tblErr := fun _ e => match e with
    | .tblCommit _ => true
    | _ => false
  relEqual := fun a b => decide (a = b)

/-- The calls `seg` made on the buffers since a Begin with final LSN `L`, seen
against the tables `T` in `inTxTables`: every call on a buffer is on a table of `T`,
and every `Begin` call carries `L` and is the first call on its buffer. -/
structure TxCalls (L : Nat) (T : List PgTableName) (seg : List Effect) : Prop where
  inTx : ∀ e ∈ seg, ∀ t, e.table = some t → t ∈ T
  beginFirst : ∀ pre t l post, seg = pre ++ Effect.tblBegin t l :: post →
    l = L ∧ ∀ e ∈ pre, e.table ≠ some t

/-- The engine inside a transaction with final LSN `L` whose log was `base` at the
Begin: the calls made since are as `TxCalls` says. -/
structure TxState (base : List Effect) (L : Nat) (r : Replicator) : Prop where
  txFinalLSN : r.txFinalLSN = L
  calls : ∃ seg, r.log = base ++ seg ∧ TxCalls L r.inTxTables seg

/-- The calls that forward a row change: `Insert`, `Update`, `Delete`, `Truncate`. -/
def Effect.isChange : Effect → Bool
  | .tblInsert _ _ => true
  | .tblUpdate _ _ _ => true
  | .tblDelete _ _ => true
  | .tblTruncate _ => true
  | _ => false

/-- A property of the engine state that the four state changes of a record inside a
transaction keep: a table is marked for flushing; a marked table enters the
transaction with the `Begin` call on its buffer; a row change is forwarded to a table
of the transaction; `isEmptyTx` is cleared. -/
structure TxClosed (P : Replicator → Prop) : Prop where
  mark : ∀ r t, P r → t ∉ r.tablesToFlush →
    P { r with tablesToFlush := r.tablesToFlush ++ [t] }
  enter : ∀ r t, P r → t ∈ r.tablesToFlush → t ∉ r.inTxTables →
    P { r with inTxTables := r.inTxTables ++ [t],
               log := r.log ++ [.tblBegin t r.txFinalLSN] }
  change : ∀ r e t, P r → e.table = some t → t ∈ r.inTxTables → e.isChange = true →
    P { r with log := r.log ++ [e] }
  flag : ∀ r, P r → P { r with isEmptyTx := false }

/-- Steps in which the records come as transactions (a Begin, then records with row
changes and Relation, Type and Origin records, then a Commit) and a tick runs, from
`Lock()` on, only between transactions; the flag tells whether a transaction is
open. -/
def betweenTx : Bool → List Step → Bool
  | _, [] => true
  | false, .record (.Begin _ _ _) :: ss => betweenTx true ss
  | true, .record (.Commit _ _ _ _) :: ss => betweenTx false ss
  | true, .record m :: ss => (isDML m || isMeta m) && betweenTx true ss
  | b, .flushTick :: ss => betweenTx b ss
  | false, .flushLock :: ss => betweenTx false ss
  | b, .lifecycle _ :: ss => betweenTx b ss
  | _, _ => false

/-- An engine in the transaction with final LSN 7 that has forwarded nothing. -/
def emptyTxEngine : Replicator :=
  { freshEngine with txFinalLSN := 7, inTxMutex := true, isEmptyTx := true }

/-- The engine of `openTxEngine` with a stored relation descriptor for `public.t`. -/
def relTxEngine : Replicator :=
  { openTxEngine with tblRelMsgs := [("public.t", .Relation 7 [] [116] 100 [])] }

/-! ## The disk-backed checkpoint store (`pkg/utils/kvstorage/diskv.go`)

The `diskv` library is a collaborator: `storage.Read(key)` is a parameter that gives
the stored bytes or an error. -/

/-- The error values met in `ReadUint`: the one `storage.Read` returns. -/
inductive StoreError where
  | readFailed
deriving DecidableEq, Repr

/-- The library function `strconv.ParseUint(s, 10, 64)`, after its documentation:
the value of a non-empty string of decimal digits when it is below 2^64; an error
(`none`) for the empty string, for a string with any other byte (a sign, a blank) and
for a value out of range. -/
def ParseUint (s : List Nat) : Option Nat :=
  if s = [] then none
  else if s.all (fun c => decide (48 ≤ c ∧ c ≤ 57)) then
    let v := s.foldl (fun acc c => acc * 10 + (c - 48)) 0
    if v < 18446744073709551616 then some v else none
  else none

/-- The method `diskvStorage.ReadUint`: the value and the error it returns (`none` is
nil). After a failed parse the method returns `err`, the error of the read, which is
nil there; the error of the parse is `err2`. -/
def ReadUint (read : String → Except StoreError (List Nat)) (key : String) :
    Nat × Option StoreError :=
  match read key with
  | .error e => (0, some e)
  | .ok cacheData =>
    let err : Option StoreError := none
    match ParseUint cacheData with
    | none => (0, err)
    | some val => (val, none)

/-- A store with the bytes `abc` under the key `k` and nothing else. -/
def corruptStore : String → Except StoreError (List Nat) :=
  fun key => if key = "k" then .ok [97, 98, 99] else .error .readFailed

/-! ## The tables to snapshot (`pkg/replicator/sync.go`)

The source connection, the statistics query `pgutils.PgStatLiveTuples` and the
`InitSync` of a table buffer are collaborators, given as parameters; the checkpoint
store is the one of the engine. `cfg.Tables` is a Go map: `tables` lists its keys in
the order the `range` visits them, which is not fixed. -/

/-- Errors `GetTablesToSync` returns. -/
inductive SyncError where
  | couldNotConnect
  | couldNotStartTransaction
  | couldNotGetStat
  | couldNotStartSync
deriving DecidableEq, Repr

/-- Configuration and collaborators of `GetTablesToSync`: the configured tables with
their `InitSyncSkip` option, the checkpoint store, whether connecting and starting the
transaction fail, the estimated row count `PgStatLiveTuples` returns for a table
(`none` is its error), and whether `InitSync` of a table fails. -/
structure SyncEnv where
  tables : List PgTableName
  initSyncSkip : PgTableName → Bool
  persStorage : List (PgTableName × StoredLSN)
  connectErr : Bool
  beginErr : Bool
  liveTuples : PgTableName → Option Nat
  initSyncErr : PgTableName → Bool

/-- How a call of `GetTablesToSync` ends: with the list, with an error, or in the panic
of `ReadLSN` on a stored value that does not parse. -/
inductive SyncOutcome where
  | returned (syncTables : List PgTableName)
  | failed (err : SyncError)
  | panicked
deriving DecidableEq, Repr

/-- The loop of `GetTablesToSync` over `cfg.Tables`, from the tables left to visit
and the current `syncTables` and `rowsCnt`. -/
def selectLoop (env : SyncEnv) :
    List PgTableName → List PgTableName → List (PgTableName × Nat) →
      SyncOutcome ⊕ (List PgTableName × List (PgTableName × Nat))
  | [], syncTables, rowsCnt => .inr (syncTables, rowsCnt)
  | tblName :: rest, syncTables, rowsCnt =>
    if env.initSyncSkip tblName then selectLoop env rest syncTables rowsCnt
    else
      match lookupKey tblName env.persStorage with
      | some .corrupted => .inl .panicked
      | stored =>
        let hasValidLSN : Bool :=
          match stored with
          | some (.value lsn) => decide (lsn ≠ InvalidLSN)
          | some (.failure lsn) => decide (lsn ≠ InvalidLSN)
          | _ => false
        if hasValidLSN then selectLoop env rest syncTables rowsCnt
        else
          match env.liveTuples tblName with
          | none => .inl (.failed .couldNotGetStat)
          | some n => selectLoop env rest (syncTables ++ [tblName]) ((tblName, n) :: rowsCnt)

/-- Insertion of `x`, which stood before the elements of the sorted list, keeping the
order of elements that `less` does not tell apart. -/
def insertStable {α : Type} (less : α → α → Bool) (x : α) : List α → List α
  | [] => [x]
  | y :: ys => if less y x then y :: insertStable less x ys else x :: y :: ys

/-- The library function `sort.SliceStable`, as the stable sort by insertion. -/
def sliceStable {α : Type} (less : α → α → Bool) : List α → List α
  | [] => []
  | x :: xs => insertStable less x (sliceStable less xs)

/-- The loop of `GetTablesToSync` that calls `InitSync` on the chosen tables. -/
def initSyncLoop (env : SyncEnv) : List PgTableName → Option SyncError
  | [] => none
  | t :: ts => if env.initSyncErr t then some .couldNotStartSync else initSyncLoop env ts

/-- The read `rowsCnt[t]` of a Go map: zero for a missing key. -/
def rowsCntOf (rowsCnt : List (PgTableName × Nat)) (t : PgTableName) : Nat :=
  (lookupKey t rowsCnt).getD 0

/-- The method `GetTablesToSync`. -/
def GetTablesToSync (env : SyncEnv) : SyncOutcome :=
  if env.connectErr then .failed .couldNotConnect
  else if env.beginErr then .failed .couldNotStartTransaction
  else
    match selectLoop env env.tables [] [] with
    | .inl out => out
    | .inr (syncTables, rowsCnt) =>
      let sorted : List PgTableName :=
        if 0 < syncTables.length then
          sliceStable (fun a b => decide (rowsCntOf rowsCnt a > rowsCntOf rowsCnt b)) syncTables
        else syncTables
      match initSyncLoop env sorted with
      | some err => .failed err
      | none => .returned sorted

/-- The estimated row count of a table. -/
def SyncEnv.estimate (env : SyncEnv) (t : PgTableName) : Nat := (env.liveTuples t).getD 0

/-- Whether the checkpoint store gives no valid LSN for a table: it has no entry under
the table's key, or `ReadLSN` returns `InvalidLSN` for it. -/
def SyncEnv.noValidLSN (env : SyncEnv) (t : PgTableName) : Prop :=
  lookupKey t env.persStorage = none ∨
  lookupKey t env.persStorage = some (.value InvalidLSN) ∨
  lookupKey t env.persStorage = some (.failure InvalidLSN)

/-- Three configured tables: `a` with a recorded LSN, `b` and `c` without one, `d`
excluded from the snapshot; estimated row counts 7, 3, 9 and 1. -/
def sampleSyncEnv : SyncEnv where
  tables := ["a", "b", "c", "d"]
  initSyncSkip := fun t => decide (t = "d")
  persStorage := [("a", .value 5), ("b", .value 0)]
  connectErr := false
  beginErr := false
  liveTuples := fun t =>
    if t = "a" then some 7 else if t = "b" then some 3 else if t = "c" then some 9 else some 1
  initSyncErr := fun _ => false

/-! ## Vocabulary of the decoder theorems -/

/-- Big-endian value of a byte string. -/
def beValue (bs : List Nat) : Nat := bs.foldl (fun acc b => acc * 256 + b) 0

/-- The reader `rd` decodes the layout `e` to `x`: it returns `x` and leaves what
follows `e`, and on `e` cut short at any point it panics. -/
structure Field {α : Type} (rd : List Nat → Except Panic (α × List Nat)) (e : List Nat)
    (x : α) : Prop where
  reads : ∀ rest, rd (e ++ rest) = .ok (x, rest)
  short : ∀ p q, e = p ++ q → q ≠ [] → ∃ k, rd p = .error k

/-- Number of value bytes of the last tuple of a row when that tuple is Text, 0
otherwise. -/
def finalValueLength : Row → Nat
  | [] => 0
  | [some ⟨.TupleText, v⟩] => v.length
  | [_] => 0
  | _ :: t :: ts => finalValueLength (t :: ts)

/-- Number of value bytes at the very end of a message: those of the last tuple of
the last row when it is Text. -/
def Message.finalValueLength : Message → Nat
  | .Insert _ _ row => Pg2ch.finalValueLength row
  | .Update _ _ _ _ _ row => Pg2ch.finalValueLength row
  | .Delete _ _ _ row => Pg2ch.finalValueLength row
  | _ => 0

/-! ## Theorems -/

/-! ### Decoder: message type dispatch, Truncate flags, tuple kinds -/

/-- C7. A first byte that is none of the nine tags makes `Parse` return the
unknown-type error (and so no record) whatever follows, and `Parse` returns an error
only then: for one of the nine tags it returns a record or panics. -/
theorem Parse_error_iff_unknown_type (t : Nat) (buf : List Nat) :
    (t ∉ msgTypes → Parse (t :: buf) = .error t) ∧
    (t ∈ msgTypes → ∀ e, Parse (t :: buf) ≠ .error e) := by
  constructor
  · intro h
    simp only [msgTypes, List.mem_cons, List.mem_singleton, not_or, List.not_mem_nil,
      or_false] at h
    obtain ⟨h1, h2, h3, h4, h5, h6, h7, h8, h9⟩ := h
    simp [Parse, h1, h2, h3, h4, h5, h6, h7, h8, h9]
  · intro h e
    have hres : ∀ x : Except Panic Message, ParseResult.ofExcept x ≠ .error e := by
      intro x; cases x <;> simp [ParseResult.ofExcept]
    simp only [msgTypes, List.mem_cons, List.mem_singleton, List.not_mem_nil, or_false] at h
    simp only [Parse]
    split_ifs
    all_goals first | exact hres _ | (exfalso; tauto)

theorem Parse_error_iff_unknown_type_witness :
    Parse (88 :: [1, 2, 3]) = .error 88 ∧ ∀ e, Parse (66 :: [1, 2, 3]) ≠ .error e :=
  ⟨(Parse_error_iff_unknown_type 88 [1, 2, 3]).1 (by decide),
   (Parse_error_iff_unknown_type 66 [1, 2, 3]).2 (by decide)⟩

/-- C5. On the Truncate message for relation 5 with options byte 2 (restart identity
set, cascade clear) `Parse` returns a record whose `RestartIdentity` is false: the
test `options & 2 == 1` never holds. -/
theorem Parse_truncate_restart_identity_lost :
    Parse (wire.encode (.Truncate false true [5])) = .record (.Truncate false false [5]) ∧
    wire.encode (.Truncate false true [5]) = [84, 0, 0, 0, 1, 2, 0, 0, 0, 5] := by
  decide

/-- C8. On the Insert message whose single tuple has the kind tag `x`, `Parse`
returns a record (with a nil tuple in the row) instead of failing. -/
theorem Parse_unknown_tuple_kind_returns_record :
    Parse [73, 0, 0, 0, 1, 78, 0, 1, 120] = .record (.Insert 1 true [none]) := by
  decide

/-! ### Engine: Begin, Commit and replayed records -/

/-- C2. In the state between transactions (`txFinalLSN = InvalidLSN`, lifecycle
`StateWorking`) the Begin record that `Parse` returns for final LSN 5 is dropped by
`HandleMessage`: the assertion `msg.(message.Begin)` fails for the pointer, so
`txFinalLSN` stays `InvalidLSN` and `isEmptyTx` stays false. -/
theorem HandleMessage_begin_dropped_between_transactions :
    Parse [66, 0, 0, 0, 0, 0, 0, 0, 5, 0, 0, 0, 0, 0, 0, 0, 0, 0, 0, 0, 0] =
      .record (.Begin 5 0 0) ∧
    HandleMessage quietEnv freshEngine (.Begin 5 0 0) = .returned none freshEngine ∧
    freshEngine.txFinalLSN = InvalidLSN ∧ freshEngine.isEmptyTx = false ∧
    freshEngine.curState = .StateWorking := by
  refine ⟨by decide, rfl, rfl, rfl, rfl⟩

theorem callsOn_append (t : PgTableName) (l1 l2 : List Effect) :
    callsOn t (l1 ++ l2) = callsOn t l1 ++ callsOn t l2 := by
  simp [callsOn]

theorem callsOn_other (t : PgTableName) (e : Effect) (h : e.table ≠ some t) :
    callsOn t [e] = [] := by
  simp [callsOn, h]

/-- What `checkAndGetTable` leaves alone, and what it does for a table whose
checkpoint is at or above the transaction's final LSN: no call on its buffer, not
added to `inTxTables`, never the table returned. -/
theorem checkAndGetTable_replayed (env : EngineEnv) (r : Replicator) (oid : Nat)
    (T : PgTableName) (l : Nat) (hst : lookupKey T r.persStorage = some (.value l))
    (hle : r.txFinalLSN ≤ l) :
    (checkAndGetTable env r oid).state.persStorage = r.persStorage ∧
    (checkAndGetTable env r oid).state.txFinalLSN = r.txFinalLSN ∧
    callsOn T (checkAndGetTable env r oid).state.log = callsOn T r.log ∧
    (T ∈ (checkAndGetTable env r oid).state.inTxTables → T ∈ r.inTxTables) ∧
    (∀ t e r1, checkAndGetTable env r oid = .returned (some t, e) r1 → t ≠ T) := by
  unfold checkAndGetTable
  cases hoid : lookupKey oid r.oidName with
  | none => simp [Outcome.state]
  | some tblName =>
    simp only []
    by_cases hch : tblName ∈ r.chTables
    · simp only [hch, not_true_eq_false, if_false]
      by_cases hT : tblName = T
      · subst hT
        have hps : ∀ r1 : Replicator, r1.persStorage = r.persStorage →
            lookupKey tblName r1.persStorage = some (.value l) := by
          intro r1 h1; rw [h1]; exact hst
        by_cases htf : tblName ∈ r.tablesToFlush
        · simp [htf, hst, hle, Outcome.state]
        · simp [htf, hst, hle, Outcome.state]
      · by_cases htf : tblName ∈ r.tablesToFlush
        · simp only [htf, if_true]
          cases hps : lookupKey tblName r.persStorage with
          | none =>
            simp only []
            split_ifs <;>
              simp [Outcome.state, Replicator.call, callsOn_append, callsOn, Effect.table, hT,
                Ne.symm hT]
          | some v =>
            cases v <;> simp only [] <;> (try split_ifs) <;>
              simp [Outcome.state, Replicator.call, callsOn_append, callsOn, Effect.table, hT,
                Ne.symm hT]
        · simp only [htf, if_false]
          cases hps : lookupKey tblName r.persStorage with
          | none =>
            simp only []
            split_ifs <;>
              simp [Outcome.state, Replicator.call, callsOn_append, callsOn, Effect.table, hT,
                Ne.symm hT]
          | some v =>
            cases v <;> simp only [] <;> (try split_ifs) <;>
              simp [Outcome.state, Replicator.call, callsOn_append, callsOn, Effect.table, hT,
                Ne.symm hT]
    · simp [hch, Outcome.state]

/-- The loop of `processTruncate` keeps a replayed table untouched. -/
theorem processTruncate_replayed (env : EngineEnv) (oids : List Nat) (T : PgTableName) (l : Nat) :
    ∀ r : Replicator, lookupKey T r.persStorage = some (.value l) → r.txFinalLSN ≤ l →
    callsOn T (processTruncate env r oids).state.log = callsOn T r.log ∧
    (T ∈ (processTruncate env r oids).state.inTxTables → T ∈ r.inTxTables) := by
  induction oids with
  | nil => intro r _ _; simp [processTruncate, Outcome.state]
  | cons oid oids ih =>
    intro r hst hle
    obtain ⟨h1, h2, h3, h4, h5⟩ := checkAndGetTable_replayed env r oid T l hst hle
    unfold processTruncate
    cases hc : checkAndGetTable env r oid with
    | aborted w r1 =>
      rw [hc] at h3 h4
      exact ⟨h3, h4⟩
    | returned val r1 =>
      rw [hc] at h1 h2 h3 h4
      simp only [Outcome.state] at h1 h2 h3 h4
      obtain ⟨tbl, err⟩ := val
      cases tbl with
      | none =>
        cases err with
        | some e => exact ⟨h3, h4⟩
        | none =>
          simp only []
          obtain ⟨k1, k2⟩ := ih r1 (by rw [h1]; exact hst) (by rw [h2]; exact hle)
          exact ⟨k1.trans h3, fun h => h4 (k2 h)⟩
      | some t =>
        cases err with
        | some e => exact ⟨h3, h4⟩
        | none =>
          have hne : t ≠ T := h5 t none r1 hc
          simp only [Replicator.call]
          split_ifs
          · simp only [Outcome.state, callsOn_append]
            rw [callsOn_other T _ (by simpa [Effect.table] using hne)]
            simpa using ⟨h3, h4⟩
          · obtain ⟨k1, k2⟩ := ih { r1 with log := r1.log ++ [.tblTruncate t] }
              (by simpa [h1] using hst) (by simpa [h2] using hle)
            refine ⟨k1.trans ?_, fun h => h4 (k2 h)⟩
            simp only [callsOn_append]
            rw [callsOn_other T _ (by simpa [Effect.table] using hne)]
            simpa using h3

theorem processInsert_replayed (env : EngineEnv) (r : Replicator) (oid : Nat) (newRow : Row)
    (T : PgTableName) (l : Nat) (hst : lookupKey T r.persStorage = some (.value l))
    (hle : r.txFinalLSN ≤ l) :
    callsOn T (processInsert env r oid newRow).state.log = callsOn T r.log ∧
    (T ∈ (processInsert env r oid newRow).state.inTxTables → T ∈ r.inTxTables) := by
  obtain ⟨_, _, h3, h4, h5⟩ := checkAndGetTable_replayed env r oid T l hst hle
  unfold processInsert
  cases hc : checkAndGetTable env r oid with
  | aborted w r1 =>
    rw [hc] at h3 h4
    exact ⟨h3, h4⟩
  | returned val r1 =>
    rw [hc] at h3 h4
    simp only [Outcome.state] at h3 h4
    obtain ⟨tbl, err⟩ := val
    cases tbl with
    | none => cases err <;> exact ⟨h3, h4⟩
    | some t =>
      cases err with
      | some e => exact ⟨h3, h4⟩
      | none =>
        have hne : t ≠ T := h5 t none r1 hc
        simp only [Replicator.call]
        split_ifs <;>
        · simp only [Outcome.state, callsOn_append]
          rw [callsOn_other T _ (by simpa [Effect.table] using hne)]
          simpa using ⟨h3, h4⟩

theorem processUpdate_replayed (env : EngineEnv) (r : Replicator) (oid : Nat)
    (oldRow newRow : Row) (T : PgTableName) (l : Nat)
    (hst : lookupKey T r.persStorage = some (.value l)) (hle : r.txFinalLSN ≤ l) :
    callsOn T (processUpdate env r oid oldRow newRow).state.log = callsOn T r.log ∧
    (T ∈ (processUpdate env r oid oldRow newRow).state.inTxTables → T ∈ r.inTxTables) := by
  obtain ⟨_, _, h3, h4, h5⟩ := checkAndGetTable_replayed env r oid T l hst hle
  unfold processUpdate
  cases hc : checkAndGetTable env r oid with
  | aborted w r1 =>
    rw [hc] at h3 h4
    exact ⟨h3, h4⟩
  | returned val r1 =>
    rw [hc] at h3 h4
    simp only [Outcome.state] at h3 h4
    obtain ⟨tbl, err⟩ := val
    cases tbl with
    | none => cases err <;> exact ⟨h3, h4⟩
    | some t =>
      cases err with
      | some e => exact ⟨h3, h4⟩
      | none =>
        have hne : t ≠ T := h5 t none r1 hc
        simp only [Replicator.call]
        split_ifs <;>
        · simp only [Outcome.state, callsOn_append]
          rw [callsOn_other T _ (by simpa [Effect.table] using hne)]
          simpa using ⟨h3, h4⟩

theorem processDelete_replayed (env : EngineEnv) (r : Replicator) (oid : Nat) (oldRow : Row)
    (T : PgTableName) (l : Nat) (hst : lookupKey T r.persStorage = some (.value l))
    (hle : r.txFinalLSN ≤ l) :
    callsOn T (processDelete env r oid oldRow).state.log = callsOn T r.log ∧
    (T ∈ (processDelete env r oid oldRow).state.inTxTables → T ∈ r.inTxTables) := by
  obtain ⟨_, _, h3, h4, h5⟩ := checkAndGetTable_replayed env r oid T l hst hle
  unfold processDelete
  cases hc : checkAndGetTable env r oid with
  | aborted w r1 =>
    rw [hc] at h3 h4
    exact ⟨h3, h4⟩
  | returned val r1 =>
    rw [hc] at h3 h4
    simp only [Outcome.state] at h3 h4
    obtain ⟨tbl, err⟩ := val
    cases tbl with
    | none => cases err <;> exact ⟨h3, h4⟩
    | some t =>
      cases err with
      | some e => exact ⟨h3, h4⟩
      | none =>
        have hne : t ≠ T := h5 t none r1 hc
        simp only [Replicator.call]
        split_ifs <;>
        · simp only [Outcome.state, callsOn_append]
          rw [callsOn_other T _ (by simpa [Effect.table] using hne)]
          simpa using ⟨h3, h4⟩

/-- C3. A table `T` whose checkpointed LSN `l` is at or above the final LSN of the
current transaction is left alone by every Insert, Update, Delete or Truncate record,
whichever tables the record refers to: `HandleMessage` makes no call (begin, insert,
update, delete, truncate or any other) on the buffer of `T`, and `T` is not added to
`inTxTables`. -/
theorem HandleMessage_replayed_record_dropped (env : EngineEnv) (r : Replicator) (msg : Message)
    (T : PgTableName) (l : Nat) (hdml : isDML msg = true)
    (hst : lookupKey T r.persStorage = some (.value l)) (hle : r.txFinalLSN ≤ l) :
    callsOn T (HandleMessage env r msg).state.log = callsOn T r.log ∧
    (T ∈ (HandleMessage env r msg).state.inTxTables → T ∈ r.inTxTables) := by
  unfold HandleMessage
  by_cases h0 : r.txFinalLSN = InvalidLSN ∧ isBeginVal msg = false
  · rw [if_pos h0]; simp [Outcome.state]
  · rw [if_neg h0]
    cases msg with
    | Insert oid isNew newRow => exact processInsert_replayed env r oid newRow T l hst hle
    | Update oid isKey isOld isNew oldRow newRow =>
      exact processUpdate_replayed env r oid oldRow newRow T l hst hle
    | Delete oid isKey isOld oldRow => exact processDelete_replayed env r oid oldRow T l hst hle
    | Truncate c ri oids => exact processTruncate_replayed env oids T l r hst hle
    | _ => simp [isDML] at hdml

/-- An Insert for OID 7 in the transaction with final LSN 5, where `public.t` (OID 7)
is checkpointed at LSN 9: no call on the buffer, not added to `inTxTables`. -/
theorem HandleMessage_replayed_record_dropped_witness :
    callsOn "public.t" (HandleMessage quietEnv openTxEngine
        (.Insert 7 true [some ⟨.TupleText, [97]⟩])).state.log = callsOn "public.t" openTxEngine.log ∧
    ("public.t" ∈ (HandleMessage quietEnv openTxEngine
        (.Insert 7 true [some ⟨.TupleText, [97]⟩])).state.inTxTables →
      "public.t" ∈ openTxEngine.inTxTables) :=
  HandleMessage_replayed_record_dropped quietEnv openTxEngine
    (.Insert 7 true [some ⟨.TupleText, [97]⟩]) "public.t" 9 rfl rfl (by decide)

/-- The commit loop changes nothing but the log. -/
theorem commitLoop_frame (env : EngineEnv) (ts : List PgTableName) :
    ∀ r : Replicator, (commitLoop env r ts).2 = { r with log := (commitLoop env r ts).2.log } := by
  induction ts with
  | nil => intro r; rfl
  | cons t ts ih =>
    intro r
    simp only [commitLoop, Replicator.call]
    split_ifs
    · rfl
    · rw [ih]

/-- Without a failing buffer the commit loop reports no failure. -/
theorem commitLoop_quiet (env : EngineEnv) (hq : ∀ log e, env.tblErr log e = false)
    (ts : List PgTableName) : ∀ r : Replicator, (commitLoop env r ts).1 = false := by
  induction ts with
  | nil => intro r; rfl
  | cons t ts ih =>
    intro r
    simp only [commitLoop, Replicator.call, hq]
    exact ih _

theorem processCommit_txFinalLSN (env : EngineEnv) (r : Replicator) :
    (processCommit env r).state.txFinalLSN = r.txFinalLSN := by
  have hf := commitLoop_frame env r.inTxTables r
  unfold processCommit unlockDeferred
  cases he : r.isEmptyTx
  · simp only [Bool.not_false, if_true]
    split_ifs <;> simp only [Outcome.state] <;> rw [hf]
  · simp only [Bool.not_true, Bool.false_eq_true, if_false]
    split_ifs <;> rfl

/-- C4 (as amended). `HandleMessage` on a Commit record never changes `txFinalLSN`,
however the call ends; and in an open transaction (`txFinalLSN` not `InvalidLSN`,
mutex held) whose buffers do not fail, the Commit is processed successfully and
leaves `txFinalLSN` at the final LSN of the committed transaction, `inTxTables`
empty and the mutex released. -/
theorem HandleMessage_commit_keeps_txFinalLSN (env : EngineEnv) (r : Replicator)
    (flags lsn txLSN : Nat) (ts : Int) :
    (HandleMessage env r (.Commit flags lsn txLSN ts)).state.txFinalLSN = r.txFinalLSN ∧
    (r.txFinalLSN ≠ InvalidLSN → r.inTxMutex = true → (∀ log e, env.tblErr log e = false) →
      ∃ r1, HandleMessage env r (.Commit flags lsn txLSN ts) = .returned none r1 ∧
        r1.txFinalLSN = r.txFinalLSN ∧ r1.inTxTables = [] ∧ r1.inTxMutex = false) := by
  constructor
  · unfold HandleMessage
    by_cases h0 : r.txFinalLSN = InvalidLSN ∧ isBeginVal (.Commit flags lsn txLSN ts) = false
    · rw [if_pos h0]; rfl
    · rw [if_neg h0]; exact processCommit_txFinalLSN env r
  · intro hopen hlock hq
    have hf := commitLoop_frame env r.inTxTables r
    have hn := commitLoop_quiet env hq r.inTxTables r
    unfold HandleMessage
    rw [if_neg (by simp [hopen])]
    simp only [processCommit, unlockDeferred]
    cases he : r.isEmptyTx
    · simp only [Bool.not_false, if_true, hn, Bool.false_eq_true, if_false]
      rw [hf]
      simp [hlock]
    · simp [hlock]

theorem HandleMessage_commit_keeps_txFinalLSN_witness :
    ∃ r1, HandleMessage quietEnv openTxEngine (.Commit 0 5 6 0) = .returned none r1 ∧
      r1.txFinalLSN = openTxEngine.txFinalLSN ∧ r1.inTxTables = [] ∧ r1.inTxMutex = false :=
  (HandleMessage_commit_keeps_txFinalLSN quietEnv openTxEngine 0 5 6 0).2
    (by decide) rfl (fun _ _ => rfl)

/-- C4 (counterexample). In the open transaction with final LSN 5 a Commit record is
processed successfully and `txFinalLSN` is 5 afterwards, not `InvalidLSN`. -/
theorem HandleMessage_commit_does_not_reset_txFinalLSN :
    openTxEngine.txFinalLSN ≠ InvalidLSN ∧
    ∃ r1, HandleMessage quietEnv openTxEngine (.Commit 0 5 6 0) = .returned none r1 ∧
      r1.txFinalLSN = 5 ∧ r1.txFinalLSN ≠ InvalidLSN :=
  ⟨by decide, _, rfl, rfl, by decide⟩

/-! ### Decoder: the primitive readers on their layouts -/

theorem bind_ok {α β : Type} (v : α) (f : α → Except Panic β) :
    (Except.ok v >>= f) = f v := rfl

theorem bind_error {α β : Type} (k : Panic) (f : α → Except Panic β) :
    ((Except.error k : Except Panic α) >>= f) = .error k := rfl

theorem uint8_short (p : List Nat) (h : p.length < 1) :
    decoder.uint8 p = .error .indexOutOfRange := by
  match p, h with
  | [], _ => rfl

theorem uint16_short (p : List Nat) (h : p.length < 2) :
    decoder.uint16 p = .error .indexOutOfRange := by
  match p, h with
  | [], _ => rfl
  | [_], _ => rfl

theorem uint32_short (p : List Nat) (h : p.length < 4) :
    decoder.uint32 p = .error .indexOutOfRange := by
  match p, h with
  | [], _ => rfl
  | [_], _ => rfl
  | [_, _], _ => rfl
  | [_, _, _], _ => rfl

theorem uint64_short (p : List Nat) (h : p.length < 8) :
    decoder.uint64 p = .error .indexOutOfRange := by
  match p, h with
  | [], _ => rfl
  | [_], _ => rfl
  | [_, _], _ => rfl
  | [_, _, _], _ => rfl
  | [_, _, _, _], _ => rfl
  | [_, _, _, _, _], _ => rfl
  | [_, _, _, _, _, _], _ => rfl
  | [_, _, _, _, _, _, _], _ => rfl

theorem cut_length {p q e : List Nat} (h : e = p ++ q) (hq : q ≠ []) : p.length < e.length := by
  subst h
  have : 0 < q.length := List.length_pos.mpr hq
  simp; omega

theorem field_uint8 (n : Nat) (h : n < 2 ^ 8) : Field decoder.uint8 (wire.u8 n) n where
  reads rest := by
    simp only [wire.u8, List.singleton_append, decoder.uint8]
    rw [Nat.mod_eq_of_lt (by simpa using h)]
  short p q hcut hq := ⟨_, uint8_short p (by simpa [wire.u8] using cut_length hcut hq)⟩

theorem field_uint16 (n : Nat) (h : n < 2 ^ 16) : Field decoder.uint16 (wire.u16 n) n where
  reads rest := by
    have e : n / 256 % 256 * 256 + n % 256 = n := by omega
    simp only [wire.u16, List.cons_append, List.nil_append, decoder.uint16, e]
  short p q hcut hq := ⟨_, uint16_short p (by simpa [wire.u16] using cut_length hcut hq)⟩

theorem field_uint32 (n : Nat) (h : n < 2 ^ 32) : Field decoder.uint32 (wire.u32 n) n where
  reads rest := by
    have e : ((n / 16777216 % 256 * 256 + n / 65536 % 256) * 256 + n / 256 % 256) * 256 +
        n % 256 = n := by omega
    simp only [wire.u32, List.cons_append, List.nil_append, decoder.uint32, e]
  short p q hcut hq := ⟨_, uint32_short p (by simpa [wire.u32] using cut_length hcut hq)⟩

theorem field_uint64 (n : Nat) (h : n < 2 ^ 64) : Field decoder.uint64 (wire.u64 n) n where
  reads rest := by
    have e : ((((((n / 72057594037927936 % 256 * 256 + n / 281474976710656 % 256) * 256 +
        n / 1099511627776 % 256) * 256 + n / 4294967296 % 256) * 256 +
        n / 16777216 % 256) * 256 + n / 65536 % 256) * 256 + n / 256 % 256) * 256 +
        n % 256 = n := by omega
    simp only [wire.u64, List.cons_append, List.nil_append, decoder.uint64, e]
  short p q hcut hq := ⟨_, uint64_short p (by simpa [wire.u64] using cut_length hcut hq)⟩

theorem field_oid (n : Nat) (h : n < 2 ^ 32) : Field decoder.oid (wire.u32 n) n :=
  field_uint32 n h

theorem field_lsn (n : Nat) (h : n < 2 ^ 64) : Field decoder.lsn (wire.u64 n) n :=
  field_uint64 n h

theorem toInt32_i32 (i : Int) (h1 : -2147483648 ≤ i) (h2 : i < 2147483648) :
    decoder.toInt32 (i % 4294967296).toNat = i := by
  unfold decoder.toInt32
  split_ifs <;> omega

theorem field_int32 (i : Int) (h1 : -2147483648 ≤ i) (h2 : i < 2147483648) :
    Field decoder.int32 (wire.i32 i) i where
  reads rest := by
    have hlt : (i % 4294967296).toNat < 2 ^ 32 := by omega
    simp only [decoder.int32, wire.i32, (field_uint32 _ hlt).reads, toInt32_i32 i h1 h2]
  short p q hcut hq := by
    have hlt : (i % 4294967296).toNat < 2 ^ 32 := by omega
    obtain ⟨k, hk⟩ := (field_uint32 _ hlt).short p q hcut hq
    exact ⟨k, by simp only [decoder.int32, hk]⟩

/-- Within the range of `time.Duration` the product by 1000 does not wrap. -/
theorem wrapInt64_exact (i : Int) (h1 : -9223372036854775808 ≤ i) (h2 : i < 9223372036854775808) :
    decoder.wrapInt64 i = i := by
  unfold decoder.wrapInt64 decoder.toInt64
  split_ifs <;> omega

theorem toInt64_micros (t : Int) (hm : t % 1000 = 0) (h1 : -9223372036854775808 ≤ t)
    (h2 : t < 9223372036854775808) :
    decoder.toInt64 ((t / 1000) % 18446744073709551616).toNat * 1000 = t := by
  unfold decoder.toInt64
  split_ifs <;> omega

theorem field_timestamp (t : Int) (hwf : wire.WFTimestamp t) (h1 : -9223372036854775808 ≤ t)
    (h2 : t < 9223372036854775808) :
    Field decoder.timestamp (wire.micros t) t where
  reads rest := by
    have hlt : ((t / 1000) % 18446744073709551616).toNat < 2 ^ 64 := by omega
    simp only [decoder.timestamp, wire.micros, (field_uint64 _ hlt).reads,
      toInt64_micros t hwf.1 h1 h2, wrapInt64_exact t h1 h2]
  short p q hcut hq := by
    have hlt : ((t / 1000) % 18446744073709551616).toNat < 2 ^ 64 := by omega
    obtain ⟨k, hk⟩ := (field_uint64 _ hlt).short p q hcut hq
    exact ⟨k, by simp only [decoder.timestamp, hk]⟩

/-- The timestamp reader on any 8-byte field: what it returns without the range
condition. -/
theorem field_timestamp_any (t : Int) :
    Field decoder.timestamp (wire.micros t)
      (decoder.wrapInt64
        (decoder.toInt64 ((t / 1000) % 18446744073709551616).toNat * 1000)) where
  reads rest := by
    have hlt : ((t / 1000) % 18446744073709551616).toNat < 2 ^ 64 := by omega
    simp only [decoder.timestamp, wire.micros, (field_uint64 _ hlt).reads]
  short p q hcut hq := by
    have hlt : ((t / 1000) % 18446744073709551616).toNat < 2 ^ 64 := by omega
    obtain ⟨k, hk⟩ := (field_uint64 _ hlt).short p q hcut hq
    exact ⟨k, by simp only [decoder.timestamp, hk]⟩

/-! ### Decoder: cutting a layout, strings, flags and lists -/

/-- A cut of `e ++ E` falls after `e` or strictly inside it. -/
theorem split_cut {e E p q : List Nat} (h : e ++ E = p ++ q) :
    (∃ a, p = e ++ a ∧ E = a ++ q) ∨ (∃ c, c ≠ [] ∧ e = p ++ c ∧ q = c ++ E) := by
  rcases List.append_eq_append_iff.mp h with ⟨a, hp, hE⟩ | ⟨c, he, hq⟩
  · exact Or.inl ⟨a, hp, hE⟩
  · by_cases hc : c = []
    · subst hc
      exact Or.inl ⟨[], by simpa using he.symm, by simpa using hq.symm⟩
    · exact Or.inr ⟨c, hc, he, hq⟩

theorem Field.bind_short {α β : Type} {rd : List Nat → Except Panic (α × List Nat)}
    {e : List Nat} {x : α} (hf : Field rd e x) (f : α × List Nat → Except Panic β) (E p q : List Nat)
    (hcut : e ++ E = p ++ q)
    (hk : ∀ p1, E = p1 ++ q → ∃ k, f (x, p1) = .error k) : ∃ k, (rd p >>= f) = .error k := by
  rcases split_cut hcut with ⟨a, hp, hE⟩ | ⟨c, hc, he, _⟩
  · obtain ⟨k, hk1⟩ := hk a hE
    exact ⟨k, by rw [hp, hf.reads, bind_ok, hk1]⟩
  · obtain ⟨k, hk1⟩ := hf.short p c he hc
    exact ⟨k, by rw [hk1, bind_error]⟩

theorem Field.bind_short_last {α β : Type} {rd : List Nat → Except Panic (α × List Nat)}
    {e : List Nat} {x : α} (hf : Field rd e x) (f : α × List Nat → Except Panic β) (p q : List Nat)
    (hcut : e = p ++ q) (hq : q ≠ []) : ∃ k, (rd p >>= f) = .error k := by
  obtain ⟨k, hk1⟩ := hf.short p q hcut hq
  exact ⟨k, by rw [hk1, bind_error]⟩

theorem Field.bind_reads {α β : Type} {rd : List Nat → Except Panic (α × List Nat)}
    {e : List Nat} {x : α} (hf : Field rd e x) (f : α × List Nat → Except Panic β) (E : List Nat) :
    (rd (e ++ E) >>= f) = f (x, E) := by
  rw [hf.reads, bind_ok]

theorem Field.bind_reads_last {α β : Type} {rd : List Nat → Except Panic (α × List Nat)}
    {e : List Nat} {x : α} (hf : Field rd e x) (f : α × List Nat → Except Panic β) :
    (rd e >>= f) = f (x, []) := by
  have h := hf.reads []
  rw [List.append_nil] at h
  rw [h, bind_ok]

theorem readBytes0_none (p : List Nat) (h : 0 ∉ p) : decoder.readBytes0 p = none := by
  induction p with
  | nil => rfl
  | cons b p ih =>
    simp only [List.mem_cons, not_or] at h
    simp [decoder.readBytes0, Ne.symm h.1, ih h.2]

theorem readBytes0_nul (s rest : List Nat) (h : 0 ∉ s) :
    decoder.readBytes0 (s ++ 0 :: rest) = some (s, rest) := by
  induction s with
  | nil => simp [decoder.readBytes0]
  | cons b s ih =>
    simp only [List.mem_cons, not_or] at h
    rw [List.cons_append, decoder.readBytes0, if_neg (Ne.symm h.1), ih h.2]

theorem field_string (s : List Nat) (h : 0 ∉ s) : Field decoder.string (wire.cstring s) s where
  reads rest := by
    simp only [decoder.string, wire.cstring, List.append_assoc, List.singleton_append,
      readBytes0_nul s rest h]
  short p q hcut hq := by
    have hp : 0 ∉ p := by
      rcases split_cut (e := s) (E := [0]) (p := p) (q := q) hcut with ⟨a, hp, hE⟩ | ⟨c, _, he, _⟩
      · have ha : a = [] := by
          cases a with
          | nil => rfl
          | cons x a =>
            have := congrArg List.length hE
            have hql : 0 < q.length := List.length_pos.mpr hq
            simp only [List.length_append, List.length_cons, List.length_nil] at this
            omega
        subst ha
        rw [hp]
        simpa using h
      · intro hmem
        exact h (by rw [he]; exact List.mem_append_left _ hmem)
    exact ⟨.eof, by simp only [decoder.string, readBytes0_none p hp]⟩

theorem field_bool (b : Bool) : Field decoder.bool [if b then 1 else 0] b where
  reads rest := by cases b <;> simp [decoder.bool]
  short p q hcut hq := by
    have := cut_length hcut hq
    match p, this with
    | [], _ => exact ⟨_, rfl⟩

theorem field_byte (n : Nat) : Field decoder.uint8 [n] n where
  reads rest := rfl
  short p q hcut hq := by
    have := cut_length hcut hq
    match p, this with
    | [], _ => exact ⟨_, rfl⟩

theorem columnLoop_field (cs : List Column) (h : ∀ c ∈ cs, wire.WFColumn c) :
    Field (decoder.columnLoop cs.length) (wire.columnList cs) cs := by
  induction cs with
  | nil =>
    exact ⟨fun rest => rfl, fun p q hcut hq => by
      have := cut_length hcut hq
      simp [wire.columnList] at this⟩
  | cons c cs ih =>
    have hc := h c (List.mem_cons_self _ _)
    obtain ⟨hn, ho, hm1, hm2⟩ := hc
    have ih := ih (fun c hc => h c (List.mem_cons_of_mem _ hc))
    constructor
    · intro rest
      simp only [wire.columnList, wire.column, List.length_cons, decoder.columnLoop,
        List.cons_append, List.append_assoc]
      rw [← List.singleton_append, (field_bool c.IsKey).bind_reads]
      simp only []
      rw [(field_string c.Name hn).bind_reads]
      simp only []
      rw [(field_oid c.TypeOID ho).bind_reads]
      simp only []
      rw [(field_int32 c.Mode hm1 hm2).bind_reads]
      simp only []
      rw [ih.bind_reads]
      rfl
    · intro p q hcut hq
      simp only [wire.columnList, wire.column, List.length_cons, decoder.columnLoop,
        List.cons_append, List.append_assoc] at hcut ⊢
      rw [← List.singleton_append] at hcut
      refine (field_bool c.IsKey).bind_short _ _ p q hcut ?_
      intro p1 h1
      simp only []
      refine (field_string c.Name hn).bind_short _ _ p1 q h1 ?_
      intro p2 h2
      simp only []
      refine (field_oid c.TypeOID ho).bind_short _ _ p2 q h2 ?_
      intro p3 h3
      simp only []
      refine (field_int32 c.Mode hm1 hm2).bind_short _ _ p3 q h3 ?_
      intro p4 h4
      simp only []
      exact ih.bind_short_last _ p4 q h4 hq

theorem field_columns (cs : List Column) (hl : cs.length < 2 ^ 16)
    (h : ∀ c ∈ cs, wire.WFColumn c) : Field decoder.columns (wire.columns cs) cs := by
  have hloop := columnLoop_field cs h
  constructor
  · intro rest
    simp only [decoder.columns, wire.columns, List.append_assoc,
      (field_uint16 cs.length hl).reads, hloop.reads]
  · intro p q hcut hq
    simp only [wire.columns] at hcut
    rcases split_cut hcut with ⟨a, hp, hE⟩ | ⟨c, hc, he, _⟩
    · obtain ⟨k, hk⟩ := hloop.short a q hE hq
      exact ⟨k, by simp only [decoder.columns, hp, (field_uint16 cs.length hl).reads, hk]⟩
    · obtain ⟨k, hk⟩ := (field_uint16 cs.length hl).short p c he hc
      exact ⟨k, by simp only [decoder.columns, hk]⟩

theorem oidLoop_field (os : List Nat) (h : ∀ o ∈ os, o < 2 ^ 32) :
    Field (decoder.oidLoop os.length) (wire.oids os) os := by
  induction os with
  | nil =>
    exact ⟨fun rest => rfl, fun p q hcut hq => by
      have := cut_length hcut hq
      simp [wire.oids] at this⟩
  | cons o os ih =>
    have ho := h o (List.mem_cons_self _ _)
    have ih := ih (fun c hc => h c (List.mem_cons_of_mem _ hc))
    constructor
    · intro rest
      simp only [wire.oids, List.length_cons, decoder.oidLoop, List.append_assoc]
      rw [(field_oid o ho).bind_reads]
      simp only []
      rw [ih.bind_reads]
      rfl
    · intro p q hcut hq
      simp only [wire.oids, List.length_cons, decoder.oidLoop] at hcut ⊢
      refine (field_oid o ho).bind_short _ _ p q hcut ?_
      intro p1 h1
      simp only []
      exact ih.bind_short_last _ p1 q h1 hq

/-! ### Decoder: tuple lists -/

theorem tupleLoop_reads (row : Row) (h : ∀ t ∈ row, wire.WFTuple t) (rest : List Nat) :
    decoder.tupleLoop row.length (wire.tuples row ++ rest) = .ok (row, rest) := by
  induction row with
  | nil => rfl
  | cons t ts ih =>
    have ht := h t (List.mem_cons_self _ _)
    have ih := ih (fun c hc => h c (List.mem_cons_of_mem _ hc))
    match t, ht with
    | some ⟨.TupleText, v⟩, ht =>
      simp only [wire.WFTuple] at ht
      simp only [wire.tuples, wire.tuple, List.length_cons, List.cons_append, List.append_assoc]
      simp only [decoder.tupleLoop, if_true, (field_uint32 v.length ht).reads, List.drop_left,
        List.take_left, ih]
    | some ⟨.TupleNull, v⟩, ht =>
      simp only [wire.WFTuple] at ht
      subst ht
      simp [wire.tuples, wire.tuple, decoder.tupleLoop, ih]
    | some ⟨.TupleUnchanged, v⟩, ht =>
      simp only [wire.WFTuple] at ht
      subst ht
      simp [wire.tuples, wire.tuple, decoder.tupleLoop, ih]

theorem finalValueLength_cons (t t2 : Option Tuple) (ts : List (Option Tuple)) :
    finalValueLength (t :: t2 :: ts) = finalValueLength (t2 :: ts) := by
  cases t with
  | none => rfl
  | some x => obtain ⟨k, v⟩ := x; cases k <;> rfl

/-- The tuple loop on a tuple list cut short: it panics, unless the cut falls in the
value bytes of the last tuple, a Text; then it returns a row and nothing is left. -/
theorem tupleLoop_cut (row : Row) (h : ∀ t ∈ row, wire.WFTuple t) :
    ∀ p q, wire.tuples row = p ++ q → q ≠ [] →
      (∃ k, decoder.tupleLoop row.length p = .error k) ∨
      (∃ y, decoder.tupleLoop row.length p = .ok (y, []) ∧ q.length ≤ finalValueLength row) := by
  induction row with
  | nil =>
    intro p q hcut hq
    have := cut_length hcut hq
    simp [wire.tuples] at this
  | cons t ts ih =>
    intro p q hcut hq
    have ht := h t (List.mem_cons_self _ _)
    have hts : ∀ c ∈ ts, wire.WFTuple c := fun c hc => h c (List.mem_cons_of_mem _ hc)
    have ih := ih hts
    -- what the induction hypothesis gives for the rest of the row
    have hrest : ∀ p1, wire.tuples ts = p1 ++ q →
        (∃ k, decoder.tupleLoop ts.length p1 = .error k) ∨
        (∃ y, decoder.tupleLoop ts.length p1 = .ok (y, []) ∧
          q.length ≤ finalValueLength (t :: ts)) := by
      intro p1 h1
      rcases ih p1 q h1 hq with hl | ⟨y, hy, hlen⟩
      · exact Or.inl hl
      · refine Or.inr ⟨y, hy, ?_⟩
        cases ts with
        | nil =>
          have := cut_length h1 hq
          simp [wire.tuples] at this
        | cons t2 ts2 => rw [finalValueLength_cons]; exact hlen
    cases p with
    | nil => exact Or.inl ⟨_, rfl⟩
    | cons b p1 =>
      match t, ht with
      | some ⟨.TupleNull, v⟩, ht =>
        simp only [wire.tuples, wire.tuple, List.cons_append, List.nil_append,
          List.cons.injEq] at hcut
        obtain ⟨hb, h1⟩ := hcut
        subst hb
        simp only [List.length_cons, decoder.tupleLoop]
        rcases hrest p1 h1 with ⟨k, hk⟩ | ⟨y, hy, hlen⟩
        · exact Or.inl ⟨k, by simp [hk]⟩
        · exact Or.inr ⟨some ⟨.TupleNull, []⟩ :: y, by simp [hy], hlen⟩
      | some ⟨.TupleUnchanged, v⟩, ht =>
        simp only [wire.tuples, wire.tuple, List.cons_append, List.nil_append,
          List.cons.injEq] at hcut
        obtain ⟨hb, h1⟩ := hcut
        subst hb
        simp only [List.length_cons, decoder.tupleLoop]
        rcases hrest p1 h1 with ⟨k, hk⟩ | ⟨y, hy, hlen⟩
        · exact Or.inl ⟨k, by simp [hk]⟩
        · exact Or.inr ⟨some ⟨.TupleUnchanged, []⟩ :: y, by simp [hy], hlen⟩
      | some ⟨.TupleText, v⟩, ht =>
        simp only [wire.WFTuple] at ht
        simp only [wire.tuples, wire.tuple, List.cons_append, List.append_assoc,
          List.cons.injEq] at hcut
        obtain ⟨hb, h1⟩ := hcut
        subst hb
        simp only [List.length_cons, decoder.tupleLoop, if_true]
        rcases split_cut h1 with ⟨a, hp, hE⟩ | ⟨c, hc, he, _⟩
        · rw [hp, (field_uint32 v.length ht).reads]
          simp only []
          rcases split_cut hE with ⟨a2, hp2, hE2⟩ | ⟨c2, hc2, he2, hq2⟩
          · rw [hp2, List.drop_left, List.take_left]
            rcases hrest a2 hE2 with ⟨k, hk⟩ | ⟨y, hy, hlen⟩
            · exact Or.inl ⟨k, by simp [hk]⟩
            · exact Or.inr ⟨some ⟨.TupleText, v⟩ :: y, by simp [hy], hlen⟩
          · have hle : a.length ≤ v.length := by rw [he2]; simp
            rw [List.drop_of_length_le hle, List.take_of_length_le hle]
            cases ts with
            | nil =>
              refine Or.inr ⟨_, rfl, ?_⟩
              subst hq2
              simp only [wire.tuples, List.append_nil, finalValueLength]
              rw [he2]; simp
            | cons t2 ts2 => exact Or.inl ⟨_, rfl⟩
        · obtain ⟨k, hk⟩ := (field_uint32 v.length ht).short p1 c he hc
          exact Or.inl ⟨k, by simp [hk]⟩

theorem tupleData_reads (row : Row) (h : wire.WFRow row) (rest : List Nat) :
    decoder.tupleData (wire.tupleData row ++ rest) = .ok (row, rest) := by
  simp only [decoder.tupleData, wire.tupleData, List.append_assoc,
    (field_uint16 row.length h.1).reads, tupleLoop_reads row h.2]

/-- The reader `tupleData` on a tuple list cut short. -/
theorem tupleData_cut (row : Row) (h : wire.WFRow row) (p q : List Nat)
    (hcut : wire.tupleData row = p ++ q) (hq : q ≠ []) :
    (∃ k, decoder.tupleData p = .error k) ∨
    (∃ y, decoder.tupleData p = .ok (y, []) ∧ q.length ≤ finalValueLength row) := by
  simp only [wire.tupleData] at hcut
  rcases split_cut hcut with ⟨a, hp, hE⟩ | ⟨c, hc, he, _⟩
  · rcases tupleLoop_cut row h.2 a q hE hq with ⟨k, hk⟩ | ⟨y, hy, hlen⟩
    · exact Or.inl ⟨k, by simp only [decoder.tupleData, hp, (field_uint16 row.length h.1).reads, hk]⟩
    · exact Or.inr ⟨y, by simp only [decoder.tupleData, hp, (field_uint16 row.length h.1).reads, hy],
        hlen⟩
  · obtain ⟨k, hk⟩ := (field_uint16 row.length h.1).short p c he hc
    exact Or.inl ⟨k, by simp only [decoder.tupleData, hk]⟩

/-- A tuple list in the middle of a message, cut at or after its start: the rest of
the decoding panics when it does so on an empty buffer and on every cut of what
follows the list. -/
theorem tupleData_bind_short {β : Type} (row : Row) (h : wire.WFRow row)
    (f : Row × List Nat → Except Panic β) (E p q : List Nat)
    (hcut : wire.tupleData row ++ E = p ++ q)
    (hnil : ∀ y, ∃ k, f (y, []) = .error k)
    (hk : ∀ p1, E = p1 ++ q → ∃ k, f (row, p1) = .error k) :
    ∃ k, (decoder.tupleData p >>= f) = .error k := by
  rcases split_cut hcut with ⟨a, hp, hE⟩ | ⟨c, hc, he, _⟩
  · obtain ⟨k, hk1⟩ := hk a hE
    exact ⟨k, by rw [hp, tupleData_reads row h, bind_ok, hk1]⟩
  · rcases tupleData_cut row h p c he hc with ⟨k, hk1⟩ | ⟨y, hy, _⟩
    · exact ⟨k, by rw [hk1, bind_error]⟩
    · obtain ⟨k, hk1⟩ := hnil y
      exact ⟨k, by rw [hy, bind_ok, hk1]⟩

/-- A tuple list at the end of a message, cut before the value bytes of a final Text
tuple: the reader panics. -/
theorem tupleData_bind_short_last {β : Type} (row : Row) (h : wire.WFRow row)
    (f : Row × List Nat → Except Panic β) (p q : List Nat)
    (hcut : wire.tupleData row = p ++ q) (hlen : finalValueLength row < q.length) :
    ∃ k, (decoder.tupleData p >>= f) = .error k := by
  have hq : q ≠ [] := by
    intro hq; subst hq; simp at hlen
  rcases tupleData_cut row h p q hcut hq with ⟨k, hk1⟩ | ⟨y, _, hle⟩
  · exact ⟨k, by rw [hk1, bind_error]⟩
  · omega

/-! ### Decoder: the message bodies on their layouts -/

theorem parseBegin_reads (l : Nat) (t x : Int) (h : wire.WellFormed (.Begin l t x))
    (hd : wire.DurationRange (.Begin l t x)) :
    parseBegin (wire.u64 l ++ (wire.micros t ++ wire.i32 x)) = .ok (.Begin l t x) := by
  obtain ⟨hl, ht, hx1, hx2⟩ := h
  unfold parseBegin
  rw [(field_lsn l hl).bind_reads]
  simp only []
  rw [(field_timestamp t ht hd.1 hd.2).bind_reads]
  simp only []
  rw [(field_int32 x hx1 hx2).bind_reads_last]
  rfl

theorem parseBegin_short (l : Nat) (t x : Int) (h : wire.WellFormed (.Begin l t x))
    (p q : List Nat) (hcut : wire.u64 l ++ (wire.micros t ++ wire.i32 x) = p ++ q)
    (hq : q ≠ []) : ∃ k, parseBegin p = .error k := by
  obtain ⟨hl, ht, hx1, hx2⟩ := h
  unfold parseBegin
  refine (field_lsn l hl).bind_short _ _ p q hcut ?_
  intro p1 h1
  simp only []
  refine (field_timestamp_any t).bind_short _ _ p1 q h1 ?_
  intro p2 h2
  simp only []
  exact (field_int32 x hx1 hx2).bind_short_last _ p2 q h2 hq

theorem parseCommit_reads (f l tl : Nat) (t : Int) (h : wire.WellFormed (.Commit f l tl t))
    (hd : wire.DurationRange (.Commit f l tl t)) :
    parseCommit (wire.u8 f ++ (wire.u64 l ++ (wire.u64 tl ++ wire.micros t))) =
      .ok (.Commit f l tl t) := by
  obtain ⟨hf, hl, htl, ht⟩ := h
  unfold parseCommit
  rw [(field_uint8 f hf).bind_reads]
  simp only []
  rw [(field_lsn l hl).bind_reads]
  simp only []
  rw [(field_lsn tl htl).bind_reads]
  simp only []
  rw [(field_timestamp t ht hd.1 hd.2).bind_reads_last]
  rfl

theorem parseCommit_short (f l tl : Nat) (t : Int) (h : wire.WellFormed (.Commit f l tl t))
    (p q : List Nat)
    (hcut : wire.u8 f ++ (wire.u64 l ++ (wire.u64 tl ++ wire.micros t)) = p ++ q)
    (hq : q ≠ []) : ∃ k, parseCommit p = .error k := by
  obtain ⟨hf, hl, htl, ht⟩ := h
  unfold parseCommit
  refine (field_uint8 f hf).bind_short _ _ p q hcut ?_
  intro p1 h1
  simp only []
  refine (field_lsn l hl).bind_short _ _ p1 q h1 ?_
  intro p2 h2
  simp only []
  refine (field_lsn tl htl).bind_short _ _ p2 q h2 ?_
  intro p3 h3
  simp only []
  exact (field_timestamp_any t).bind_short_last _ p3 q h3 hq

theorem parseOrigin_reads (l : Nat) (n : List Nat) (h : wire.WellFormed (.Origin l n)) :
    parseOrigin (wire.u64 l ++ wire.cstring n) = .ok (.Origin l n) := by
  obtain ⟨hl, hn⟩ := h
  unfold parseOrigin
  rw [(field_lsn l hl).bind_reads]
  simp only []
  rw [(field_string n hn).bind_reads_last]
  rfl

theorem parseOrigin_short (l : Nat) (n : List Nat) (h : wire.WellFormed (.Origin l n))
    (p q : List Nat) (hcut : wire.u64 l ++ wire.cstring n = p ++ q) (hq : q ≠ []) :
    ∃ k, parseOrigin p = .error k := by
  obtain ⟨hl, hn⟩ := h
  unfold parseOrigin
  refine (field_lsn l hl).bind_short _ _ p q hcut ?_
  intro p1 h1
  simp only []
  exact (field_string n hn).bind_short_last _ p1 q h1 hq

theorem parseType_reads (o : Nat) (ns n : List Nat) (h : wire.WellFormed (.Type_ o ns n)) :
    parseType (wire.u32 o ++ (wire.cstring ns ++ wire.cstring n)) = .ok (.Type_ o ns n) := by
  obtain ⟨ho, hns, hn⟩ := h
  unfold parseType
  rw [(field_oid o ho).bind_reads]
  simp only []
  rw [(field_string ns hns).bind_reads]
  simp only []
  rw [(field_string n hn).bind_reads_last]
  rfl

theorem parseType_short (o : Nat) (ns n : List Nat) (h : wire.WellFormed (.Type_ o ns n))
    (p q : List Nat) (hcut : wire.u32 o ++ (wire.cstring ns ++ wire.cstring n) = p ++ q)
    (hq : q ≠ []) : ∃ k, parseType p = .error k := by
  obtain ⟨ho, hns, hn⟩ := h
  unfold parseType
  refine (field_oid o ho).bind_short _ _ p q hcut ?_
  intro p1 h1
  simp only []
  refine (field_string ns hns).bind_short _ _ p1 q h1 ?_
  intro p2 h2
  simp only []
  exact (field_string n hn).bind_short_last _ p2 q h2 hq

theorem parseRelation_reads (o : Nat) (ns n : List Nat) (ri : Nat) (cols : List Column)
    (h : wire.WellFormed (.Relation o ns n ri cols)) :
    parseRelation
        (wire.u32 o ++ (wire.cstring ns ++ (wire.cstring n ++ (wire.u8 ri ++ wire.columns cols)))) =
      .ok (.Relation o ns n ri cols) := by
  obtain ⟨ho, hns, hn, hri, hcl, hcs⟩ := h
  unfold parseRelation
  rw [(field_oid o ho).bind_reads]
  simp only []
  rw [(field_string ns hns).bind_reads]
  simp only []
  rw [(field_string n hn).bind_reads]
  simp only []
  rw [(field_uint8 ri hri).bind_reads]
  simp only []
  rw [(field_columns cols hcl hcs).bind_reads_last]
  rfl

theorem parseRelation_short (o : Nat) (ns n : List Nat) (ri : Nat) (cols : List Column)
    (h : wire.WellFormed (.Relation o ns n ri cols)) (p q : List Nat)
    (hcut : wire.u32 o ++ (wire.cstring ns ++ (wire.cstring n ++ (wire.u8 ri ++
      wire.columns cols))) = p ++ q)
    (hq : q ≠ []) : ∃ k, parseRelation p = .error k := by
  obtain ⟨ho, hns, hn, hri, hcl, hcs⟩ := h
  unfold parseRelation
  refine (field_oid o ho).bind_short _ _ p q hcut ?_
  intro p1 h1
  simp only []
  refine (field_string ns hns).bind_short _ _ p1 q h1 ?_
  intro p2 h2
  simp only []
  refine (field_string n hn).bind_short _ _ p2 q h2 ?_
  intro p3 h3
  simp only []
  refine (field_uint8 ri hri).bind_short _ _ p3 q h3 ?_
  intro p4 h4
  simp only []
  exact (field_columns cols hcl hcs).bind_short_last _ p4 q h4 hq

theorem parseTruncate_reads (c : Bool) (os : List Nat)
    (h : wire.WellFormed (.Truncate c false os)) :
    parseTruncate (wire.u32 os.length ++ (wire.truncateOptions c false :: wire.oids os)) =
      .ok (.Truncate c false os) := by
  obtain ⟨hl, hos⟩ := h
  unfold parseTruncate
  rw [(field_uint32 os.length hl).bind_reads]
  simp only []
  rw [← List.singleton_append, (field_byte _).bind_reads]
  simp only []
  rw [(oidLoop_field os hos).bind_reads_last]
  have e1 : decide (wire.truncateOptions c false &&& truncateCascadeBit = 1) = c := by
    cases c <;> decide
  have e2 : decide (wire.truncateOptions c false &&& truncateRestartIdentityBit = 1) = false := by
    cases c <;> decide
  simp only [e1, e2]
  rfl

theorem parseTruncate_short (c ri : Bool) (os : List Nat)
    (h : wire.WellFormed (.Truncate c ri os)) (p q : List Nat)
    (hcut : wire.u32 os.length ++ (wire.truncateOptions c ri :: wire.oids os) = p ++ q)
    (hq : q ≠ []) : ∃ k, parseTruncate p = .error k := by
  obtain ⟨hl, hos⟩ := h
  unfold parseTruncate
  refine (field_uint32 os.length hl).bind_short _ _ p q hcut ?_
  intro p1 h1
  simp only []
  rw [← List.singleton_append] at h1
  refine (field_byte _).bind_short _ _ p1 q h1 ?_
  intro p2 h2
  simp only []
  exact (oidLoop_field os hos).bind_short_last _ p2 q h2 hq

/-! ### Decoder: Insert, Update and Delete on their layouts -/

theorem tupleData_bind_reads {β : Type} (row : Row) (h : wire.WFRow row)
    (f : Row × List Nat → Except Panic β) (E : List Nat) :
    (decoder.tupleData (wire.tupleData row ++ E) >>= f) = f (row, E) := by
  rw [tupleData_reads row h, bind_ok]

theorem tupleData_bind_reads_last {β : Type} (row : Row) (h : wire.WFRow row)
    (f : Row × List Nat → Except Panic β) :
    (decoder.tupleData (wire.tupleData row) >>= f) = f (row, []) := by
  have e := tupleData_reads row h []
  rw [List.append_nil] at e
  rw [e, bind_ok]

theorem rowInfo_hit (c : Nat) (rest : List Nat) :
    decoder.rowInfo c (c :: rest) = .ok (true, rest) := by
  simp [decoder.rowInfo]

theorem rowInfo_miss (c b : Nat) (rest : List Nat) (h : b ≠ c) :
    decoder.rowInfo c (b :: rest) = .ok (false, b :: rest) := by
  simp [decoder.rowInfo, h]

/-- The first byte of a tuple list is the high byte of its count. -/
theorem tupleData_head (row : Row) (E : List Nat) :
    wire.tupleData row ++ E =
      (row.length / 256 % 256) :: (row.length % 256) :: (wire.tuples row ++ E) := by
  simp [wire.tupleData, wire.u16]

theorem count_high_byte (row : Row) (hl : row.length < 2 ^ 16) (h : row.length / 256 ≠ 79) :
    row.length / 256 % 256 ≠ 79 := by
  omega

theorem parseInsert_reads (o : Nat) (row : Row) (h : wire.WellFormed (.Insert o true row)) :
    parseInsert (wire.u32 o ++ (78 :: wire.tupleData row)) = .ok (.Insert o true row) := by
  obtain ⟨ho, _, hrow⟩ := h
  unfold parseInsert
  rw [(field_oid o ho).bind_reads]
  simp only []
  rw [← List.singleton_append, (field_byte _).bind_reads]
  simp only []
  rw [tupleData_bind_reads_last row hrow]
  rfl

theorem parseInsert_short (o : Nat) (isNew : Bool) (row : Row)
    (h : wire.WellFormed (.Insert o isNew row)) (p q : List Nat)
    (hcut : wire.u32 o ++ (78 :: wire.tupleData row) = p ++ q)
    (hlen : finalValueLength row < q.length) : ∃ k, parseInsert p = .error k := by
  obtain ⟨ho, _, hrow⟩ := h
  unfold parseInsert
  refine (field_oid o ho).bind_short _ _ p q hcut ?_
  intro p1 h1
  simp only []
  rw [← List.singleton_append] at h1
  refine (field_byte _).bind_short _ _ p1 q h1 ?_
  intro p2 h2
  simp only []
  exact tupleData_bind_short_last row hrow _ p2 q h2 hlen

theorem parseDelete_reads (o : Nat) (isKey isOld : Bool) (row : Row)
    (h : wire.WellFormed (.Delete o isKey isOld row)) :
    parseDelete (wire.u32 o ++ ((if isKey then 75 else 79) :: wire.tupleData row)) =
      .ok (.Delete o isKey isOld row) := by
  obtain ⟨ho, hk, hrow, hhi⟩ := h
  unfold parseDelete
  rw [(field_oid o ho).bind_reads]
  simp only []
  cases isOld with
  | false =>
    simp only [Bool.not_false] at hk
    subst hk
    have hb := count_high_byte row hrow.1 (hhi rfl)
    simp only [if_true]
    rw [rowInfo_hit, bind_ok]
    simp only []
    rw [← List.append_nil (wire.tupleData row), tupleData_head, rowInfo_miss _ _ _ hb, bind_ok]
    simp only []
    rw [← tupleData_head, tupleData_bind_reads row hrow]
    rfl
  | true =>
    simp only [Bool.not_true] at hk
    subst hk
    simp only [Bool.false_eq_true, if_false]
    rw [rowInfo_miss _ _ _ (by decide), bind_ok]
    simp only []
    rw [rowInfo_hit, bind_ok]
    simp only []
    rw [tupleData_bind_reads_last row hrow]
    rfl

theorem parseDelete_short (o : Nat) (isKey isOld : Bool) (row : Row)
    (h : wire.WellFormed (.Delete o isKey isOld row)) (p q : List Nat)
    (hcut : wire.u32 o ++ ((if isKey then 75 else 79) :: wire.tupleData row) = p ++ q)
    (hlen : finalValueLength row < q.length) : ∃ k, parseDelete p = .error k := by
  obtain ⟨ho, hk, hrow, hhi⟩ := h
  unfold parseDelete
  refine (field_oid o ho).bind_short _ _ p q hcut ?_
  intro p1 h1
  simp only []
  cases p1 with
  | nil => exact ⟨_, rfl⟩
  | cons b p2 =>
    simp only [List.cons_append, List.cons.injEq] at h1
    obtain ⟨hb, h2⟩ := h1
    subst hb
    cases isOld with
    | false =>
      simp only [Bool.not_false] at hk
      subst hk
      have hb := count_high_byte row hrow.1 (hhi rfl)
      simp only [if_true]
      rw [rowInfo_hit, bind_ok]
      simp only []
      cases p2 with
      | nil => exact ⟨_, rfl⟩
      | cons b2 p3 =>
        have e := tupleData_head row []
        rw [List.append_nil, h2] at e
        simp only [List.cons_append, List.cons.injEq] at e
        rw [e.1, rowInfo_miss _ _ _ hb, bind_ok]
        simp only []
        rw [← e.1]
        exact tupleData_bind_short_last row hrow _ (b2 :: p3) q h2 hlen
    | true =>
      simp only [Bool.not_true] at hk
      subst hk
      simp only [Bool.false_eq_true, if_false]
      rw [rowInfo_miss _ _ _ (by decide), bind_ok]
      simp only []
      rw [rowInfo_hit, bind_ok]
      simp only []
      exact tupleData_bind_short_last row hrow _ p2 q h2 hlen

theorem parseUpdate_reads (o : Nat) (isKey isOld : Bool) (oldRow newRow : Row)
    (h : wire.WellFormed (.Update o isKey isOld true oldRow newRow)) :
    parseUpdate (wire.u32 o ++
      ((if isKey then 75 :: wire.tupleData oldRow
        else if isOld then 79 :: wire.tupleData oldRow else []) ++
        (78 :: wire.tupleData newRow))) = .ok (.Update o isKey isOld true oldRow newRow) := by
  obtain ⟨ho, _, hone, hnone, hold, hhi, hnew⟩ := h
  unfold parseUpdate
  rw [(field_oid o ho).bind_reads]
  simp only []
  cases isKey with
  | true =>
    have hf : isOld = false := by simpa using hone
    subst hf
    have hrow := hold (Or.inl rfl)
    have hb := count_high_byte oldRow hrow.1 (hhi rfl)
    simp only [if_true, List.cons_append]
    rw [rowInfo_hit, bind_ok]
    simp only []
    rw [tupleData_head, rowInfo_miss _ _ _ hb, bind_ok]
    simp only [Bool.or_false, if_true]
    rw [← tupleData_head, tupleData_bind_reads oldRow hrow]
    simp only []
    rw [← List.singleton_append, (field_byte _).bind_reads]
    simp only []
    rw [tupleData_bind_reads_last newRow hnew]
    rfl
  | false =>
    cases isOld with
    | true =>
      have hrow := hold (Or.inr rfl)
      simp only [Bool.false_eq_true, if_false, if_true, List.cons_append]
      rw [rowInfo_miss _ _ _ (by decide), bind_ok]
      simp only []
      rw [rowInfo_hit, bind_ok]
      simp only [Bool.false_or, if_true]
      rw [tupleData_bind_reads oldRow hrow]
      simp only []
      rw [← List.singleton_append, (field_byte _).bind_reads]
      simp only []
      rw [tupleData_bind_reads_last newRow hnew]
      rfl
    | false =>
      have he := hnone rfl rfl
      subst he
      simp only [Bool.false_eq_true, if_false, List.nil_append]
      rw [rowInfo_miss _ _ _ (by decide), bind_ok]
      simp only []
      rw [rowInfo_miss _ _ _ (by decide), bind_ok]
      simp only [Bool.or_self, Bool.false_eq_true, if_false]
      rw [pure_bind]
      simp only []
      rw [← List.singleton_append, (field_byte _).bind_reads]
      simp only []
      rw [tupleData_bind_reads_last newRow hnew]
      rfl

/-- After the old row of an Update: the new-row marker and the new row, cut short. -/
theorem parseUpdate_tail_short {β : Type} (newRow : Row) (hnew : wire.WFRow newRow)
    (g : Nat × List Nat → Row × List Nat → Except Panic β) (p q : List Nat)
    (hcut : 78 :: wire.tupleData newRow = p ++ q)
    (hlen : finalValueLength newRow < q.length) :
    ∃ k, (decoder.uint8 p >>= fun x => decoder.tupleData x.2 >>= g x) = .error k := by
  rw [← List.singleton_append] at hcut
  refine (field_byte _).bind_short _ _ p q hcut ?_
  intro p2 h2
  simp only []
  exact tupleData_bind_short_last newRow hnew _ p2 q h2 hlen

theorem parseUpdate_short (o : Nat) (isKey isOld isNew : Bool) (oldRow newRow : Row)
    (h : wire.WellFormed (.Update o isKey isOld isNew oldRow newRow)) (p q : List Nat)
    (hcut : wire.u32 o ++
      ((if isKey then 75 :: wire.tupleData oldRow
        else if isOld then 79 :: wire.tupleData oldRow else []) ++
        (78 :: wire.tupleData newRow)) = p ++ q)
    (hlen : finalValueLength newRow < q.length) : ∃ k, parseUpdate p = .error k := by
  obtain ⟨ho, _, hone, hnone, hold, hhi, hnew⟩ := h
  unfold parseUpdate
  refine (field_oid o ho).bind_short _ _ p q hcut ?_
  intro p1 h1
  simp only []
  cases p1 with
  | nil => exact ⟨_, rfl⟩
  | cons b p2 =>
    cases isKey with
    | true =>
      have hf : isOld = false := by simpa using hone
      subst hf
      have hrow := hold (Or.inl rfl)
      have hb := count_high_byte oldRow hrow.1 (hhi rfl)
      simp only [if_true, List.cons_append, List.cons.injEq] at h1
      obtain ⟨hb1, h2⟩ := h1
      subst hb1
      rw [rowInfo_hit, bind_ok]
      simp only []
      cases p2 with
      | nil => exact ⟨_, rfl⟩
      | cons b2 p3 =>
        have e := tupleData_head oldRow (78 :: wire.tupleData newRow)
        rw [h2] at e
        simp only [List.cons_append, List.cons.injEq] at e
        rw [e.1, rowInfo_miss _ _ _ hb, bind_ok]
        simp only [Bool.or_false, if_true]
        rw [← e.1]
        refine tupleData_bind_short oldRow hrow _ _ (b2 :: p3) q h2 ?_ ?_
        · intro y
          exact ⟨_, rfl⟩
        · intro p4 h4
          simp only []
          exact parseUpdate_tail_short newRow hnew _ p4 q h4 hlen
    | false =>
      cases isOld with
      | true =>
        have hrow := hold (Or.inr rfl)
        simp only [Bool.false_eq_true, if_false, if_true, List.cons_append,
          List.cons.injEq] at h1
        obtain ⟨hb1, h2⟩ := h1
        subst hb1
        rw [rowInfo_miss _ _ _ (by decide), bind_ok]
        simp only []
        rw [rowInfo_hit, bind_ok]
        simp only [Bool.false_or, if_true]
        refine tupleData_bind_short oldRow hrow _ _ p2 q h2 ?_ ?_
        · intro y
          exact ⟨_, rfl⟩
        · intro p4 h4
          simp only []
          exact parseUpdate_tail_short newRow hnew _ p4 q h4 hlen
      | false =>
        simp only [Bool.false_eq_true, if_false, List.nil_append] at h1
        have hb1 : b = 78 := by
          have := congrArg List.head? h1
          simpa using this.symm
        subst hb1
        rw [rowInfo_miss _ _ _ (by decide), bind_ok]
        simp only []
        rw [rowInfo_miss _ _ _ (by decide), bind_ok]
        simp only [Bool.or_self, Bool.false_eq_true, if_false]
        rw [pure_bind]
        simp only []
        exact parseUpdate_tail_short newRow hnew _ (78 :: p2) q h1 hlen

/-! ### Decoder: round trip, short input, timestamps -/

theorem Parse_encode (r : Message) (hwf : wire.WellFormed r) (hd : wire.DurationRange r)
    (hri : wire.RestartIdentityClear r) : Parse (wire.encode r) = .record r := by
  cases r with
  | Begin l t x =>
    simp only [wire.encode, Parse, BeginMsgType, if_true, parseBegin_reads l t x hwf hd]
    rfl
  | BeginVal l t x => exact absurd hwf (by simp [wire.WellFormed])
  | Commit f l tl t =>
    simp [wire.encode, Parse, BeginMsgType, CommitMsgType, parseCommit_reads f l tl t hwf hd,
      ParseResult.ofExcept]
  | Origin l n =>
    simp [wire.encode, Parse, BeginMsgType, CommitMsgType, OriginMsgType,
      parseOrigin_reads l n hwf, ParseResult.ofExcept]
  | Relation o ns n ri cols =>
    simp [wire.encode, Parse, BeginMsgType, CommitMsgType, OriginMsgType, RelationMsgType,
      parseRelation_reads o ns n ri cols hwf, ParseResult.ofExcept]
  | Type_ o ns n =>
    simp [wire.encode, Parse, BeginMsgType, CommitMsgType, OriginMsgType, RelationMsgType,
      TypeMsgType, parseType_reads o ns n hwf, ParseResult.ofExcept]
  | Insert o isNew row =>
    have e : isNew = true := hwf.2.1
    subst e
    simp [wire.encode, Parse, BeginMsgType, CommitMsgType, OriginMsgType, RelationMsgType,
      TypeMsgType, InsertMsgType, parseInsert_reads o row hwf, ParseResult.ofExcept]
  | Update o isKey isOld isNew oldRow newRow =>
    have e : isNew = true := hwf.2.1
    subst e
    simp only [wire.encode, Parse, BeginMsgType, CommitMsgType, OriginMsgType, RelationMsgType,
      TypeMsgType, InsertMsgType, UpdateMsgType, parseUpdate_reads o isKey isOld oldRow newRow hwf]
    simp [ParseResult.ofExcept]
  | Delete o isKey isOld row =>
    simp only [wire.encode, Parse, BeginMsgType, CommitMsgType, OriginMsgType, RelationMsgType,
      TypeMsgType, InsertMsgType, UpdateMsgType, DeleteMsgType,
      parseDelete_reads o isKey isOld row hwf]
    simp [ParseResult.ofExcept]
  | Truncate c ri os =>
    have e : ri = false := hri
    subst e
    simp only [wire.encode, Parse, BeginMsgType, CommitMsgType, OriginMsgType, RelationMsgType,
      TypeMsgType, InsertMsgType, UpdateMsgType, DeleteMsgType, TruncateMsgType,
      parseTruncate_reads c os hwf]
    simp [ParseResult.ofExcept]

/-- C1 (as amended). For every well-formed message of the nine types whose timestamp
(Begin, Commit) lies within the range of `time.Duration` around 2000-01-01 and whose
restart-identity bit (Truncate) is clear, `Parse` returns the record the message is
the layout of, so laying the returned record out again yields exactly the bytes of
the message. -/
theorem Parse_round_trip (r : Message) (hwf : wire.WellFormed r) (hd : wire.DurationRange r)
    (hri : wire.RestartIdentityClear r) :
    ∃ r1, Parse (wire.encode r) = .record r1 ∧ wire.encode r1 = wire.encode r :=
  ⟨r, Parse_encode r hwf hd hri, rfl⟩

theorem Parse_round_trip_witness :
    ∃ r1, Parse (wire.encode (.Update 7 true false true [some ⟨.TupleText, [49]⟩]
        [some ⟨.TupleText, [50]⟩, some ⟨.TupleNull, []⟩])) = .record r1 ∧
      wire.encode r1 = wire.encode (.Update 7 true false true [some ⟨.TupleText, [49]⟩]
        [some ⟨.TupleText, [50]⟩, some ⟨.TupleNull, []⟩]) :=
  Parse_round_trip (.Update 7 true false true [some ⟨.TupleText, [49]⟩]
      [some ⟨.TupleText, [50]⟩, some ⟨.TupleNull, []⟩])
    (by simp [wire.WellFormed, wire.WFRow, wire.WFTuple]) trivial trivial

/-- C1 (counterexample). Two well-formed messages that do not survive the round
trip: a Truncate with the restart-identity bit set comes back with the bit clear,
and a Begin whose timestamp is 9223372036854776 microseconds after 2000-01-01 comes
back with a timestamp before 2000-01-01. -/
theorem Parse_round_trip_fails :
    (wire.WellFormed (.Truncate false true [5]) ∧
      Parse (wire.encode (.Truncate false true [5])) = .record (.Truncate false false [5]) ∧
      wire.encode (.Truncate false false [5]) ≠ wire.encode (.Truncate false true [5])) ∧
    (wire.WellFormed (.Begin 1 9223372036854776000 0) ∧
      Parse (wire.encode (.Begin 1 9223372036854776000 0)) =
        .record (.Begin 1 (-9223372036854775616) 0) ∧
      wire.encode (.Begin 1 (-9223372036854775616) 0) ≠
        wire.encode (.Begin 1 9223372036854776000 0)) := by
  refine ⟨⟨by simp [wire.WellFormed], by decide, by decide⟩,
    ⟨by simp [wire.WellFormed, wire.WFTimestamp], ?_, ?_⟩⟩
  · rfl
  · decide


theorem ofExcept_panic_of_error (x : Except Panic Message) (h : ∃ k, x = .error k) :
    ∃ k, ParseResult.ofExcept x = .panic k := by
  obtain ⟨k, hk⟩ := h
  exact ⟨k, by rw [hk]; rfl⟩

/-- C6 (as amended). For every message type and every well-formed message cut short
at any point before the value bytes of a Text tuple that ends the message (`q`, the
missing part, is longer than those value bytes; it is just non-empty when the message
does not end with a Text tuple), `Parse` returns neither a record nor an error value:
the read that crosses the end of the input panics. -/
theorem Parse_short_input_panics (r : Message) (hwf : wire.WellFormed r) (p q : List Nat)
    (hcut : wire.encode r = p ++ q) (hlen : r.finalValueLength < q.length) :
    ∃ k, Parse p = .panic k := by
  have hq : q ≠ [] := by
    intro hq; subst hq; simp at hlen
  cases p with
  | nil => exact ⟨_, rfl⟩
  | cons b p1 =>
    cases r with
    | BeginVal l t x => exact absurd hwf (by simp [wire.WellFormed])
    | Begin l t x =>
      simp only [wire.encode, List.cons_append, List.cons.injEq] at hcut
      obtain ⟨hb, h1⟩ := hcut
      subst hb
      simp only [Parse, BeginMsgType, if_true]
      exact ofExcept_panic_of_error _ (parseBegin_short l t x hwf p1 q h1 hq)
    | Commit f l tl t =>
      simp only [wire.encode, List.cons_append, List.cons.injEq] at hcut
      obtain ⟨hb, h1⟩ := hcut
      subst hb
      simp only [Parse, BeginMsgType, CommitMsgType, Nat.reduceEqDiff, if_false, if_true]
      exact ofExcept_panic_of_error _ (parseCommit_short f l tl t hwf p1 q h1 hq)
    | Origin l n =>
      simp only [wire.encode, List.cons_append, List.cons.injEq] at hcut
      obtain ⟨hb, h1⟩ := hcut
      subst hb
      simp only [Parse, BeginMsgType, CommitMsgType, OriginMsgType, Nat.reduceEqDiff, if_false,
        if_true]
      exact ofExcept_panic_of_error _ (parseOrigin_short l n hwf p1 q h1 hq)
    | Relation o ns n ri cols =>
      simp only [wire.encode, List.cons_append, List.cons.injEq] at hcut
      obtain ⟨hb, h1⟩ := hcut
      subst hb
      simp only [Parse, BeginMsgType, CommitMsgType, OriginMsgType, RelationMsgType,
        Nat.reduceEqDiff, if_false, if_true]
      exact ofExcept_panic_of_error _ (parseRelation_short o ns n ri cols hwf p1 q h1 hq)
    | Type_ o ns n =>
      simp only [wire.encode, List.cons_append, List.cons.injEq] at hcut
      obtain ⟨hb, h1⟩ := hcut
      subst hb
      simp only [Parse, BeginMsgType, CommitMsgType, OriginMsgType, RelationMsgType,
        TypeMsgType, Nat.reduceEqDiff, if_false, if_true]
      exact ofExcept_panic_of_error _ (parseType_short o ns n hwf p1 q h1 hq)
    | Insert o isNew row =>
      simp only [wire.encode, List.cons_append, List.cons.injEq] at hcut
      obtain ⟨hb, h1⟩ := hcut
      subst hb
      simp only [Parse, BeginMsgType, CommitMsgType, OriginMsgType, RelationMsgType,
        TypeMsgType, InsertMsgType, Nat.reduceEqDiff, if_false, if_true]
      exact ofExcept_panic_of_error _ (parseInsert_short o isNew row hwf p1 q h1 hlen)
    | Update o isKey isOld isNew oldRow newRow =>
      simp only [wire.encode, List.cons_append, List.cons.injEq] at hcut
      obtain ⟨hb, h1⟩ := hcut
      subst hb
      simp only [Parse, BeginMsgType, CommitMsgType, OriginMsgType, RelationMsgType,
        TypeMsgType, InsertMsgType, UpdateMsgType, Nat.reduceEqDiff, if_false, if_true]
      exact ofExcept_panic_of_error _
        (parseUpdate_short o isKey isOld isNew oldRow newRow hwf p1 q h1 hlen)
    | Delete o isKey isOld row =>
      simp only [wire.encode, List.cons_append, List.cons.injEq] at hcut
      obtain ⟨hb, h1⟩ := hcut
      subst hb
      simp only [Parse, BeginMsgType, CommitMsgType, OriginMsgType, RelationMsgType,
        TypeMsgType, InsertMsgType, UpdateMsgType, DeleteMsgType, Nat.reduceEqDiff, if_false,
        if_true]
      exact ofExcept_panic_of_error _ (parseDelete_short o isKey isOld row hwf p1 q h1 hlen)
    | Truncate c ri os =>
      simp only [wire.encode, List.cons_append, List.cons.injEq] at hcut
      obtain ⟨hb, h1⟩ := hcut
      subst hb
      simp only [Parse, BeginMsgType, CommitMsgType, OriginMsgType, RelationMsgType,
        TypeMsgType, InsertMsgType, UpdateMsgType, DeleteMsgType, TruncateMsgType,
        Nat.reduceEqDiff, if_false, if_true]
      exact ofExcept_panic_of_error _ (parseTruncate_short c ri os hwf p1 q h1 hq)

/-- An Insert with the tuples Null and Text `ab`, cut inside the 32-bit length of the
Text tuple. -/
theorem Parse_short_input_panics_witness :
    ∃ k, Parse [73, 0, 0, 0, 1, 78, 0, 2, 110, 116, 0, 0] = .panic k :=
  Parse_short_input_panics
    (.Insert 1 true [some ⟨.TupleNull, []⟩, some ⟨.TupleText, [97, 98]⟩])
    (by simp [wire.WellFormed, wire.WFRow, wire.WFTuple])
    [73, 0, 0, 0, 1, 78, 0, 2, 110, 116, 0, 0] [0, 2, 97, 98] (by decide) (by decide)

/-- C6 (counterexample). An Insert whose Text tuple declares 5 value bytes, cut after
2 of them: `Parse` returns a record whose value has 2 bytes. And on a Begin cut right
after the tag `Parse` returns no ShortBuffer error: it panics. -/
theorem Parse_short_text_returns_record :
    wire.encode (.Insert 1 true [some ⟨.TupleText, [97, 98, 99, 100, 101]⟩]) =
      [73, 0, 0, 0, 1, 78, 0, 1, 116, 0, 0, 0, 5, 97, 98] ++ [99, 100, 101] ∧
    Parse [73, 0, 0, 0, 1, 78, 0, 1, 116, 0, 0, 0, 5, 97, 98] =
      .record (.Insert 1 true [some ⟨.TupleText, [97, 98]⟩]) ∧
    Parse [66] = .panic .indexOutOfRange := by
  decide

theorem length_eight (bs : List Nat) (h : bs.length = 8) :
    ∃ b0 b1 b2 b3 b4 b5 b6 b7, bs = [b0, b1, b2, b3, b4, b5, b6, b7] := by
  match bs, h with
  | [b0, b1, b2, b3, b4, b5, b6, b7], _ => exact ⟨_, _, _, _, _, _, _, _, rfl⟩

theorem length_four (bs : List Nat) (h : bs.length = 4) :
    ∃ b0 b1 b2 b3, bs = [b0, b1, b2, b3] := by
  match bs, h with
  | [b0, b1, b2, b3], _ => exact ⟨_, _, _, _, rfl⟩

theorem uint64_beValue (bs rest : List Nat) (h : bs.length = 8) :
    decoder.uint64 (bs ++ rest) = .ok (beValue bs, rest) := by
  obtain ⟨b0, b1, b2, b3, b4, b5, b6, b7, e⟩ := length_eight bs h
  subst e
  simp [decoder.uint64, beValue]

theorem uint32_beValue (bs rest : List Nat) (h : bs.length = 4) :
    decoder.uint32 (bs ++ rest) = .ok (beValue bs, rest) := by
  obtain ⟨b0, b1, b2, b3, e⟩ := length_four bs h
  subst e
  simp [decoder.uint32, beValue]

/-- C9 (as amended). For every 8-byte timestamp field `ts` of a Begin or a Commit
message whose value `v`, read big-endian as a signed 64-bit count of microseconds,
has `v * 1000` within the `int64` range of `time.Duration`, the timestamp of the
record that `Parse` returns is exactly 2000-01-01T00:00:00Z plus `v` microseconds
(the offset `v * 1000` in nanoseconds). -/
theorem Parse_timestamp_exact (l l2 ts x extra : List Nat) (flags : Nat)
    (hl : l.length = 8) (hl2 : l2.length = 8) (hts : ts.length = 8) (hx : x.length = 4)
    (hlo : -9223372036854775808 ≤ decoder.toInt64 (beValue ts) * 1000)
    (hhi : decoder.toInt64 (beValue ts) * 1000 < 9223372036854775808) :
    Parse (66 :: (l ++ (ts ++ (x ++ extra)))) =
      .record (.Begin (beValue l) (decoder.toInt64 (beValue ts) * 1000)
        (decoder.toInt32 (beValue x))) ∧
    Parse (67 :: flags :: (l ++ (l2 ++ (ts ++ extra)))) =
      .record (.Commit flags (beValue l) (beValue l2) (decoder.toInt64 (beValue ts) * 1000)) := by
  have hw := wrapInt64_exact _ hlo hhi
  constructor
  · simp only [Parse, BeginMsgType, if_true, parseBegin, decoder.lsn, decoder.timestamp,
      decoder.int32, uint64_beValue l _ hl, uint64_beValue ts _ hts, uint32_beValue x _ hx,
      bind_ok, hw]
    rfl
  · simp only [Parse, BeginMsgType, CommitMsgType, Nat.reduceEqDiff, if_false, if_true,
      parseCommit, decoder.lsn, decoder.timestamp, decoder.uint8,
      uint64_beValue l _ hl, uint64_beValue l2 _ hl2, uint64_beValue ts _ hts, bind_ok, hw]
    rfl

theorem Parse_timestamp_exact_witness :
    Parse (66 :: ([0, 0, 0, 0, 0, 0, 0, 9] ++ ([0, 0, 0, 0, 0, 0, 1, 0] ++
        ([0, 0, 0, 3] ++ [])))) =
      .record (.Begin (beValue [0, 0, 0, 0, 0, 0, 0, 9])
        (decoder.toInt64 (beValue [0, 0, 0, 0, 0, 0, 1, 0]) * 1000)
        (decoder.toInt32 (beValue [0, 0, 0, 3]))) ∧
    Parse (67 :: 0 :: ([0, 0, 0, 0, 0, 0, 0, 9] ++ ([0, 0, 0, 0, 0, 0, 0, 10] ++
        ([0, 0, 0, 0, 0, 0, 1, 0] ++ [])))) =
      .record (.Commit 0 (beValue [0, 0, 0, 0, 0, 0, 0, 9]) (beValue [0, 0, 0, 0, 0, 0, 0, 10])
        (decoder.toInt64 (beValue [0, 0, 0, 0, 0, 0, 1, 0]) * 1000)) :=
  Parse_timestamp_exact [0, 0, 0, 0, 0, 0, 0, 9] [0, 0, 0, 0, 0, 0, 0, 10]
    [0, 0, 0, 0, 0, 0, 1, 0] [0, 0, 0, 3] [] 0 rfl rfl rfl rfl (by decide) (by decide)

/-- C9 (counterexample). The Commit message whose timestamp field holds
v = 9223372036854776 microseconds (the bytes 00 20 C4 9B A5 E3 53 F8, a date in the
year 2292): the timestamp of the record is 9223372036854775616 nanoseconds before
2000-01-01, not `v` microseconds after it. -/
theorem Parse_timestamp_wraps :
    beValue [0, 32, 196, 155, 165, 227, 83, 248] = 9223372036854776 ∧
    Parse (67 :: 0 :: ([0, 0, 0, 0, 0, 0, 0, 9] ++ ([0, 0, 0, 0, 0, 0, 0, 10] ++
        [0, 32, 196, 155, 165, 227, 83, 248]))) =
      .record (.Commit 0 9 10 (-9223372036854775616)) ∧
    (-9223372036854775616 : Int) ≠ 9223372036854776 * 1000 := by
  decide

/-! ### Copy-line decoder: escaped columns -/

/-- One loop iteration consumes one escaped byte and appends what is kept of it. -/
theorem copyLoop_escapeByte {κ : Type} (env : CopyEnv κ) (c : Nat) (rest : List Nat)
    (st : CopyState κ) (fuel : Nat) :
    copyLoop env (fuel + 1) (escapeByte c ++ rest) st =
      copyLoop env fuel rest { st with colBuf := st.colBuf ++ keptByte c } := by
  unfold escapeByte keptByte
  split_ifs with h1 h2 h3 h4 h5 h6 h7 h8 h9
  all_goals try (subst_vars; simp [copyLoop, escapeByte]; done)
  all_goals try (exfalso; omega)
  · interval_cases c <;> simp_all [copyLoop, decodeOctDigit, decodeDigit]
  · have e9 : c ≠ 9 := by omega
    have e10 : c ≠ 10 := by omega
    simp [copyLoop, e9, e10, h1]


theorem copyLoop_escapeColumn {κ : Type} (env : CopyEnv κ) (s tail : List Nat) :
    ∀ (st : CopyState κ) (fuel : Nat),
      copyLoop env (fuel + s.length) (escapeColumn s ++ tail) st =
        copyLoop env fuel tail { st with colBuf := st.colBuf ++ keptColumn s } := by
  induction s with
  | nil => intro st fuel; simp [escapeColumn, keptColumn]
  | cons c cs ih =>
    intro st fuel
    simp only [escapeColumn, keptColumn, List.length_cons, List.append_assoc]
    rw [← Nat.add_assoc, copyLoop_escapeByte, ih]
    simp [List.append_assoc]

theorem length_le_escapeColumn (s : List Nat) : s.length ≤ (escapeColumn s).length := by
  induction s with
  | nil => simp
  | cons c cs ih =>
    have h : 1 ≤ (escapeByte c).length := by
      unfold escapeByte
      split_ifs <;> simp
    simp only [escapeColumn, List.length_cons, List.length_append]
    omega

/-- The row terminator after the only column, column 0, which is in the map. -/
theorem copyLoop_newline {κ : Type} (env : CopyEnv κ) (k : κ) (buf : List Nat) (fuel : Nat)
    (hcol : env.pgColumns 0 = some k)
    (hconv : env.convertErr [] 0 k ⟨.TupleText, buf⟩ = false) :
    copyLoop env (fuel + 1) [10] ⟨buf, 0, .TupleText, []⟩ =
      (none, [.convert 0 k ⟨.TupleText, buf⟩]) := by
  simp [copyLoop, forwardColumn, hcol, hconv]

theorem keptColumn_eq_self_iff (s : List Nat) :
    keptColumn s = s ↔ ∀ c ∈ s, c ∉ [92, 8, 12, 10, 13, 9, 11] := by
  induction s with
  | nil => simp [keptColumn]
  | cons c cs ih =>
    have hlen : ∀ l : List Nat, l.length ≤ (keptColumn l).length := by
      intro l
      induction l with
      | nil => simp [keptColumn]
      | cons d ds ihd =>
        have : 1 ≤ (keptByte d).length := by
          unfold keptByte escapeByte
          split_ifs <;> simp
        simp only [keptColumn, List.length_cons, List.length_append]
        omega
    by_cases hc : c = 92 ∨ c = 8 ∨ c = 12 ∨ c = 10 ∨ c = 13 ∨ c = 9 ∨ c = 11
    · have h2 : keptByte c = [92, (escapeByte c).getLast!] ∨ (keptByte c).length = 2 := by
        right
        unfold keptByte escapeByte
        rcases hc with h | h | h | h | h | h | h <;> subst h <;> simp
      have hk : (keptByte c).length = 2 := by
        rcases h2 with h | h
        · rw [h]; rfl
        · exact h
      constructor
      · intro h
        exfalso
        have := congrArg List.length h
        have := hlen cs
        simp only [keptColumn, List.length_append, List.length_cons, hk] at *
        omega
      · intro h
        exfalso
        have := h c (List.mem_cons_self _ _)
        simp only [List.mem_cons, List.mem_singleton, List.not_mem_nil, or_false] at this
        tauto
    · have hk : keptByte c = [c] := by
        unfold keptByte
        rw [if_neg hc]
      simp only [keptColumn, hk, List.singleton_append, List.cons.injEq, true_and, ih,
        List.mem_cons, forall_eq_or_imp, List.mem_singleton, List.not_mem_nil, or_false]
      constructor
      · intro h
        exact ⟨by tauto, h⟩
      · intro h
        exact h.2

/-- C10 (as amended). For every byte string `s`, escaping `s` as the single column of
a line and decoding the newline-terminated line forwards exactly one tuple, for
column 0, of kind Text, whose value is `s` with every backslash, backspace, form
feed, newline, carriage return, tab and vertical tab still in its two-byte escaped
form (octal escapes of other control bytes are decoded); the value equals `s` exactly
when `s` holds none of these seven bytes. -/
theorem DecodeCopyToTuples_escaped_column {κ : Type} (env : CopyEnv κ) (k : κ) (s : List Nat)
    (hcol : env.pgColumns 0 = some k)
    (hconv : env.convertErr [] 0 k ⟨.TupleText, keptColumn s⟩ = false) :
    DecodeCopyToTuples env (escapeColumn s ++ [10]) =
      (none, [.convert 0 k ⟨.TupleText, keptColumn s⟩]) ∧
    (keptColumn s = s ↔ ∀ c ∈ s, c ∉ [92, 8, 12, 10, 13, 9, 11]) := by
  refine ⟨?_, keptColumn_eq_self_iff s⟩
  unfold DecodeCopyToTuples
  have hle := length_le_escapeColumn s
  obtain ⟨d, hd⟩ : ∃ d, (escapeColumn s ++ [10]).length + 1 = (d + 1) + s.length := by
    refine ⟨(escapeColumn s).length + 1 - s.length, ?_⟩
    simp only [List.length_append, List.length_singleton]
    omega
  rw [hd, copyLoop_escapeColumn]
  simpa using copyLoop_newline env k (keptColumn s) d hcol (by simpa using hconv)

theorem DecodeCopyToTuples_escaped_column_witness :
    DecodeCopyToTuples oneColumnEnv (escapeColumn [97, 9, 1, 92] ++ [10]) =
      (none, [.convert 0 () ⟨.TupleText, keptColumn [97, 9, 1, 92]⟩]) ∧
    (keptColumn [97, 9, 1, 92] = [97, 9, 1, 92] ↔
      ∀ c ∈ [97, 9, 1, 92], c ∉ [92, 8, 12, 10, 13, 9, 11]) :=
  DecodeCopyToTuples_escaped_column oneColumnEnv () [97, 9, 1, 92] rfl rfl

/-- C10 (counterexample). The one-byte string holding a tab is escaped to backslash
`t`; decoding the line forwards a Text tuple whose value is the two bytes backslash
and `t`, not the tab. -/
theorem DecodeCopyToTuples_keeps_escape :
    escapeColumn [9] ++ [10] = [92, 116, 10] ∧
    DecodeCopyToTuples oneColumnEnv (escapeColumn [9] ++ [10]) =
      (none, [.convert 0 () ⟨.TupleText, [92, 116]⟩]) ∧
    ([92, 116] : List Nat) ≠ [9] := by
  decide

/-! ### Engine: what each handler leaves alone -/

theorem DataStep.rfl' (r : Replicator) : DataStep r r :=
  ⟨rfl, rfl, rfl, [], by simp, by simp⟩

theorem DataStep.trans {r r1 r2 : Replicator} (h1 : DataStep r r1) (h2 : DataStep r1 r2) :
    DataStep r r2 := by
  obtain ⟨a1, b1, c1, e1, l1, d1⟩ := h1
  obtain ⟨a2, b2, c2, e2, l2, d2⟩ := h2
  refine ⟨a2.trans a1, b2.trans b1, c2.trans c1, e1 ++ e2, ?_, ?_⟩
  · rw [l2, l1, List.append_assoc]
  · intro e he
    rcases List.mem_append.mp he with h | h
    · exact d1 e h
    · exact d2 e h

theorem DataStep.call (env : EngineEnv) (r : Replicator) (e : Effect)
    (h : Effect.isDataCall e = true) : DataStep r (r.call env e).2 :=
  ⟨rfl, rfl, rfl, [e], rfl, by simpa using h⟩

theorem checkAndGetTable_dataStep (env : EngineEnv) (r : Replicator) (oid : Nat) :
    DataStep r (checkAndGetTable env r oid).state ∧
    (checkAndGetTable env r oid).state.isEmptyTx = r.isEmptyTx := by
  unfold checkAndGetTable
  cases lookupKey oid r.oidName with
  | none => exact ⟨DataStep.rfl' r, rfl⟩
  | some tblName =>
    simp only []
    by_cases hch : tblName ∈ r.chTables
    · simp only [hch, not_true_eq_false, if_false]
      have h1 : DataStep r (if tblName ∈ r.tablesToFlush then r
          else { r with tablesToFlush := r.tablesToFlush ++ [tblName] }) ∧
          (if tblName ∈ r.tablesToFlush then r
          else { r with tablesToFlush := r.tablesToFlush ++ [tblName] }).isEmptyTx =
            r.isEmptyTx := by
        split_ifs
        · exact ⟨DataStep.rfl' r, rfl⟩
        · exact ⟨⟨rfl, rfl, rfl, [], by simp, by simp⟩, rfl⟩
      generalize (if tblName ∈ r.tablesToFlush then r
          else { r with tablesToFlush := r.tablesToFlush ++ [tblName] }) = r1 at h1 ⊢
      obtain ⟨d1, i1⟩ := h1
      cases hps : lookupKey tblName r1.persStorage with
      | none =>
        simp only []
        split_ifs
        all_goals first
          | exact ⟨d1, i1⟩
          | (refine ⟨d1.trans ⟨rfl, rfl, rfl, [_], rfl, by simp [Effect.isDataCall]⟩, ?_⟩
             simpa [Outcome.state, Replicator.call] using i1)
      | some v =>
        cases v with
        | corrupted => exact ⟨d1, i1⟩
        | value l =>
          simp only []
          split_ifs
          all_goals first
            | exact ⟨d1, i1⟩
            | (refine ⟨d1.trans ⟨rfl, rfl, rfl, [_], rfl, by simp [Effect.isDataCall]⟩, ?_⟩
               simpa [Outcome.state, Replicator.call] using i1)
        | failure l =>
          simp only []
          split_ifs
          all_goals first
            | exact ⟨d1, i1⟩
            | (refine ⟨d1.trans ⟨rfl, rfl, rfl, [_], rfl, by simp [Effect.isDataCall]⟩, ?_⟩
               simpa [Outcome.state, Replicator.call] using i1)
    · simp only [hch, not_false_eq_true, if_true]
      exact ⟨DataStep.rfl' r, rfl⟩

theorem processInsert_dataStep (env : EngineEnv) (r : Replicator) (oid : Nat) (newRow : Row) :
    DataStep r (processInsert env r oid newRow).state := by
  obtain ⟨h, _⟩ := checkAndGetTable_dataStep env r oid
  unfold processInsert
  cases hc : checkAndGetTable env r oid with
  | aborted w r1 => rw [hc] at h; exact h
  | returned val r1 =>
    rw [hc] at h
    simp only [Outcome.state] at h
    obtain ⟨tbl, err⟩ := val
    cases tbl with
    | none => cases err <;> exact h
    | some t =>
      cases err with
      | some e => exact h
      | none =>
        simp only [Replicator.call]
        split_ifs <;> exact h.trans ⟨rfl, rfl, rfl, [_], rfl, by simp [Effect.isDataCall]⟩

theorem processUpdate_dataStep (env : EngineEnv) (r : Replicator) (oid : Nat)
    (oldRow newRow : Row) : DataStep r (processUpdate env r oid oldRow newRow).state := by
  obtain ⟨h, _⟩ := checkAndGetTable_dataStep env r oid
  unfold processUpdate
  cases hc : checkAndGetTable env r oid with
  | aborted w r1 => rw [hc] at h; exact h
  | returned val r1 =>
    rw [hc] at h
    simp only [Outcome.state] at h
    obtain ⟨tbl, err⟩ := val
    cases tbl with
    | none => cases err <;> exact h
    | some t =>
      cases err with
      | some e => exact h
      | none =>
        simp only [Replicator.call]
        split_ifs <;> exact h.trans ⟨rfl, rfl, rfl, [_], rfl, by simp [Effect.isDataCall]⟩

theorem processDelete_dataStep (env : EngineEnv) (r : Replicator) (oid : Nat) (oldRow : Row) :
    DataStep r (processDelete env r oid oldRow).state := by
  obtain ⟨h, _⟩ := checkAndGetTable_dataStep env r oid
  unfold processDelete
  cases hc : checkAndGetTable env r oid with
  | aborted w r1 => rw [hc] at h; exact h
  | returned val r1 =>
    rw [hc] at h
    simp only [Outcome.state] at h
    obtain ⟨tbl, err⟩ := val
    cases tbl with
    | none => cases err <;> exact h
    | some t =>
      cases err with
      | some e => exact h
      | none =>
        simp only [Replicator.call]
        split_ifs <;> exact h.trans ⟨rfl, rfl, rfl, [_], rfl, by simp [Effect.isDataCall]⟩

theorem processTruncate_dataStep (env : EngineEnv) (oids : List Nat) :
    ∀ r : Replicator, DataStep r (processTruncate env r oids).state := by
  induction oids with
  | nil => intro r; exact ⟨rfl, rfl, rfl, [], by simp [processTruncate, Outcome.state], by simp⟩
  | cons oid oids ih =>
    intro r
    obtain ⟨h, _⟩ := checkAndGetTable_dataStep env r oid
    unfold processTruncate
    cases hc : checkAndGetTable env r oid with
    | aborted w r1 => rw [hc] at h; exact h
    | returned val r1 =>
      rw [hc] at h
      simp only [Outcome.state] at h
      obtain ⟨tbl, err⟩ := val
      cases tbl with
      | none =>
        cases err with
        | some e => exact h
        | none => exact h.trans (ih r1)
      | some t =>
        cases err with
        | some e => exact h
        | none =>
          simp only [Replicator.call]
          split_ifs
          · exact h.trans ⟨rfl, rfl, rfl, [_], rfl, by simp [Effect.isDataCall]⟩
          · have h2 : DataStep r1 { r1 with log := r1.log ++ [.tblTruncate t] } :=
              ⟨rfl, rfl, rfl, [_], rfl, by simp [Effect.isDataCall]⟩
            exact (h.trans h2).trans (ih _)

theorem processRelation_dataStep (env : EngineEnv) (r : Replicator) (msg : Message) (oid : Nat) :
    DataStep r (processRelation env r msg oid).state ∧
    (processRelation env r msg oid).state.isEmptyTx = r.isEmptyTx := by
  have h := checkAndGetTable_dataStep env r oid
  unfold processRelation
  cases hc : checkAndGetTable env r oid with
  | aborted w r1 => rw [hc] at h; exact h
  | returned val r1 =>
    rw [hc] at h
    simp only [Outcome.state] at h
    obtain ⟨tbl, err⟩ := val
    cases tbl with
    | none => cases err <;> exact h
    | some t =>
      cases err with
      | some e => exact h
      | none =>
        simp only []
        cases lookupKey oid r1.oidName with
        | none => exact h
        | some tblName =>
          simp only []
          cases lookupKey tblName r1.tblRelMsgs with
          | none => exact h
          | some relMsg =>
            simp only []
            split_ifs <;> exact h

/-- A record with row changes, or a Relation, Type or Origin record, leaves the final
LSN, the lifecycle state and the mutex alone and adds only data calls to the log. -/
theorem HandleMessage_dataStep (env : EngineEnv) (r : Replicator) (msg : Message)
    (h : isDML msg = true ∨ isMeta msg = true) :
    DataStep r (HandleMessage env r msg).state := by
  unfold HandleMessage
  by_cases h0 : r.txFinalLSN = InvalidLSN ∧ isBeginVal msg = false
  · rw [if_pos h0]; exact DataStep.rfl' r
  · rw [if_neg h0]
    cases msg with
    | Insert oid isNew newRow => exact processInsert_dataStep env r oid newRow
    | Update oid isKey isOld isNew oldRow newRow =>
      exact processUpdate_dataStep env r oid oldRow newRow
    | Delete oid isKey isOld oldRow => exact processDelete_dataStep env r oid oldRow
    | Truncate c ri oids => exact processTruncate_dataStep env oids r
    | Relation oid ns n ri cols => exact (processRelation_dataStep env r _ oid).1
    | Type_ o ns n => exact DataStep.rfl' r
    | Origin l n => exact DataStep.rfl' r
    | _ => simp [isDML, isMeta] at h

/-- A Relation, Type or Origin record leaves `isEmptyTx` alone. -/
theorem HandleMessage_meta_isEmptyTx (env : EngineEnv) (r : Replicator) (msg : Message)
    (h : isMeta msg = true) : (HandleMessage env r msg).state.isEmptyTx = r.isEmptyTx := by
  unfold HandleMessage
  by_cases h0 : r.txFinalLSN = InvalidLSN ∧ isBeginVal msg = false
  · rw [if_pos h0]; rfl
  · rw [if_neg h0]
    cases msg with
    | Relation oid ns n ri cols => exact (processRelation_dataStep env r _ oid).2
    | Type_ o ns n => rfl
    | Origin l n => rfl
    | _ => simp [isMeta] at h

/-! ### Engine: records outside a transaction, empty transactions, updates -/

/-- C16. With `txFinalLSN = InvalidLSN`, `HandleMessage` returns nil in the unchanged
state for every record that is not a `message.Begin` held by value, in particular
for each Commit, Relation, Type, Origin, Insert, Update, Delete and Truncate that
`Parse` returns: `txFinalLSN`, `isEmptyTx`, `inTxTables`, `tablesToFlush` and the log
of buffer and consumer calls are what they were. -/
theorem HandleMessage_dropped_outside_transaction (env : EngineEnv) (r : Replicator)
    (msg : Message) (h : r.txFinalLSN = InvalidLSN) (hm : isBeginVal msg = false) :
    HandleMessage env r msg = .returned none r := by
  unfold HandleMessage
  rw [if_pos ⟨h, hm⟩]

theorem HandleMessage_dropped_outside_transaction_witness :
    HandleMessage failingCommitEnv { dmlTxEngine with txFinalLSN := InvalidLSN }
        (.Commit 0 5 6 0) =
      .returned none { dmlTxEngine with txFinalLSN := InvalidLSN } :=
  HandleMessage_dropped_outside_transaction failingCommitEnv
    { dmlTxEngine with txFinalLSN := InvalidLSN } (.Commit 0 5 6 0) rfl rfl

theorem run_record (env : EngineEnv) (r : Replicator) (m : Message) (ss : List Step) :
    run env r (.record m :: ss) =
      match HandleMessage env r m with
      | .returned _ r1 => run env r1 ss
      | .aborted _ r1 => r1 := by
  simp only [run, runFrom, stepEngine]
  cases HandleMessage env r m <;> rfl

theorem commitCalls_append_data (log evs : List Effect)
    (h : ∀ e ∈ evs, Effect.isDataCall e = true) : commitCalls (log ++ evs) = commitCalls log := by
  have : commitCalls evs = [] := by
    simp only [commitCalls, List.filter_eq_nil_iff]
    intro e he
    have := h e he
    cases e <;> simp_all [Effect.isDataCall]
  simp only [commitCalls, List.filter_append] at this ⊢
  rw [this, List.append_nil]

theorem DataStep.commitCalls {r r1 : Replicator} (h : DataStep r r1) :
    commitCalls r1.log = commitCalls r.log := by
  obtain ⟨evs, hl, hd⟩ := h.log
  rw [hl, commitCalls_append_data _ _ hd]

/-- A Commit in an empty transaction calls `Commit()` on no buffer. -/
theorem HandleMessage_commit_empty (env : EngineEnv) (r : Replicator) (flags lsn txLSN : Nat)
    (ts : Int) (h : r.txFinalLSN = InvalidLSN ∨ r.isEmptyTx = true) :
    commitCalls (HandleMessage env r (.Commit flags lsn txLSN ts)).state.log =
      commitCalls r.log := by
  unfold HandleMessage
  by_cases h0 : r.txFinalLSN = InvalidLSN ∧ isBeginVal (.Commit flags lsn txLSN ts) = false
  · rw [if_pos h0]; rfl
  · rw [if_neg h0]
    have he : r.isEmptyTx = true := by
      rcases h with h | h
      · exact absurd ⟨h, rfl⟩ h0
      · exact h
    simp only [processCommit, he, Bool.not_true, Bool.false_eq_true, if_false, unlockDeferred]
    split_ifs <;> simp [Outcome.state, commitCalls, List.filter_append]

/-- After a Begin, Relation, Type and Origin records and then the Commit call
`Commit()` on no buffer. -/
theorem run_meta_commit (env : EngineEnv) (flags lsn txLSN : Nat) (ts : Int)
    (mid : List Message) (hmid : ∀ m ∈ mid, isMeta m = true) :
    ∀ r : Replicator, (r.txFinalLSN = InvalidLSN ∨ r.isEmptyTx = true) →
      commitCalls (run env r
        (mid.map .record ++ [.record (.Commit flags lsn txLSN ts)])).log = commitCalls r.log := by
  induction mid with
  | nil =>
    intro r h
    have hc := HandleMessage_commit_empty env r flags lsn txLSN ts h
    simp only [List.map_nil, List.nil_append, run_record]
    cases hm : HandleMessage env r (.Commit flags lsn txLSN ts) with
    | returned v r1 => rw [hm] at hc; exact hc
    | aborted w r1 => rw [hm] at hc; exact hc
  | cons m mid ih =>
    intro r h
    have hm := hmid m (List.mem_cons_self _ _)
    have hd := HandleMessage_dataStep env r m (Or.inr hm)
    have he := HandleMessage_meta_isEmptyTx env r m hm
    simp only [List.map_cons, List.cons_append, run_record]
    cases hh : HandleMessage env r m with
    | returned v r1 =>
      rw [hh] at hd he
      simp only [Outcome.state] at hd he
      simp only []
      rw [ih (fun m hm => hmid m (List.mem_cons_of_mem _ hm)) r1
        (by rw [hd.txFinalLSN, he]; exact h)]
      exact hd.commitCalls
    | aborted w r1 =>
      rw [hh] at hd
      exact hd.commitCalls

/-- C17. From every engine state, handling a Begin record, then any Relation, Type
and Origin records, then a Commit record (no Insert, Update, Delete or Truncate in
between) adds no call of `Commit()` on a table buffer to the log. -/
theorem run_begin_commit_no_buffer_commit (env : EngineEnv) (r : Replicator)
    (finalLSN : Nat) (bts xid : Int) (mid : List Message) (flags lsn txLSN : Nat) (cts : Int)
    (hmid : ∀ m ∈ mid, isMeta m = true) :
    commitCalls (run env r (.record (.Begin finalLSN bts xid) ::
      (mid.map .record ++ [.record (.Commit flags lsn txLSN cts)]))).log = commitCalls r.log := by
  rw [run_record]
  unfold HandleMessage
  by_cases h0 : r.txFinalLSN = InvalidLSN ∧ isBeginVal (.Begin finalLSN bts xid) = false
  · rw [if_pos h0]
    exact run_meta_commit env flags lsn txLSN cts mid hmid r (Or.inl h0.1)
  · rw [if_neg h0]
    simp only []
    by_cases hs : r.curState = .StateShuttingDown
    · rw [if_pos hs]
      exact run_meta_commit env flags lsn txLSN cts mid hmid _ (Or.inl rfl)
    · rw [if_neg hs]
      unfold processBegin
      by_cases hl : r.inTxMutex = true
      · rw [if_pos hl]
      · rw [if_neg hl]
        exact run_meta_commit env flags lsn txLSN cts mid hmid _ (Or.inr rfl)

/-- A transaction left open with a forwarded Insert, then Begin, Relation, Commit. -/
theorem run_begin_commit_no_buffer_commit_witness :
    commitCalls (run quietEnv { dmlTxEngine with inTxMutex := false }
      (.record (.Begin 6 0 0) :: ([Message.Relation 7 [] [] 0 []].map .record ++
        [.record (.Commit 0 6 7 0)]))).log =
      commitCalls { dmlTxEngine with inTxMutex := false }.log :=
  run_begin_commit_no_buffer_commit quietEnv { dmlTxEngine with inTxMutex := false }
    6 0 0 [.Relation 7 [] [] 0 []] 0 6 7 0 (by decide)

/-! ### Engine: the rows of an Update -/

/-- The only call `checkAndGetTable` makes is a `Begin` with the final LSN. -/
theorem checkAndGetTable_log (env : EngineEnv) (r : Replicator) (oid : Nat) :
    (checkAndGetTable env r oid).state.log = r.log ∨
    ∃ t, (checkAndGetTable env r oid).state.log = r.log ++ [.tblBegin t r.txFinalLSN] := by
  unfold checkAndGetTable
  cases lookupKey oid r.oidName with
  | none => exact Or.inl rfl
  | some tblName =>
    simp only []
    by_cases hch : tblName ∈ r.chTables
    · simp only [hch, not_true_eq_false, if_false]
      by_cases htf : tblName ∈ r.tablesToFlush
      · simp only [htf, if_true]
        cases lookupKey tblName r.persStorage with
        | none =>
          simp only []
          split_ifs
          all_goals first
            | exact Or.inl rfl
            | exact Or.inr ⟨_, rfl⟩
        | some v =>
          cases v <;> simp only [] <;> (try split_ifs)
          all_goals first
            | exact Or.inl rfl
            | exact Or.inr ⟨_, rfl⟩
      · simp only [htf, if_false]
        cases lookupKey tblName r.persStorage with
        | none =>
          simp only []
          split_ifs
          all_goals first
            | exact Or.inl rfl
            | exact Or.inr ⟨_, rfl⟩
        | some v =>
          cases v <;> simp only [] <;> (try split_ifs)
          all_goals first
            | exact Or.inl rfl
            | exact Or.inr ⟨_, rfl⟩
    · simp only [hch, not_false_eq_true, if_true]
      exact Or.inl rfl

theorem processUpdate_log (env : EngineEnv) (r : Replicator) (oid : Nat) (oldRow newRow : Row) :
    ∃ evs, (processUpdate env r oid oldRow newRow).state.log = r.log ++ evs ∧
      ∀ t a b, Effect.tblUpdate t a b ∈ evs → a = oldRow ∧ b = newRow := by
  have h := checkAndGetTable_log env r oid
  have hb : ∀ l1 : List Effect, (l1 = r.log ∨ ∃ t, l1 = r.log ++ [.tblBegin t r.txFinalLSN]) →
      (∃ evs, l1 = r.log ++ evs ∧ ∀ t a b, Effect.tblUpdate t a b ∈ evs → a = oldRow ∧ b = newRow) ∧
      ∀ t, ∃ evs, l1 ++ [.tblUpdate t oldRow newRow] = r.log ++ evs ∧
        ∀ t a b, Effect.tblUpdate t a b ∈ evs → a = oldRow ∧ b = newRow := by
    intro l1 h1
    rcases h1 with h1 | ⟨t0, h1⟩
    · subst h1
      exact ⟨⟨[], by simp, by simp⟩, fun t => ⟨[_], rfl, by simp⟩⟩
    · subst h1
      refine ⟨⟨[_], rfl, by simp⟩, fun t =>
        ⟨[.tblBegin t0 r.txFinalLSN, .tblUpdate t oldRow newRow], by simp, ?_⟩⟩
      intro t1 a b hmem
      have h2 : t1 = t ∧ a = oldRow ∧ b = newRow := by simpa using hmem
      exact h2.2
  unfold processUpdate
  cases hc : checkAndGetTable env r oid with
  | aborted w r1 => rw [hc] at h; exact (hb _ h).1
  | returned val r1 =>
    rw [hc] at h
    simp only [Outcome.state] at h
    obtain ⟨tbl, err⟩ := val
    cases tbl with
    | none => cases err <;> exact (hb _ h).1
    | some t =>
      cases err with
      | some e => exact (hb _ h).1
      | none =>
        simp only [Replicator.call]
        split_ifs <;> exact (hb _ h).2 t

/-- C18 (as amended). Every `Update` call that `HandleMessage` makes on a table buffer
for an Update record carries the old row and the new row of the record as they are,
tuples of kind Unchanged included; and for a record of a configured table that is
already part of the open transaction and has no checkpoint, exactly that one call is
made. -/
theorem HandleMessage_update_forwards_rows (env : EngineEnv) (r : Replicator) (oid : Nat)
    (isKey isOld isNew : Bool) (oldRow newRow : Row) :
    (∃ evs, (HandleMessage env r (.Update oid isKey isOld isNew oldRow newRow)).state.log =
        r.log ++ evs ∧
      ∀ t a b, Effect.tblUpdate t a b ∈ evs → a = oldRow ∧ b = newRow) ∧
    (∀ t, r.txFinalLSN ≠ InvalidLSN → lookupKey oid r.oidName = some t → t ∈ r.chTables →
      t ∈ r.inTxTables → lookupKey t r.persStorage = none →
      (HandleMessage env r (.Update oid isKey isOld isNew oldRow newRow)).state.log =
        r.log ++ [.tblUpdate t oldRow newRow]) := by
  constructor
  · unfold HandleMessage
    by_cases h0 : r.txFinalLSN = InvalidLSN ∧
        isBeginVal (.Update oid isKey isOld isNew oldRow newRow) = false
    · rw [if_pos h0]; exact ⟨[], by simp [Outcome.state], by simp⟩
    · rw [if_neg h0]
      exact processUpdate_log env r oid oldRow newRow
  · intro t hopen hoid hch htx hps
    have hlt : ¬ r.txFinalLSN ≤ InvalidLSN := by
      simp only [InvalidLSN] at hopen ⊢
      omega
    unfold HandleMessage
    rw [if_neg (by simp [hopen])]
    simp only [processUpdate, checkAndGetTable, hoid, hch, not_true_eq_false, if_false]
    by_cases htf : t ∈ r.tablesToFlush
    · simp [htf, hps, hlt, htx, Replicator.call, Outcome.state]
      split_ifs <;> rfl
    · simp [htf, hps, hlt, htx, Replicator.call, Outcome.state]
      split_ifs <;> rfl

theorem HandleMessage_update_forwards_rows_witness :
    (HandleMessage quietEnv dmlTxEngine (.Update 7 false false true []
        [some ⟨.TupleText, [49]⟩, some ⟨.TupleUnchanged, []⟩])).state.log =
      dmlTxEngine.log ++ [.tblUpdate "public.t" []
        [some ⟨.TupleText, [49]⟩, some ⟨.TupleUnchanged, []⟩]] :=
  (HandleMessage_update_forwards_rows quietEnv dmlTxEngine 7 false false true []
      [some ⟨.TupleText, [49]⟩, some ⟨.TupleUnchanged, []⟩]).2 "public.t"
    (by decide) rfl (by decide) (by decide) rfl

/-- C18 (counterexample). In the open transaction, the Update record for OID 7 whose
new row holds a tuple of kind Unchanged is forwarded to the buffer of `public.t` with
that tuple in the new row. -/
theorem HandleMessage_update_keeps_unchanged :
    HandleMessage quietEnv dmlTxEngine (.Update 7 false false true []
        [some ⟨.TupleText, [49]⟩, some ⟨.TupleUnchanged, []⟩]) =
      .returned none { dmlTxEngine with
        log := dmlTxEngine.log ++ [.tblUpdate "public.t" []
          [some ⟨.TupleText, [49]⟩, some ⟨.TupleUnchanged, []⟩]] } ∧
    (some ⟨.TupleUnchanged, []⟩ : Option Tuple) ∈
      ([some ⟨.TupleText, [49]⟩, some ⟨.TupleUnchanged, []⟩] : Row) := by
  refine ⟨rfl, by decide⟩

/-! ### Engine: Commit and the consumer's LSN -/

theorem advances_append (l1 l2 : List Effect) :
    advances (l1 ++ l2) = advances l1 ++ advances l2 := by
  induction l1 with
  | nil => rfl
  | cons e l1 ih => cases e <;> simp [advances, ih]

theorem advances_commits (ts : List PgTableName) : advances (ts.map .tblCommit) = [] := by
  induction ts with
  | nil => rfl
  | cons t ts ih => simpa [advances] using ih

/-- When every `Commit()` succeeds, the loop calls it on every buffer in order. -/
theorem commitLoop_all (env : EngineEnv) (ts : List PgTableName) :
    ∀ r : Replicator,
      (∀ pre t post, ts = pre ++ t :: post →
        env.tblErr (r.log ++ pre.map .tblCommit) (.tblCommit t) = false) →
      commitLoop env r ts = (false, { r with log := r.log ++ ts.map .tblCommit }) := by
  induction ts with
  | nil => intro r _; simp [commitLoop]
  | cons t ts ih =>
    intro r h
    have h0 := h [] t ts rfl
    simp only [List.map_nil, List.append_nil] at h0
    simp only [commitLoop, Replicator.call, h0, Bool.false_eq_true, if_false]
    rw [ih]
    · simp
    · intro pre t1 post hts
      have := h (t :: pre) t1 post (by rw [hts]; rfl)
      simpa using this

/-- When a `Commit()` fails, the loop reports the failure and has called nothing but
`Commit()`. -/
theorem commitLoop_some_fails (env : EngineEnv) (ts : List PgTableName) :
    ∀ r : Replicator,
      (∃ pre t post, ts = pre ++ t :: post ∧
        env.tblErr (r.log ++ pre.map .tblCommit) (.tblCommit t) = true) →
      (commitLoop env r ts).1 = true ∧ advances (commitLoop env r ts).2.log = advances r.log := by
  induction ts with
  | nil =>
    intro r h
    obtain ⟨pre, t, post, hts, _⟩ := h
    simp at hts
  | cons t ts ih =>
    intro r h
    by_cases h0 : env.tblErr r.log (.tblCommit t) = true
    · simp [commitLoop, Replicator.call, h0, advances_append, advances]
    · have h0f : env.tblErr r.log (.tblCommit t) = false := by simpa using h0
      simp only [commitLoop, Replicator.call, h0f, Bool.false_eq_true, if_false]
      obtain ⟨pre, t1, post, hts, herr⟩ := h
      cases pre with
      | nil =>
        simp only [List.nil_append, List.cons.injEq] at hts
        obtain ⟨e1, _⟩ := hts
        subst e1
        simp only [List.map_nil, List.append_nil] at herr
        exact absurd herr h0
      | cons p pre =>
        simp only [List.cons_append, List.cons.injEq] at hts
        obtain ⟨e1, e2⟩ := hts
        subst e1
        have := ih { r with log := r.log ++ [.tblCommit t] }
          ⟨pre, t1, post, e2, by simpa using herr⟩
        refine ⟨this.1, ?_⟩
        rw [this.2]
        simp [advances_append, advances]

/-- C20. For a Commit record in an open transaction in which DML was applied
(`isEmptyTx` false, mutex held): when `Commit()` returns success on every buffer in
`inTxTables`, `HandleMessage` returns nil having called `Commit()` on each of them,
in order, and only then `AdvanceLSN` with the final LSN; when the `Commit()` of some
buffer fails, `HandleMessage` returns an error and no call of `AdvanceLSN` was
made. -/
theorem HandleMessage_commit_advances_after_commits (env : EngineEnv) (r : Replicator)
    (flags lsn txLSN : Nat) (ts : Int) (hopen : r.txFinalLSN ≠ InvalidLSN)
    (hdml : r.isEmptyTx = false) (hlock : r.inTxMutex = true) :
    ((∀ pre t post, r.inTxTables = pre ++ t :: post →
        env.tblErr (r.log ++ pre.map .tblCommit) (.tblCommit t) = false) →
      ∃ r1, HandleMessage env r (.Commit flags lsn txLSN ts) = .returned none r1 ∧
        r1.log = r.log ++ (r.inTxTables.map .tblCommit ++ [.advanceLSN r.txFinalLSN])) ∧
    ((∃ pre t post, r.inTxTables = pre ++ t :: post ∧
        env.tblErr (r.log ++ pre.map .tblCommit) (.tblCommit t) = true) →
      ∃ r1, HandleMessage env r (.Commit flags lsn txLSN ts) =
          .returned (some .couldNotCommit) r1 ∧
        advances r1.log = advances r.log) := by
  have h0 : ¬(r.txFinalLSN = InvalidLSN ∧
      isBeginVal (.Commit flags lsn txLSN ts) = false) := by simp [hopen]
  constructor
  · intro hall
    have hc := commitLoop_all env r.inTxTables r hall
    unfold HandleMessage
    rw [if_neg h0]
    simp only [processCommit, hdml, Bool.not_false, if_true, hc, Bool.false_eq_true, if_false,
      unlockDeferred, hlock]
    exact ⟨_, rfl, by simp⟩
  · intro hsome
    obtain ⟨hf, hadv⟩ := commitLoop_some_fails env r.inTxTables r hsome
    have hfr := commitLoop_frame env r.inTxTables r
    unfold HandleMessage
    rw [if_neg h0]
    simp only [processCommit, hdml, Bool.not_false, if_true, hf, unlockDeferred]
    have hm : (commitLoop env r r.inTxTables).2.inTxMutex = true := by
      rw [hfr]; exact hlock
    rw [if_pos hm]
    exact ⟨_, rfl, hadv⟩

theorem HandleMessage_commit_advances_after_commits_witness :
    (∃ r1, HandleMessage quietEnv dmlTxEngine (.Commit 0 5 6 0) = .returned none r1 ∧
      r1.log = dmlTxEngine.log ++
        (dmlTxEngine.inTxTables.map .tblCommit ++ [.advanceLSN dmlTxEngine.txFinalLSN])) ∧
    (∃ r1, HandleMessage failingCommitEnv dmlTxEngine (.Commit 0 5 6 0) =
        .returned (some .couldNotCommit) r1 ∧
      advances r1.log = advances dmlTxEngine.log) :=
  ⟨(HandleMessage_commit_advances_after_commits quietEnv dmlTxEngine 0 5 6 0
      (by decide) rfl rfl).1 (fun _ _ _ _ => rfl),
   (HandleMessage_commit_advances_after_commits failingCommitEnv dmlTxEngine 0 5 6 0
      (by decide) rfl rfl).2 ⟨[], "public.t", [], rfl, rfl⟩⟩

/-! ### Engine: the LSNs passed to the consumer -/

theorem stepEngine_record_fst (env : EngineEnv) (r : Replicator) (w : Nat) (m : Message) :
    (stepEngine env r w (.record m)).1 = (HandleMessage env r m).state := by
  simp only [stepEngine]
  cases HandleMessage env r m <;> rfl

/-- A tick that finds `StateWorking` and the mutex free, and is not disturbed between
its state check and `Lock()`, is `flushFn` run through. -/
theorem inactivityFlush_undisturbed (env : EngineEnv) (r : Replicator)
    (hs : r.curState = .StateWorking) (hl : r.inTxMutex = false) :
    (inactivityFlush env r).state = flushLocked env r ∧
    runFrom env r 0 [.flushTick, .flushLock] = flushLocked env r := by
  constructor
  · simp only [inactivityFlush, hs, ne_eq, not_true_eq_false, if_false, hl,
      Bool.false_eq_true, flushLocked]
    rfl
  · simp [runFrom, stepEngine, hs, hl]

/-- C19 (failing run). The engine is in the transaction with final LSN 7. The Commit
record passes 7 to `AdvanceLSN`. A tick of the flusher passes its state check
(`StateWorking`) and goes on to `Lock()`; before it has the mutex the lifecycle state
becomes `StateShuttingDown` and the Begin record with final LSN 9 is handled, which
sets `txFinalLSN` to `InvalidLSN` without the mutex; the tick then runs
`tblBuffersFlush` and passes 0 to `AdvanceLSN`. The final LSNs of the transactions,
7 and 9, are in order; the LSNs passed to the consumer, 7 and 0, are not. -/
theorem run_shutdown_begin_before_waiting_tick :
    (emptyTxEngine.txFinalLSN ::
      beginLSNs [.record (.Commit 0 7 8 0), .flushTick, .lifecycle .StateShuttingDown,
        .record (.Begin 9 0 0), .flushLock]).Pairwise (· ≤ ·) ∧
    advances (run quietEnv emptyTxEngine
      [.record (.Commit 0 7 8 0), .flushTick, .lifecycle .StateShuttingDown,
        .record (.Begin 9 0 0), .flushLock]).log = [7, 0] ∧
    ¬ ([7, 0] : List Nat).Pairwise (· ≤ ·) := by
  decide

/-! ### Copy-line decoder: lines as lexemes -/

/-- One iteration of the loop takes the lexeme at the read position. -/
theorem copyLoop_lexeme {κ : Type} (env : CopyEnv κ) (fuel : Nat) (inp rest : List Nat)
    (l : Lexeme) (st : CopyState κ) (h : lexeme inp = some (l, rest)) :
    copyLoop env (fuel + 1) inp st =
      match l with
      | .tab =>
        (match forwardColumn env st with
          | (some err, out1) => (some err, out1)
          | (none, out1) => copyLoop env fuel rest ⟨[], st.colId + 1, .TupleText, out1⟩)
      | .newline =>
        (match forwardColumn env st with
          | (some err, out1) => (some err, out1)
          | (none, out1) => (none, out1))
      | .piece .null => copyLoop env fuel rest { st with tupleKind := .TupleNull }
      | .piece (.bytes bs) => copyLoop env fuel rest { st with colBuf := st.colBuf ++ bs } := by
  rcases inp with _ | ⟨c, r0⟩
  · simp [lexeme] at h
  by_cases c9 : c = 9
  · subst c9
    simp [lexeme] at h
    obtain ⟨rfl, rfl⟩ := h
    simp [copyLoop]
  by_cases c10 : c = 10
  · subst c10
    simp [lexeme] at h
    obtain ⟨rfl, rfl⟩ := h
    simp [copyLoop]
  by_cases c92 : c = 92
  swap
  · simp [lexeme, c9, c10, c92] at h
    obtain ⟨rfl, rfl⟩ := h
    simp [copyLoop, c9, c10, c92]
  subst c92
  rcases r0 with _ | ⟨ch, r1⟩
  · simp [lexeme] at h
  by_cases n78 : ch = 78
  · subst n78
    simp [lexeme] at h
    obtain ⟨rfl, rfl⟩ := h
    simp [copyLoop]
  by_cases hl : ch = 98 ∨ ch = 102 ∨ ch = 110 ∨ ch = 114 ∨ ch = 116 ∨ ch = 118 ∨ ch = 92
  · simp only [lexeme, n78, hl, if_true, if_false] at h
    simp at h
    obtain ⟨rfl, rfl⟩ := h
    simp only [copyLoop, n78, hl, if_true, if_false]
    simp
  by_cases hx : ch = 120
  · subst hx
    rcases r1 with _ | ⟨h1, r2⟩
    · simp [lexeme] at h
    by_cases hh : (decodeHexDigit h1).2 = false
    · simp [lexeme, hh] at h
    rcases r2 with _ | ⟨h2, r3⟩
    · simp [lexeme, hh] at h
      obtain ⟨rfl, rfl⟩ := h
      simp [copyLoop, hh]
    by_cases hh2 : (decodeHexDigit h2).2 = true
    · simp [lexeme, hh, hh2] at h
      obtain ⟨rfl, rfl⟩ := h
      simp [copyLoop, hh, hh2]
    · simp [lexeme, hh, hh2] at h
      obtain ⟨rfl, rfl⟩ := h
      simp [copyLoop, hh, hh2]
  by_cases ho : 48 ≤ ch ∧ ch ≤ 55
  swap
  · simp only [lexeme, n78, hl, hx, ho, if_true, if_false] at h
    simp at h
  rcases r1 with _ | ⟨o2, r2⟩
  · simp only [lexeme, n78, hl, hx, ho, if_true, if_false] at h
    simp at h
    obtain ⟨rfl, rfl⟩ := h
    simp only [copyLoop, n78, hl, hx, ho, if_true, if_false]
    simp
  by_cases ho2 : (decodeOctDigit o2).2 = true
  swap
  · simp only [lexeme, n78, hl, hx, ho, ho2, if_true, if_false] at h
    simp at h
    obtain ⟨rfl, rfl⟩ := h
    simp only [copyLoop, n78, hl, hx, ho, ho2, if_true, if_false]
    simp
  rcases r2 with _ | ⟨o3, r3⟩
  · simp only [lexeme, n78, hl, hx, ho, ho2, if_true, if_false] at h
    simp at h
    obtain ⟨rfl, rfl⟩ := h
    simp only [copyLoop, n78, hl, hx, ho, ho2, if_true, if_false]
    simp
  by_cases ho3 : (decodeOctDigit o3).2 = true
  · simp only [lexeme, n78, hl, hx, ho, ho2, ho3, if_true, if_false] at h
    simp at h
    obtain ⟨rfl, rfl⟩ := h
    simp only [copyLoop, n78, hl, hx, ho, ho2, ho3, if_true, if_false]
    simp
  · simp only [lexeme, n78, hl, hx, ho, ho2, ho3, if_true, if_false] at h
    simp at h
    obtain ⟨rfl, rfl⟩ := h
    simp only [copyLoop, n78, hl, hx, ho, ho2, ho3, if_true, if_false]
    simp

/-- A lexeme takes at least one byte. -/
theorem lexeme_length (inp rest : List Nat) (l : Lexeme) (h : lexeme inp = some (l, rest)) :
    rest.length < inp.length := by
  rcases inp with _ | ⟨c, r0⟩
  · simp [lexeme] at h
  by_cases c9 : c = 9
  · simp only [lexeme, c9, if_true, if_false] at h
    simp at h
    obtain ⟨rfl, rfl⟩ := h
    simp only [List.length_cons, List.length_nil]
    omega
  by_cases c10 : c = 10
  · simp only [lexeme, c9, c10, if_true, if_false] at h
    simp at h
    obtain ⟨rfl, rfl⟩ := h
    simp only [List.length_cons, List.length_nil]
    omega
  by_cases c92 : c = 92
  swap
  · simp [lexeme, c9, c10, c92] at h
    obtain ⟨rfl, rfl⟩ := h
    simp only [List.length_cons, List.length_nil]
    omega
  subst c92
  rcases r0 with _ | ⟨ch, r1⟩
  · simp [lexeme] at h
  by_cases n78 : ch = 78
  · simp only [lexeme, n78, if_true, if_false] at h
    simp at h
    obtain ⟨rfl, rfl⟩ := h
    simp only [List.length_cons, List.length_nil]
    omega
  by_cases hl : ch = 98 ∨ ch = 102 ∨ ch = 110 ∨ ch = 114 ∨ ch = 116 ∨ ch = 118 ∨ ch = 92
  · simp only [lexeme, n78, hl, if_true, if_false] at h
    simp at h
    obtain ⟨rfl, rfl⟩ := h
    simp only [List.length_cons, List.length_nil]
    omega
  by_cases hx : ch = 120
  · rcases r1 with _ | ⟨h1, r2⟩
    · simp [lexeme, hx] at h
    by_cases hh : (decodeHexDigit h1).2 = false
    · simp [lexeme, hx, hh] at h
    rcases r2 with _ | ⟨h2, r3⟩
    · simp only [lexeme, n78, hl, hx, hh, if_true, if_false] at h
      simp at h
      obtain ⟨rfl, rfl⟩ := h
      simp only [List.length_cons, List.length_nil]
      omega
    by_cases hh2 : (decodeHexDigit h2).2 = true
    · simp only [lexeme, n78, hl, hx, hh, hh2, if_true, if_false] at h
      simp at h
      obtain ⟨rfl, rfl⟩ := h
      simp only [List.length_cons, List.length_nil]
      omega
    · simp only [lexeme, n78, hl, hx, hh, hh2, if_true, if_false] at h
      simp at h
      obtain ⟨rfl, rfl⟩ := h
      simp only [List.length_cons, List.length_nil]
      omega
  by_cases ho : 48 ≤ ch ∧ ch ≤ 55
  swap
  · simp only [lexeme, n78, hl, hx, ho, if_true, if_false] at h
    simp at h
  rcases r1 with _ | ⟨o2, r2⟩
  · simp only [lexeme, n78, hl, hx, ho, if_true, if_false] at h
    simp at h
    obtain ⟨rfl, rfl⟩ := h
    simp only [List.length_cons, List.length_nil]
    omega
  by_cases ho2 : (decodeOctDigit o2).2 = true
  swap
  · simp only [lexeme, n78, hl, hx, ho, ho2, if_true, if_false] at h
    simp at h
    obtain ⟨rfl, rfl⟩ := h
    simp only [List.length_cons, List.length_nil]
    omega
  rcases r2 with _ | ⟨o3, r3⟩
  · simp only [lexeme, n78, hl, hx, ho, ho2, if_true, if_false] at h
    simp at h
    obtain ⟨rfl, rfl⟩ := h
    simp only [List.length_cons, List.length_nil]
    omega
  by_cases ho3 : (decodeOctDigit o3).2 = true
  · simp only [lexeme, n78, hl, hx, ho, ho2, ho3, if_true, if_false] at h
    simp at h
    obtain ⟨rfl, rfl⟩ := h
    simp only [List.length_cons, List.length_nil]
    omega
  · simp only [lexeme, n78, hl, hx, ho, ho2, ho3, if_true, if_false] at h
    simp at h
    obtain ⟨rfl, rfl⟩ := h
    simp only [List.length_cons, List.length_nil]
    omega

/-- A newline byte put after the input does not change the lexeme at its start: the
byte is no digit of a hex or octal escape. -/
theorem lexeme_append_newline (inp rest : List Nat) (l : Lexeme)
    (h : lexeme inp = some (l, rest)) : lexeme (inp ++ [10]) = some (l, rest ++ [10]) := by
  have hex10 : (decodeHexDigit 10).2 = false := by decide
  have oct10 : (decodeOctDigit 10).2 = false := by decide
  rcases inp with _ | ⟨c, r0⟩
  · simp [lexeme] at h
  by_cases c9 : c = 9
  · simp only [lexeme, c9, if_true, if_false] at h
    simp at h
    obtain ⟨rfl, rfl⟩ := h
    simp only [List.cons_append, List.nil_append, lexeme, c9, hex10, oct10, if_true, if_false]
    try simp
  by_cases c10 : c = 10
  · simp only [lexeme, c9, c10, if_true, if_false] at h
    simp at h
    obtain ⟨rfl, rfl⟩ := h
    simp only [List.cons_append, List.nil_append, lexeme, c9, c10, hex10, oct10, if_true, if_false]
    try simp
  by_cases c92 : c = 92
  swap
  · simp [lexeme, c9, c10, c92] at h
    obtain ⟨rfl, rfl⟩ := h
    simp [lexeme, c9, c10, c92]
  subst c92
  rcases r0 with _ | ⟨ch, r1⟩
  · simp [lexeme] at h
  by_cases n78 : ch = 78
  · simp only [lexeme, n78, if_true, if_false] at h
    simp at h
    obtain ⟨rfl, rfl⟩ := h
    simp only [List.cons_append, List.nil_append, lexeme, n78, hex10, oct10, if_true, if_false]
    try simp
  by_cases hl : ch = 98 ∨ ch = 102 ∨ ch = 110 ∨ ch = 114 ∨ ch = 116 ∨ ch = 118 ∨ ch = 92
  · simp only [lexeme, n78, hl, if_true, if_false] at h
    simp at h
    obtain ⟨rfl, rfl⟩ := h
    simp only [List.cons_append, List.nil_append, lexeme, n78, hl, hex10, oct10, if_true, if_false]
    try simp
  by_cases hx : ch = 120
  · rcases r1 with _ | ⟨h1, r2⟩
    · simp [lexeme, hx] at h
    by_cases hh : (decodeHexDigit h1).2 = false
    · simp [lexeme, hx, hh] at h
    rcases r2 with _ | ⟨h2, r3⟩
    · simp only [lexeme, n78, hl, hx, hh, if_true, if_false] at h
      simp at h
      obtain ⟨rfl, rfl⟩ := h
      simp only [List.cons_append, List.nil_append, lexeme, n78, hl, hx, hh, hex10, oct10,
        if_true, if_false]
      try simp
    by_cases hh2 : (decodeHexDigit h2).2 = true
    · simp only [lexeme, n78, hl, hx, hh, hh2, if_true, if_false] at h
      simp at h
      obtain ⟨rfl, rfl⟩ := h
      simp only [List.cons_append, List.nil_append, lexeme, n78, hl, hx, hh, hh2, hex10, oct10,
        if_true, if_false]
      try simp
    · simp only [lexeme, n78, hl, hx, hh, hh2, if_true, if_false] at h
      simp at h
      obtain ⟨rfl, rfl⟩ := h
      simp only [List.cons_append, List.nil_append, lexeme, n78, hl, hx, hh, hh2, hex10, oct10,
        if_true, if_false]
      try simp
  by_cases ho : 48 ≤ ch ∧ ch ≤ 55
  swap
  · simp only [lexeme, n78, hl, hx, ho, if_true, if_false] at h
    simp at h
  rcases r1 with _ | ⟨o2, r2⟩
  · simp only [lexeme, n78, hl, hx, ho, if_true, if_false] at h
    simp at h
    obtain ⟨rfl, rfl⟩ := h
    simp only [List.cons_append, List.nil_append, lexeme, n78, hl, hx, ho, hex10, oct10, if_true,
      if_false]
    try simp
  by_cases ho2 : (decodeOctDigit o2).2 = true
  swap
  · simp only [lexeme, n78, hl, hx, ho, ho2, if_true, if_false] at h
    simp at h
    obtain ⟨rfl, rfl⟩ := h
    simp only [List.cons_append, List.nil_append, lexeme, n78, hl, hx, ho, ho2, hex10, oct10,
      if_true, if_false]
    try simp
  rcases r2 with _ | ⟨o3, r3⟩
  · simp only [lexeme, n78, hl, hx, ho, ho2, if_true, if_false] at h
    simp at h
    obtain ⟨rfl, rfl⟩ := h
    simp only [List.cons_append, List.nil_append, lexeme, n78, hl, hx, ho, ho2, hex10, oct10,
      if_true, if_false]
    try simp
  by_cases ho3 : (decodeOctDigit o3).2 = true
  · simp only [lexeme, n78, hl, hx, ho, ho2, ho3, if_true, if_false] at h
    simp at h
    obtain ⟨rfl, rfl⟩ := h
    simp only [List.cons_append, List.nil_append, lexeme, n78, hl, hx, ho, ho2, ho3, hex10,
      oct10, if_true, if_false]
    try simp
  · simp only [lexeme, n78, hl, hx, ho, ho2, ho3, if_true, if_false] at h
    simp at h
    obtain ⟨rfl, rfl⟩ := h
    simp only [List.cons_append, List.nil_append, lexeme, n78, hl, hx, ho, ho2, ho3, hex10,
      oct10, if_true, if_false]
    try simp

theorem reads_cons (l : Lexeme) (ls : List Lexeme) (inp tail : List Nat)
    (h : reads (l :: ls) inp = some tail) :
    ∃ rest, lexeme inp = some (l, rest) ∧ reads ls rest = some tail := by
  simp only [reads] at h
  cases hl : lexeme inp with
  | none => rw [hl] at h; simp at h
  | some p =>
    obtain ⟨l1, rest⟩ := p
    rw [hl] at h
    simp only [] at h
    by_cases e : l1 = l
    · rw [if_pos e] at h
      exact ⟨rest, by rw [e], h⟩
    · rw [if_neg e] at h
      simp at h

theorem reads_cons_of (l : Lexeme) (ls : List Lexeme) (inp rest tail : List Nat)
    (h1 : lexeme inp = some (l, rest)) (h2 : reads ls rest = some tail) :
    reads (l :: ls) inp = some tail := by
  simp only [reads, h1, if_true, h2]

theorem reads_append (ls1 ls2 : List Lexeme) :
    ∀ inp tail : List Nat, reads (ls1 ++ ls2) inp = some tail →
      ∃ mid, reads ls1 inp = some mid ∧ reads ls2 mid = some tail := by
  induction ls1 with
  | nil => intro inp tail h; exact ⟨inp, rfl, h⟩
  | cons l ls ih =>
    intro inp tail h
    obtain ⟨rest, h1, h2⟩ := reads_cons l (ls ++ ls2) inp tail h
    obtain ⟨mid, h3, h4⟩ := ih rest tail h2
    exact ⟨mid, reads_cons_of l ls inp rest mid h1 h3, h4⟩

theorem reads_append_of (ls1 ls2 : List Lexeme) :
    ∀ inp mid tail : List Nat, reads ls1 inp = some mid → reads ls2 mid = some tail →
      reads (ls1 ++ ls2) inp = some tail := by
  induction ls1 with
  | nil =>
    intro inp mid tail h1 h2
    simp only [reads, Option.some.injEq] at h1
    subst h1
    exact h2
  | cons l ls ih =>
    intro inp mid tail h1 h2
    obtain ⟨rest, h3, h4⟩ := reads_cons l ls inp mid h1
    exact reads_cons_of l (ls ++ ls2) inp rest tail h3 (ih rest mid tail h4 h2)

/-- Every lexeme takes at least one byte of the input. -/
theorem reads_length (ls : List Lexeme) :
    ∀ inp tail : List Nat, reads ls inp = some tail → ls.length + tail.length ≤ inp.length := by
  induction ls with
  | nil =>
    intro inp tail h
    simp only [reads, Option.some.injEq] at h
    subst h
    simp
  | cons l ls ih =>
    intro inp tail h
    obtain ⟨rest, h1, h2⟩ := reads_cons l ls inp tail h
    have := lexeme_length inp rest l h1
    have := ih rest tail h2
    simp only [List.length_cons]
    omega

/-- A newline byte put after the input does not change how the bytes before it are
read. -/
theorem reads_append_newline (ls : List Lexeme) :
    ∀ inp tail : List Nat, reads ls inp = some tail →
      reads ls (inp ++ [10]) = some (tail ++ [10]) := by
  induction ls with
  | nil =>
    intro inp tail h
    simp only [reads, Option.some.injEq] at h
    subst h
    rfl
  | cons l ls ih =>
    intro inp tail h
    obtain ⟨rest, h1, h2⟩ := reads_cons l ls inp tail h
    exact reads_cons_of l ls _ _ _ (lexeme_append_newline inp rest l h1) (ih rest tail h2)

/-- The iterations inside a column: the bytes go to the column buffer, `\N` sets the
kind to Null, the column index and the output stay. -/
theorem copyLoop_pieces {κ : Type} (env : CopyEnv κ) (ps : List Piece) :
    ∀ (inp tail : List Nat) (st : CopyState κ) (fuel : Nat),
      reads (ps.map .piece) inp = some tail →
      copyLoop env (ps.length + fuel) inp st =
        copyLoop env fuel tail
          { st with colBuf := st.colBuf ++ colBytes ps,
                    tupleKind := if Piece.null ∈ ps then .TupleNull else st.tupleKind } := by
  induction ps with
  | nil =>
    intro inp tail st fuel h
    simp only [List.map_nil, reads, Option.some.injEq] at h
    subst h
    simp [colBytes]
  | cons p ps ih =>
    intro inp tail st fuel h
    obtain ⟨rest, h1, h2⟩ := reads_cons _ _ inp tail h
    have e : (p :: ps).length + fuel = (ps.length + fuel) + 1 := by
      simp only [List.length_cons]; omega
    rw [e, copyLoop_lexeme env _ inp rest _ st h1]
    cases p with
    | null =>
      simp only []
      rw [ih rest tail _ fuel h2]
      simp [colBytes]
    | bytes bs =>
      simp only []
      rw [ih rest tail _ fuel h2]
      simp [colBytes, List.append_assoc]

/-- With collaborators that do not fail, the end of a column sends out the tab (unless
the column is column 0) and the conversion when the column is in the map, and
nothing otherwise. -/
theorem forwardColumn_quiet {κ : Type} (env : CopyEnv κ) (hq : env.Quiet) (col : List Piece)
    (colId : Nat) (out : List (CopyOut κ)) :
    forwardColumn env ⟨colBytes col, colId, colKind col, out⟩ =
      (none, out ++ forwarded env.pgColumns colId [col]) := by
  obtain ⟨hw, hc⟩ := hq
  simp only [forwardColumn, forwarded, List.append_nil]
  cases hk : env.pgColumns colId with
  | none => simp
  | some k =>
    simp only [hw, hc]
    by_cases h0 : 0 < colId <;> simp [h0]

theorem forwarded_append {κ : Type} (pgColumns : Nat → Option κ) (a b : List (List Piece)) :
    ∀ colId, forwarded pgColumns colId (a ++ b) =
      forwarded pgColumns colId a ++ forwarded pgColumns (colId + a.length) b := by
  induction a with
  | nil => intro colId; simp [forwarded]
  | cons c a ih =>
    intro colId
    have e : colId + 1 + a.length = colId + (a.length + 1) := by omega
    rw [List.cons_append]
    simp only [forwarded, List.length_cons, List.append_assoc]
    rw [ih, e]

theorem dropLast_append_getLastD {α : Type} (cs : List α) :
    ∀ c0 : α, (c0 :: cs).dropLast ++ [cs.getLastD c0] = c0 :: cs := by
  induction cs with
  | nil => intro c0; rfl
  | cons c cs ih =>
    intro c0
    rw [List.dropLast_cons₂, List.getLastD_cons, List.cons_append, ih]

theorem length_dropLast_cons {α : Type} (c0 : α) (cs : List α) :
    (c0 :: cs).dropLast.length = cs.length := by
  simp

/-- The iterations over the columns of a row, up to the end of the last column: the
columns before the last one have been sent out, the last one is in the buffer. -/
theorem copyLoop_row {κ : Type} (env : CopyEnv κ) (hq : env.Quiet) (cs : List (List Piece)) :
    ∀ (c0 : List Piece) (inp tail : List Nat) (colId : Nat) (out : List (CopyOut κ))
      (fuel : Nat),
      reads (joinRow c0 cs) inp = some tail →
      copyLoop env ((joinRow c0 cs).length + fuel) inp ⟨[], colId, .TupleText, out⟩ =
        copyLoop env fuel tail
          ⟨colBytes (cs.getLastD c0), colId + cs.length, colKind (cs.getLastD c0),
            out ++ forwarded env.pgColumns colId (c0 :: cs).dropLast⟩ := by
  induction cs with
  | nil =>
    intro c0 inp tail colId out fuel h
    simp only [joinRow] at h ⊢
    rw [List.length_map, copyLoop_pieces env c0 inp tail _ fuel h]
    simp [colKind, forwarded]
  | cons c1 cs ih =>
    intro c0 inp tail colId out fuel h
    simp only [joinRow] at h ⊢
    obtain ⟨mid, h1, h2⟩ := reads_append _ _ inp tail h
    obtain ⟨rest, h3, h4⟩ := reads_cons _ _ mid tail h2
    have e : (List.map Lexeme.piece c0 ++ Lexeme.tab :: joinRow c1 cs).length + fuel =
        c0.length + (((joinRow c1 cs).length + fuel) + 1) := by
      simp only [List.length_append, List.length_map, List.length_cons]; omega
    rw [e, copyLoop_pieces env c0 inp mid _ _ h1, copyLoop_lexeme env _ mid rest _ _ h3]
    have hf := forwardColumn_quiet env hq c0 colId out
    simp only [colKind] at hf
    simp only [List.nil_append]
    rw [hf]
    simp only []
    rw [ih c1 rest tail (colId + 1) _ fuel h4]
    rw [List.dropLast_cons₂, List.getLastD_cons]
    have e2 : colId + 1 + cs.length = colId + (c1 :: cs).length := by
      simp only [List.length_cons]; omega
    rw [e2]
    congr 1
    simp only [forwarded, List.append_nil, List.append_assoc]

theorem oneColumnEnv_quiet : oneColumnEnv.Quiet :=
  ⟨fun _ => rfl, fun _ _ _ _ => rfl⟩

/-- A row read without its terminator, by collaborators that do not fail: the loop
goes on behind it, with the columns before the last one sent out. -/
theorem DecodeCopyToTuples_prefix {κ : Type} (env : CopyEnv κ) (hq : env.Quiet)
    (c0 : List Piece) (cs : List (List Piece)) (line tail : List Nat)
    (h : reads (joinRow c0 cs) line = some tail) :
    ∃ (d : Nat) (st : CopyState κ),
      DecodeCopyToTuples env line = copyLoop env (d + 1) tail st ∧
      st.colBuf = colBytes (cs.getLastD c0) ∧ st.colId = cs.length ∧
      st.tupleKind = colKind (cs.getLastD c0) ∧
      st.out = forwarded env.pgColumns 0 (c0 :: cs).dropLast := by
  have hlen := reads_length _ line tail h
  obtain ⟨d, hd⟩ : ∃ d, line.length + 1 = (joinRow c0 cs).length + (d + 1) :=
    ⟨line.length - (joinRow c0 cs).length, by omega⟩
  refine ⟨d, ⟨colBytes (cs.getLastD c0), 0 + cs.length, colKind (cs.getLastD c0),
    [] ++ forwarded env.pgColumns 0 (c0 :: cs).dropLast⟩, ?_, rfl, ?_, rfl, ?_⟩
  · unfold DecodeCopyToTuples
    rw [hd, copyLoop_row env hq cs c0 line tail 0 [] (d + 1) h]
  · simp
  · simp

/-- A newline-terminated row, read by collaborators that do not fail. -/
theorem DecodeCopyToTuples_row {κ : Type} (env : CopyEnv κ) (hq : env.Quiet)
    (c0 : List Piece) (cs : List (List Piece)) (line rest : List Nat)
    (h : reads (joinRow c0 cs ++ [.newline]) line = some rest) :
    DecodeCopyToTuples env line = (none, forwarded env.pgColumns 0 (c0 :: cs)) := by
  obtain ⟨mid, h1, h2⟩ := reads_append _ _ line rest h
  obtain ⟨rest1, h3, -⟩ := reads_cons _ _ mid rest h2
  obtain ⟨d, st, e, b1, b2, b3, b4⟩ := DecodeCopyToTuples_prefix env hq c0 cs line mid h1
  rw [e, copyLoop_lexeme env d mid rest1 _ st h3]
  obtain ⟨buf, colId, kind, out⟩ := st
  simp only [] at b1 b2 b3 b4
  subst b1 b2 b3 b4
  simp only []
  rw [forwardColumn_quiet env hq]
  simp only []
  have e2 := forwarded_append env.pgColumns (c0 :: cs).dropLast [cs.getLastD c0] 0
  rw [dropLast_append_getLastD, length_dropLast_cons, Nat.zero_add] at e2
  rw [e2]

theorem mem_forwarded {κ : Type} (pgColumns : Nat → Option κ) (cols : List (List Piece)) :
    ∀ (j i : Nat) (col : List Piece) (k : κ), cols[i]? = some col → pgColumns (j + i) = some k →
      CopyOut.convert (j + i) k ⟨colKind col, colBytes col⟩ ∈ forwarded pgColumns j cols := by
  induction cols with
  | nil => intro j i col k h; simp at h
  | cons c cols ih =>
    intro j i col k h hk
    cases i with
    | zero =>
      simp only [List.getElem?_cons_zero, Option.some.injEq] at h
      subst h
      simp only [Nat.add_zero] at hk ⊢
      simp [forwarded, hk]
    | succ i =>
      simp only [List.getElem?_cons_succ] at h
      have e : j + (i + 1) = (j + 1) + i := by omega
      rw [e] at hk ⊢
      simp only [forwarded, List.mem_append]
      exact Or.inr (ih (j + 1) i col k h hk)

theorem of_mem_forwarded {κ : Type} (pgColumns : Nat → Option κ) (cols : List (List Piece)) :
    ∀ (j i : Nat) (k : κ) (t : Tuple), CopyOut.convert i k t ∈ forwarded pgColumns j cols →
      ∃ col, j ≤ i ∧ cols[i - j]? = some col ∧ t = ⟨colKind col, colBytes col⟩ := by
  induction cols with
  | nil => intro j i k t h; simp [forwarded] at h
  | cons c cols ih =>
    intro j i k t h
    simp only [forwarded, List.mem_append] at h
    rcases h with h | h
    · cases hk : pgColumns j with
      | none => rw [hk] at h; simp at h
      | some k1 =>
        rw [hk] at h
        simp only [List.mem_append, List.mem_singleton, CopyOut.convert.injEq] at h
        rcases h with h | ⟨rfl, -, rfl⟩
        · split_ifs at h <;> simp at h
        · exact ⟨c, le_refl _, by simp, rfl⟩
    · obtain ⟨col, h1, h2, h3⟩ := ih (j + 1) i k t h
      refine ⟨col, by omega, ?_, h3⟩
      have e : i - j = (i - (j + 1)) + 1 := by omega
      rw [e, List.getElem?_cons_succ]
      exact h2

/-- C11 (as amended). In every newline-terminated row read without a failing
write or conversion, a column of the column map in which the escape `\N` occurs is
forwarded as a tuple of kind Null whose value is what the other bytes of the column
decode to, in their order: nothing of the column is discarded. (The value is empty
when `\N` is all the column holds.) -/
theorem DecodeCopyToTuples_null_column {κ : Type} (env : CopyEnv κ) (hq : env.Quiet)
    (c0 : List Piece) (cs : List (List Piece)) (line rest : List Nat)
    (hread : reads (joinRow c0 cs ++ [.newline]) line = some rest)
    (i : Nat) (col : List Piece) (k : κ)
    (hcol : (c0 :: cs)[i]? = some col) (hk : env.pgColumns i = some k)
    (hnull : Piece.null ∈ col) :
    (DecodeCopyToTuples env line).1 = none ∧
    CopyOut.convert i k ⟨.TupleNull, colBytes col⟩ ∈ (DecodeCopyToTuples env line).2 ∧
    (∀ k1 t, CopyOut.convert i k1 t ∈ (DecodeCopyToTuples env line).2 →
      t = ⟨.TupleNull, colBytes col⟩) ∧
    colBytes [Piece.null] = [] := by
  rw [DecodeCopyToTuples_row env hq c0 cs line rest hread]
  have hkind : colKind col = .TupleNull := by simp [colKind, hnull]
  refine ⟨rfl, ?_, ?_, rfl⟩
  · have := mem_forwarded env.pgColumns (c0 :: cs) 0 i col k hcol (by simpa using hk)
    simpa [hkind] using this
  · intro k1 t ht
    obtain ⟨col1, -, h2, h3⟩ := of_mem_forwarded env.pgColumns (c0 :: cs) 0 i k1 t ht
    rw [Nat.sub_zero, hcol] at h2
    cases h2
    rw [h3, hkind]

theorem DecodeCopyToTuples_null_column_witness :
    reads (joinRow [.bytes [97], .null, .bytes [98]] [] ++ [.newline]) [97, 92, 78, 98, 10] =
      some [] ∧
    (DecodeCopyToTuples oneColumnEnv [97, 92, 78, 98, 10]).1 = none ∧
    CopyOut.convert 0 () ⟨.TupleNull, [97, 98]⟩ ∈
      (DecodeCopyToTuples oneColumnEnv [97, 92, 78, 98, 10]).2 :=
  ⟨by decide,
   (DecodeCopyToTuples_null_column oneColumnEnv oneColumnEnv_quiet
      [.bytes [97], .null, .bytes [98]] [] [97, 92, 78, 98, 10] [] (by decide) 0
      [.bytes [97], .null, .bytes [98]] () rfl rfl (by decide)).1,
   (DecodeCopyToTuples_null_column oneColumnEnv oneColumnEnv_quiet
      [.bytes [97], .null, .bytes [98]] [] [97, 92, 78, 98, 10] [] (by decide) 0
      [.bytes [97], .null, .bytes [98]] () rfl rfl (by decide)).2.1⟩

/-- C11 (counterexample). In the line `a\N` and in the line `\Nb` the column
holds the escape `\N`; it is forwarded with kind Null and the value `a`, respectively
`b`, not with an empty value. -/
theorem DecodeCopyToTuples_null_keeps_bytes :
    DecodeCopyToTuples oneColumnEnv [97, 92, 78, 10] =
      (none, [.convert 0 () ⟨.TupleNull, [97]⟩]) ∧
    DecodeCopyToTuples oneColumnEnv [92, 78, 98, 10] =
      (none, [.convert 0 () ⟨.TupleNull, [98]⟩]) ∧
    ([97] : List Nat) ≠ [] := by
  decide

theorem not_newline_mem_joinRow (cs : List (List Piece)) :
    ∀ c0 : List Piece, Lexeme.newline ∉ joinRow c0 cs := by
  induction cs with
  | nil => intro c0; simp [joinRow]
  | cons c cs ih =>
    intro c0
    have := ih c
    simp [joinRow, this]

/-- Lexemes other than the row terminator: the loop ends with an error or goes on
behind them. -/
theorem copyLoop_lexemes {κ : Type} (env : CopyEnv κ) (ls : List Lexeme) :
    ∀ (inp tail : List Nat) (st : CopyState κ) (fuel : Nat),
      reads ls inp = some tail → Lexeme.newline ∉ ls →
      (copyLoop env (ls.length + fuel) inp st).1 ≠ none ∨
      ∃ st1, copyLoop env (ls.length + fuel) inp st = copyLoop env fuel tail st1 := by
  induction ls with
  | nil =>
    intro inp tail st fuel h _
    simp only [reads, Option.some.injEq] at h
    subst h
    exact Or.inr ⟨st, by simp⟩
  | cons l ls ih =>
    intro inp tail st fuel h hn
    obtain ⟨rest, h1, h2⟩ := reads_cons l ls inp tail h
    have hn1 : Lexeme.newline ∉ ls := fun hm => hn (List.mem_cons_of_mem _ hm)
    have e : (l :: ls).length + fuel = (ls.length + fuel) + 1 := by
      simp only [List.length_cons]; omega
    rw [e, copyLoop_lexeme env _ inp rest l st h1]
    cases l with
    | newline => exact absurd (List.mem_cons_self _ _) hn
    | tab =>
      simp only []
      rcases hf : forwardColumn env st with ⟨_ | err, out1⟩
      · simp only []
        exact ih rest tail _ fuel h2 hn1
      · simp only []
        exact Or.inl (by simp)
    | piece p =>
      cases p with
      | null => exact ih rest tail _ fuel h2 hn1
      | bytes bs => exact ih rest tail _ fuel h2 hn1

/-- An escape the loop rejects. -/
theorem copyLoop_bad_escape {κ : Type} (env : CopyEnv κ) (fuel : Nat) (tail : List Nat)
    (st : CopyState κ)
    (hbad : tail = [92] ∨
      (∃ ch rest, tail = 92 :: ch :: rest ∧
        ch ∉ [98, 102, 110, 114, 116, 118, 92, 78, 120] ∧ ¬ (48 ≤ ch ∧ ch ≤ 55)) ∨
      (∃ h rest, tail = 92 :: 120 :: h :: rest ∧ (decodeHexDigit h).2 = false)) :
    copyLoop env (fuel + 1) tail st = (some .unknownEscape, st.out) := by
  rcases hbad with rfl | ⟨ch, rest, rfl, h1, h2⟩ | ⟨h, rest, rfl, h1⟩
  · simp [copyLoop]
  · simp only [List.mem_cons, List.mem_singleton, List.not_mem_nil, or_false, not_or] at h1
    obtain ⟨a1, a2, a3, a4, a5, a6, a7, a8, a9⟩ := h1
    simp [copyLoop, a1, a2, a3, a4, a5, a6, a7, a8, a9, h2]
  · simp [copyLoop, h1]

/-- C12. In every line in which, after columns read without an error and before
any row terminator, a backslash is the last byte of the input, or is followed by a
byte other than `b`, `f`, `n`, `r`, `t`, `v`, backslash, `N`, `x` and the octal
digits, or is followed by `x` and a byte that is no hex digit, `DecodeCopyToTuples`
returns an error, and the error is the unknown-escape error unless a write or a
conversion failed before. -/
theorem DecodeCopyToTuples_bad_escape {κ : Type} (env : CopyEnv κ)
    (c0 : List Piece) (cs : List (List Piece)) (line tail : List Nat)
    (hread : reads (joinRow c0 cs) line = some tail)
    (hbad : tail = [92] ∨
      (∃ ch rest, tail = 92 :: ch :: rest ∧
        ch ∉ [98, 102, 110, 114, 116, 118, 92, 78, 120] ∧ ¬ (48 ≤ ch ∧ ch ≤ 55)) ∨
      (∃ h rest, tail = 92 :: 120 :: h :: rest ∧ (decodeHexDigit h).2 = false)) :
    (DecodeCopyToTuples env line).1 ≠ none ∧
    (env.Quiet → DecodeCopyToTuples env line =
      (some .unknownEscape, forwarded env.pgColumns 0 (c0 :: cs).dropLast)) := by
  constructor
  · have hlen := reads_length _ line tail hread
    obtain ⟨d, hd⟩ : ∃ d, line.length + 1 = (joinRow c0 cs).length + (d + 1) :=
      ⟨line.length - (joinRow c0 cs).length, by omega⟩
    unfold DecodeCopyToTuples
    rw [hd]
    rcases copyLoop_lexemes env _ line tail ⟨[], 0, .TupleText, []⟩ (d + 1) hread
      (not_newline_mem_joinRow cs c0) with h | ⟨st1, h⟩
    · exact h
    · rw [h, copyLoop_bad_escape env d tail st1 hbad]
      simp
  · intro hq
    obtain ⟨d, st, e, -, -, -, b4⟩ := DecodeCopyToTuples_prefix env hq c0 cs line tail hread
    rw [e, copyLoop_bad_escape env d tail st hbad, b4]

theorem DecodeCopyToTuples_bad_escape_witness :
    reads (joinRow [.bytes [97]] [[.bytes [98]]]) [97, 9, 98, 92, 113, 10] = some [92, 113, 10] ∧
    (DecodeCopyToTuples oneColumnEnv [97, 9, 98, 92, 113, 10]).1 ≠ none ∧
    DecodeCopyToTuples oneColumnEnv [97, 9, 98, 92, 113, 10] =
      (some .unknownEscape, [.convert 0 () ⟨.TupleText, [97]⟩]) :=
  ⟨by decide,
   (DecodeCopyToTuples_bad_escape oneColumnEnv [.bytes [97]] [[.bytes [98]]]
     [97, 9, 98, 92, 113, 10] [92, 113, 10] (by decide)
     (Or.inr (Or.inl ⟨113, [10], rfl, by decide, by decide⟩))).1,
   (DecodeCopyToTuples_bad_escape oneColumnEnv [.bytes [97]] [[.bytes [98]]]
     [97, 9, 98, 92, 113, 10] [92, 113, 10] (by decide)
     (Or.inr (Or.inl ⟨113, [10], rfl, by decide, by decide⟩))).2 oneColumnEnv_quiet⟩

/-- C13 (as amended). For every line `L` that reads as a row of columns, without
a newline byte and without a rejected escape, and with collaborators that do not
fail: on `L` followed by a newline `DecodeCopyToTuples` returns no error and forwards
every column; on `L` itself it returns the error "should not reach" after forwarding
every column but the last. -/
theorem DecodeCopyToTuples_needs_newline {κ : Type} (env : CopyEnv κ) (hq : env.Quiet)
    (c0 : List Piece) (cs : List (List Piece)) (L : List Nat)
    (hread : reads (joinRow c0 cs) L = some []) :
    DecodeCopyToTuples env (L ++ [10]) = (none, forwarded env.pgColumns 0 (c0 :: cs)) ∧
    DecodeCopyToTuples env L =
      (some .shouldNotReach, forwarded env.pgColumns 0 (c0 :: cs).dropLast) := by
  constructor
  · have h1 := reads_append_newline _ L [] hread
    have h2 : reads [Lexeme.newline] ([] ++ [10]) = some [] := by decide
    exact DecodeCopyToTuples_row env hq c0 cs (L ++ [10]) []
      (reads_append_of _ _ _ _ _ h1 h2)
  · obtain ⟨d, st, e, -, -, -, b4⟩ := DecodeCopyToTuples_prefix env hq c0 cs L [] hread
    rw [e, ← b4]
    rfl

theorem DecodeCopyToTuples_needs_newline_witness :
    reads (joinRow [.bytes [97]] [[.bytes [98]]]) [97, 9, 98] = some [] ∧
    DecodeCopyToTuples oneColumnEnv ([97, 9, 98] ++ [10]) =
      (none, forwarded oneColumnEnv.pgColumns 0 [[.bytes [97]], [.bytes [98]]]) ∧
    DecodeCopyToTuples oneColumnEnv [97, 9, 98] =
      (some .shouldNotReach,
        forwarded oneColumnEnv.pgColumns 0 ([.bytes [97]] :: [[.bytes [98]]]).dropLast) :=
  ⟨by decide,
   DecodeCopyToTuples_needs_newline oneColumnEnv oneColumnEnv_quiet [.bytes [97]]
     [[.bytes [98]]] [97, 9, 98] (by decide)⟩

/-- C13 (counterexample). The line `a` holds no newline byte and no escape. With
the newline after it the column is forwarded and no error is returned; without it
`DecodeCopyToTuples` returns the error "should not reach" and forwards nothing. -/
theorem DecodeCopyToTuples_without_newline_fails :
    DecodeCopyToTuples oneColumnEnv [97, 10] = (none, [.convert 0 () ⟨.TupleText, [97]⟩]) ∧
    DecodeCopyToTuples oneColumnEnv [97] = (some .shouldNotReach, []) := by
  decide

theorem secondColumnEnv_quiet : secondColumnEnv.Quiet :=
  ⟨fun _ => rfl, fun _ _ _ _ => rfl⟩

theorem conversions_append {κ : Type} (a b : List (CopyOut κ)) :
    conversions (a ++ b) = conversions a ++ conversions b := by
  simp [conversions]

/-- The conversions among what is sent out for the columns: one for each column whose
index is in the map, in the order of the columns. -/
theorem conversions_forwarded {κ : Type} (pgColumns : Nat → Option κ)
    (cols : List (List Piece)) :
    ∀ j, conversions (forwarded pgColumns j cols) =
      (cols.enumFrom j).filterMap (fun ic =>
        (pgColumns ic.1).map (fun d => CopyOut.convert ic.1 d ⟨colKind ic.2, colBytes ic.2⟩)) := by
  induction cols with
  | nil => intro j; rfl
  | cons c cols ih =>
    intro j
    simp only [forwarded, conversions_append, ih, List.enumFrom_cons]
    cases hk : pgColumns j with
    | none => simp [conversions, List.filterMap_cons, hk]
    | some k =>
      by_cases h0 : 0 < j <;> simp [conversions, List.filterMap_cons, hk, h0]

/-- C14. For every newline-terminated line that reads as a row of columns and
every column map, with a writer and a conversion that do not fail,
`DecodeCopyToTuples` returns no error and its calls of the conversion function are,
in this order, one call for each column whose zero-based index `i` is a key of the
map, with the descriptor the map has for `i` and the kind and decoded bytes of the
column; there is no call for an index that is not in the map. -/
theorem DecodeCopyToTuples_conversions {κ : Type} (env : CopyEnv κ) (hq : env.Quiet)
    (c0 : List Piece) (cs : List (List Piece)) (line rest : List Nat)
    (hread : reads (joinRow c0 cs ++ [.newline]) line = some rest) :
    (DecodeCopyToTuples env line).1 = none ∧
    conversions (DecodeCopyToTuples env line).2 =
      (c0 :: cs).enum.filterMap (fun ic =>
        (env.pgColumns ic.1).map (fun d =>
          CopyOut.convert ic.1 d ⟨colKind ic.2, colBytes ic.2⟩)) := by
  rw [DecodeCopyToTuples_row env hq c0 cs line rest hread]
  exact ⟨rfl, conversions_forwarded env.pgColumns (c0 :: cs) 0⟩

theorem DecodeCopyToTuples_conversions_witness :
    reads (joinRow [.bytes [97]] [[.null], [.bytes [99]]] ++ [.newline])
      [97, 9, 92, 78, 9, 99, 10] = some [] ∧
    (DecodeCopyToTuples secondColumnEnv [97, 9, 92, 78, 9, 99, 10]).1 = none ∧
    conversions (DecodeCopyToTuples secondColumnEnv [97, 9, 92, 78, 9, 99, 10]).2 =
      ([.bytes [97]] :: [[.null], [.bytes [99]]]).enum.filterMap (fun ic =>
        (secondColumnEnv.pgColumns ic.1).map (fun d =>
          CopyOut.convert ic.1 d ⟨colKind ic.2, colBytes ic.2⟩)) ∧
    conversions (DecodeCopyToTuples secondColumnEnv [97, 9, 92, 78, 9, 99, 10]).2 =
      [.convert 1 () ⟨.TupleNull, []⟩] :=
  ⟨by decide,
   (DecodeCopyToTuples_conversions secondColumnEnv secondColumnEnv_quiet [.bytes [97]]
     [[.null], [.bytes [99]]] [97, 9, 92, 78, 9, 99, 10] [] (by decide)).1,
   (DecodeCopyToTuples_conversions secondColumnEnv secondColumnEnv_quiet [.bytes [97]]
     [[.null], [.bytes [99]]] [97, 9, 92, 78, 9, 99, 10] [] (by decide)).2,
   by decide⟩

/-- C15 (failing input). With column 1 alone in the column map, the line
`a<tab>b` has one forwarded column, the second; `DecodeCopyToTuples` writes one tab
byte, and writes it before this first forwarded column. -/
theorem DecodeCopyToTuples_tab_before_first_column :
    DecodeCopyToTuples secondColumnEnv [97, 9, 98, 10] =
      (none, [.tab, .convert 1 () ⟨.TupleText, [98]⟩]) ∧
    (conversions (DecodeCopyToTuples secondColumnEnv [97, 9, 98, 10]).2).length = 1 ∧
    tabsWritten (DecodeCopyToTuples secondColumnEnv [97, 9, 98, 10]).2 = 1 := by
  decide

/-! ### Engine: Truncate and the empty-transaction flag -/

/-- A Truncate record whose OIDs are all unknown goes through the loop without a
call and without a change. -/
theorem processTruncate_unknown (env : EngineEnv) (oids : List Nat) (r : Replicator)
    (hunk : ∀ oid ∈ oids, lookupKey oid r.oidName = none) :
    processTruncate env r oids = .returned none { r with isEmptyTx := false } := by
  induction oids with
  | nil => rfl
  | cons oid oids ih =>
    have h1 := hunk oid (List.mem_cons_self _ _)
    simp only [processTruncate, checkAndGetTable, h1]
    exact ih (fun o ho => hunk o (List.mem_cons_of_mem _ ho))

/-- C28. In an open transaction, a Truncate record all of whose relation OIDs are
unknown returns nil without a call on any buffer and leaves every field of the engine
as it was, except `isEmptyTx`, which it sets to false. -/
theorem HandleMessage_truncate_unknown_clears_isEmptyTx (env : EngineEnv) (r : Replicator)
    (cascade restart : Bool) (oids : List Nat) (hopen : r.txFinalLSN ≠ InvalidLSN)
    (hunk : ∀ oid ∈ oids, lookupKey oid r.oidName = none) :
    HandleMessage env r (.Truncate cascade restart oids) =
      .returned none { r with isEmptyTx := false } := by
  unfold HandleMessage
  rw [if_neg (by simp [hopen])]
  exact processTruncate_unknown env oids r hunk

/-- The transaction with final LSN 5 has forwarded nothing (`isEmptyTx` is true); the
Truncate of the unknown OID 99 makes no call and sets `isEmptyTx` to false. -/
theorem HandleMessage_truncate_unknown_clears_isEmptyTx_witness :
    openTxEngine.isEmptyTx = true ∧ openTxEngine.log = [] ∧
    HandleMessage quietEnv openTxEngine (.Truncate false false [99]) =
      .returned none { openTxEngine with isEmptyTx := false } :=
  ⟨rfl, rfl, HandleMessage_truncate_unknown_clears_isEmptyTx quietEnv openTxEngine false false
    [99] (by decide) (by decide)⟩

/-! ### Engine: records of a table that is already checkpointed -/

/-- A table whose checkpoint is at or above the final LSN: `checkAndGetTable` marks it
in `tablesToFlush`, returns the nil table and does nothing else. -/
theorem checkAndGetTable_replayed_marks (env : EngineEnv) (r : Replicator) (oid : Nat)
    (t : PgTableName) (l : Nat) (hoid : lookupKey oid r.oidName = some t)
    (hch : t ∈ r.chTables) (hst : lookupKey t r.persStorage = some (.value l))
    (hle : r.txFinalLSN ≤ l) :
    checkAndGetTable env r oid =
      .returned (none, none)
        { r with tablesToFlush :=
            if t ∈ r.tablesToFlush then r.tablesToFlush else r.tablesToFlush ++ [t] } := by
  unfold checkAndGetTable
  simp only [hoid, hch, not_true_eq_false, if_false]
  by_cases htf : t ∈ r.tablesToFlush
  · simp [htf, hst, hle]
  · simp [htf, hst, hle]

/-- C27 (as amended). A record for a configured table whose checkpointed LSN is at or
above the final LSN of the open transaction is dropped: `HandleMessage` returns nil,
makes no call and leaves `inTxTables` alone; but it marks the table in
`tablesToFlush` when it is not marked yet, and changes nothing else. -/
theorem HandleMessage_replayed_marks_table (env : EngineEnv) (r : Replicator) (oid : Nat)
    (t : PgTableName) (l : Nat) (hopen : r.txFinalLSN ≠ InvalidLSN)
    (hoid : lookupKey oid r.oidName = some t) (hch : t ∈ r.chTables)
    (hst : lookupKey t r.persStorage = some (.value l)) (hle : r.txFinalLSN ≤ l) :
    (∀ isNew newRow, HandleMessage env r (.Insert oid isNew newRow) =
      .returned none { r with tablesToFlush :=
        if t ∈ r.tablesToFlush then r.tablesToFlush else r.tablesToFlush ++ [t] }) ∧
    (∀ isKey isOld isNew oldRow newRow,
      HandleMessage env r (.Update oid isKey isOld isNew oldRow newRow) =
      .returned none { r with tablesToFlush :=
        if t ∈ r.tablesToFlush then r.tablesToFlush else r.tablesToFlush ++ [t] }) ∧
    (∀ isKey isOld oldRow, HandleMessage env r (.Delete oid isKey isOld oldRow) =
      .returned none { r with tablesToFlush :=
        if t ∈ r.tablesToFlush then r.tablesToFlush else r.tablesToFlush ++ [t] }) ∧
    (∀ ns n ri cols, HandleMessage env r (.Relation oid ns n ri cols) =
      .returned none { r with tablesToFlush :=
        if t ∈ r.tablesToFlush then r.tablesToFlush else r.tablesToFlush ++ [t] }) := by
  have hc := checkAndGetTable_replayed_marks env r oid t l hoid hch hst hle
  have h0 : ∀ m, ¬(r.txFinalLSN = InvalidLSN ∧ isBeginVal m = false) := by
    intro m h; exact hopen h.1
  refine ⟨?_, ?_, ?_, ?_⟩
  · intro isNew newRow
    unfold HandleMessage
    rw [if_neg (h0 _)]
    simp only [processInsert, hc]
  · intro isKey isOld isNew oldRow newRow
    unfold HandleMessage
    rw [if_neg (h0 _)]
    simp only [processUpdate, hc]
  · intro isKey isOld oldRow
    unfold HandleMessage
    rw [if_neg (h0 _)]
    simp only [processDelete, hc]
  · intro ns n ri cols
    unfold HandleMessage
    rw [if_neg (h0 _)]
    simp only [processRelation, hc]

theorem HandleMessage_replayed_marks_table_witness :
    (HandleMessage quietEnv { openTxEngine with tablesToFlush := ["public.t"] }
        (.Delete 7 true false [])) =
      .returned none { openTxEngine with tablesToFlush := ["public.t"] } :=
  (HandleMessage_replayed_marks_table quietEnv { openTxEngine with tablesToFlush := ["public.t"] }
    7 "public.t" 9 (by decide) rfl (by decide) rfl (by decide)).2.2.1 true false []

/-- C27 (counterexample). In the transaction with final LSN 5, `public.t` (OID 7) is
checkpointed at LSN 9 and `tablesToFlush` is empty. The Insert for OID 7 is dropped,
and `tablesToFlush` holds `public.t` afterwards. -/
theorem HandleMessage_dropped_record_marks_table :
    openTxEngine.tablesToFlush = [] ∧
    (HandleMessage quietEnv openTxEngine (.Insert 7 true [some ⟨.TupleText, [97]⟩])).state.log
      = [] ∧
    (HandleMessage quietEnv openTxEngine
      (.Insert 7 true [some ⟨.TupleText, [97]⟩])).state.tablesToFlush = ["public.t"] := by
  decide

/-! ### Engine: a Relation record that differs from the stored one -/

/-- C21 (as amended). A Relation record received in an open transaction whose OID maps
to a configured table with a stored relation descriptor that differs from the record:
when the table's checkpointed LSN is at or above the final LSN of the transaction the
record is discarded and `HandleMessage` returns nil; when the table has no checkpoint
or one below the final LSN, and the `Begin` call on the buffer, if one is made, does
not fail, the engine fails fatally. -/
theorem HandleMessage_relation_changed (env : EngineEnv) (r : Replicator) (oid : Nat)
    (ns n : List Nat) (ri : Nat) (cols : List Column) (t : PgTableName) (rel : Message)
    (hopen : r.txFinalLSN ≠ InvalidLSN) (hoid : lookupKey oid r.oidName = some t)
    (hch : t ∈ r.chTables) (hrel : lookupKey t r.tblRelMsgs = some rel)
    (hne : env.relEqual rel (.Relation oid ns n ri cols) = false) :
    (∀ l, lookupKey t r.persStorage = some (.value l) → r.txFinalLSN ≤ l →
      ∃ r1, HandleMessage env r (.Relation oid ns n ri cols) = .returned none r1) ∧
    ((lookupKey t r.persStorage = none ∨
        ∃ l, lookupKey t r.persStorage = some (.value l) ∧ l < r.txFinalLSN) →
      (t ∈ r.inTxTables ∨ env.tblErr r.log (.tblBegin t r.txFinalLSN) = false) →
      ∃ r1, HandleMessage env r (.Relation oid ns n ri cols) = .aborted .fatal r1) := by
  have h0 : ¬(r.txFinalLSN = InvalidLSN ∧
      isBeginVal (.Relation oid ns n ri cols) = false) := fun h => hopen h.1
  constructor
  · intro l hst hle
    have hc := checkAndGetTable_replayed_marks env r oid t l hoid hch hst hle
    unfold HandleMessage
    rw [if_neg h0]
    simp only [processRelation, hc]
    exact ⟨_, rfl⟩
  · intro hst hbegin
    have hpos : 0 < r.txFinalLSN := by
      simp only [InvalidLSN] at hopen; omega
    unfold HandleMessage
    rw [if_neg h0]
    simp only [processRelation, checkAndGetTable, hoid, hch, not_true_eq_false, if_false]
    have hnl : ∀ l, l < r.txFinalLSN → ¬ r.txFinalLSN ≤ l := fun l h => by omega
    have hn0 : ¬ r.txFinalLSN ≤ InvalidLSN := by simp only [InvalidLSN]; omega
    by_cases htf : t ∈ r.tablesToFlush <;> by_cases htx : t ∈ r.inTxTables <;>
      rcases hst with h | ⟨l, h, hl⟩
    all_goals first
      | (have hb : env.tblErr r.log (.tblBegin t r.txFinalLSN) = false := by
            rcases hbegin with hb | hb
            · exact absurd hb htx
            · exact hb
         simp [htf, htx, h, hn0, hnl _ hl, Replicator.call, hoid, hrel, hne, hb])
      | (have hb : env.tblErr r.log (.tblBegin t r.txFinalLSN) = false := by
            rcases hbegin with hb | hb
            · exact absurd hb htx
            · exact hb
         simp [htf, htx, h, hn0, Replicator.call, hoid, hrel, hne, hb])
      | simp [htf, htx, h, hn0, hnl _ hl, Replicator.call, hoid, hrel, hne]
      | simp [htf, htx, h, hn0, Replicator.call, hoid, hrel, hne]

theorem HandleMessage_relation_changed_witness :
    (∃ r1, HandleMessage quietEnv relTxEngine (.Relation 7 [] [116] 100 [⟨true, [105], 23, -1⟩]) =
      .returned none r1) ∧
    (∃ r1, HandleMessage quietEnv { relTxEngine with persStorage := [] }
        (.Relation 7 [] [116] 100 [⟨true, [105], 23, -1⟩]) = .aborted .fatal r1) :=
  ⟨(HandleMessage_relation_changed quietEnv relTxEngine 7 [] [116] 100 [⟨true, [105], 23, -1⟩]
      "public.t" (.Relation 7 [] [116] 100 []) (by decide) rfl (by decide) rfl
      (by decide)).1 9 rfl (by decide),
   (HandleMessage_relation_changed quietEnv { relTxEngine with persStorage := [] } 7 [] [116]
      100 [⟨true, [105], 23, -1⟩] "public.t" (.Relation 7 [] [116] 100 []) (by decide) rfl
      (by decide) rfl (by decide)).2 (Or.inl rfl) (Or.inr rfl)⟩

/-- C21 (counterexample). In the transaction with final LSN 5, `public.t` (OID 7) is
checkpointed at LSN 9 and has a stored relation descriptor without columns. The
Relation record for OID 7 with one column differs from it, and `HandleMessage`
returns nil: the engine does not fail. -/
theorem HandleMessage_relation_changed_discarded :
    quietEnv.relEqual (.Relation 7 [] [116] 100 [])
      (.Relation 7 [] [116] 100 [⟨true, [105], 23, -1⟩]) = false ∧
    HandleMessage quietEnv relTxEngine (.Relation 7 [] [116] 100 [⟨true, [105], 23, -1⟩]) =
      .returned none { relTxEngine with tablesToFlush := ["public.t"] } :=
  ⟨by decide, rfl⟩

/-! ### Engine: what the handlers of a transaction keep -/

/-- A property kept by the state changes of a record inside a transaction is kept by
`checkAndGetTable`, which returns only tables of the transaction. -/
theorem checkAndGetTable_preserves (P : Replicator → Prop) (hP : TxClosed P)
    (env : EngineEnv) (r : Replicator) (oid : Nat) (h : P r) :
    P (checkAndGetTable env r oid).state ∧
    (∀ t e r1, checkAndGetTable env r oid = .returned (some t, e) r1 → t ∈ r1.inTxTables) := by
  unfold checkAndGetTable
  cases lookupKey oid r.oidName with
  | none => exact ⟨h, by simp⟩
  | some tblName =>
    simp only []
    by_cases hch : tblName ∈ r.chTables
    · simp only [hch, not_true_eq_false, if_false]
      have h1 : P (if tblName ∈ r.tablesToFlush then r
          else { r with tablesToFlush := r.tablesToFlush ++ [tblName] }) ∧
          tblName ∈ (if tblName ∈ r.tablesToFlush then r
          else { r with tablesToFlush := r.tablesToFlush ++ [tblName] }).tablesToFlush := by
        split_ifs with hf
        · exact ⟨h, hf⟩
        · exact ⟨hP.mark r tblName h hf, by simp⟩
      generalize (if tblName ∈ r.tablesToFlush then r
          else { r with tablesToFlush := r.tablesToFlush ++ [tblName] }) = r1 at h1 ⊢
      obtain ⟨p1, f1⟩ := h1
      have key : ∀ chTbl : Option PgTableName, (chTbl = none ∨ chTbl = some tblName) →
          P (if tblName ∉ r1.inTxTables ∧ chTbl ≠ none then
              (Outcome.returned (chTbl,
                if (({ r1 with inTxTables := r1.inTxTables ++ [tblName] } : Replicator).call env
                  (.tblBegin tblName r1.txFinalLSN)).1 then some EngineError.couldNotBegin
                else none)
                (({ r1 with inTxTables := r1.inTxTables ++ [tblName] } : Replicator).call env
                  (.tblBegin tblName r1.txFinalLSN)).2 :
                Outcome (Option PgTableName × Option EngineError))
            else .returned (chTbl, none) r1).state ∧
          (∀ t e r2, (if tblName ∉ r1.inTxTables ∧ chTbl ≠ none then
              (Outcome.returned (chTbl,
                if (({ r1 with inTxTables := r1.inTxTables ++ [tblName] } : Replicator).call env
                  (.tblBegin tblName r1.txFinalLSN)).1 then some EngineError.couldNotBegin
                else none)
                (({ r1 with inTxTables := r1.inTxTables ++ [tblName] } : Replicator).call env
                  (.tblBegin tblName r1.txFinalLSN)).2 :
                Outcome (Option PgTableName × Option EngineError))
            else .returned (chTbl, none) r1) = .returned (some t, e) r2 →
            t ∈ r2.inTxTables) := by
        intro chTbl hct
        by_cases hin : tblName ∈ r1.inTxTables
        · simp only [hin, not_true_eq_false, false_and, if_false, Outcome.state]
          refine ⟨p1, ?_⟩
          intro t e r2 he
          simp only [Outcome.returned.injEq, Prod.mk.injEq] at he
          obtain ⟨⟨e1, -⟩, rfl⟩ := he
          rcases hct with hc | hc
          · rw [hc] at e1; simp at e1
          · rw [hc] at e1
            simp only [Option.some.injEq] at e1
            rw [← e1]; exact hin
        · rcases hct with hc | hc
          · subst hc
            simp only [ne_eq, not_true_eq_false, and_false, if_false, Outcome.state]
            exact ⟨p1, by simp⟩
          · subst hc
            simp only [hin, not_false_eq_true, ne_eq, Option.some_ne_none, and_self, if_true,
              Outcome.state, Replicator.call]
            refine ⟨hP.enter r1 tblName p1 f1 hin, ?_⟩
            intro t e r2 he
            simp only [Outcome.returned.injEq, Prod.mk.injEq, Option.some.injEq] at he
            obtain ⟨⟨e1, -⟩, rfl⟩ := he
            simp [← e1]
      cases hps : lookupKey tblName r1.persStorage with
      | none =>
        simp only [Replicator.call] at key ⊢
        exact key _ (by split_ifs <;> simp)
      | some v =>
        cases v with
        | corrupted => exact ⟨p1, by simp⟩
        | value l =>
          simp only [Replicator.call] at key ⊢
          exact key _ (by split_ifs <;> simp)
        | failure l =>
          simp only [Replicator.call] at key ⊢
          exact key _ (by split_ifs <;> simp)
    · simp only [hch, not_false_eq_true, if_true]
      exact ⟨h, by simp⟩

theorem processInsert_preserves (P : Replicator → Prop) (hP : TxClosed P) (env : EngineEnv)
    (r : Replicator) (oid : Nat) (newRow : Row) (h : P r) :
    P (processInsert env r oid newRow).state := by
  obtain ⟨h1, h2⟩ := checkAndGetTable_preserves P hP env r oid h
  unfold processInsert
  cases hc : checkAndGetTable env r oid with
  | aborted w r1 => rw [hc] at h1; exact h1
  | returned val r1 =>
    rw [hc] at h1
    simp only [Outcome.state] at h1
    obtain ⟨tbl, err⟩ := val
    cases tbl with
    | none => cases err <;> exact h1
    | some t =>
      cases err with
      | some e => exact h1
      | none =>
        have ht := h2 t none r1 hc
        have h3 := hP.change r1 (.tblInsert t newRow) t h1 rfl ht rfl
        simp only [Replicator.call]
        split_ifs
        · exact h3
        · exact hP.flag _ h3

theorem processUpdate_preserves (P : Replicator → Prop) (hP : TxClosed P) (env : EngineEnv)
    (r : Replicator) (oid : Nat) (oldRow newRow : Row) (h : P r) :
    P (processUpdate env r oid oldRow newRow).state := by
  obtain ⟨h1, h2⟩ := checkAndGetTable_preserves P hP env r oid h
  unfold processUpdate
  cases hc : checkAndGetTable env r oid with
  | aborted w r1 => rw [hc] at h1; exact h1
  | returned val r1 =>
    rw [hc] at h1
    simp only [Outcome.state] at h1
    obtain ⟨tbl, err⟩ := val
    cases tbl with
    | none => cases err <;> exact h1
    | some t =>
      cases err with
      | some e => exact h1
      | none =>
        have ht := h2 t none r1 hc
        have h3 := hP.change r1 (.tblUpdate t oldRow newRow) t h1 rfl ht rfl
        simp only [Replicator.call]
        split_ifs
        · exact h3
        · exact hP.flag _ h3

theorem processDelete_preserves (P : Replicator → Prop) (hP : TxClosed P) (env : EngineEnv)
    (r : Replicator) (oid : Nat) (oldRow : Row) (h : P r) :
    P (processDelete env r oid oldRow).state := by
  obtain ⟨h1, h2⟩ := checkAndGetTable_preserves P hP env r oid h
  unfold processDelete
  cases hc : checkAndGetTable env r oid with
  | aborted w r1 => rw [hc] at h1; exact h1
  | returned val r1 =>
    rw [hc] at h1
    simp only [Outcome.state] at h1
    obtain ⟨tbl, err⟩ := val
    cases tbl with
    | none => cases err <;> exact h1
    | some t =>
      cases err with
      | some e => exact h1
      | none =>
        have ht := h2 t none r1 hc
        have h3 := hP.change r1 (.tblDelete t oldRow) t h1 rfl ht rfl
        simp only [Replicator.call]
        split_ifs
        · exact h3
        · exact hP.flag _ h3

theorem processTruncate_preserves (P : Replicator → Prop) (hP : TxClosed P) (env : EngineEnv)
    (oids : List Nat) : ∀ r : Replicator, P r → P (processTruncate env r oids).state := by
  induction oids with
  | nil => intro r h; exact hP.flag r h
  | cons oid oids ih =>
    intro r h
    obtain ⟨h1, h2⟩ := checkAndGetTable_preserves P hP env r oid h
    unfold processTruncate
    cases hc : checkAndGetTable env r oid with
    | aborted w r1 => rw [hc] at h1; exact h1
    | returned val r1 =>
      rw [hc] at h1
      simp only [Outcome.state] at h1
      obtain ⟨tbl, err⟩ := val
      cases tbl with
      | none =>
        cases err with
        | some e => exact h1
        | none => exact ih r1 h1
      | some t =>
        cases err with
        | some e => exact h1
        | none =>
          have ht := h2 t none r1 hc
          have h3 := hP.change r1 (.tblTruncate t) t h1 rfl ht rfl
          simp only [Replicator.call]
          split_ifs
          · exact h3
          · exact ih _ h3

theorem processRelation_preserves (P : Replicator → Prop) (hP : TxClosed P) (env : EngineEnv)
    (r : Replicator) (msg : Message) (oid : Nat) (h : P r) :
    P (processRelation env r msg oid).state := by
  obtain ⟨h1, -⟩ := checkAndGetTable_preserves P hP env r oid h
  unfold processRelation
  cases hc : checkAndGetTable env r oid with
  | aborted w r1 => rw [hc] at h1; exact h1
  | returned val r1 =>
    rw [hc] at h1
    simp only [Outcome.state] at h1
    obtain ⟨tbl, err⟩ := val
    cases tbl with
    | none => cases err <;> exact h1
    | some t =>
      cases err with
      | some e => exact h1
      | none =>
        simp only []
        cases lookupKey oid r1.oidName with
        | none => exact h1
        | some tblName =>
          simp only []
          cases lookupKey tblName r1.tblRelMsgs with
          | none => exact h1
          | some relMsg =>
            simp only []
            split_ifs <;> exact h1

/-- A record with row changes, or a Relation, Type or Origin record, keeps every
property that the state changes of a record inside a transaction keep. -/
theorem HandleMessage_preserves (P : Replicator → Prop) (hP : TxClosed P) (env : EngineEnv)
    (r : Replicator) (msg : Message) (hm : isDML msg = true ∨ isMeta msg = true) (h : P r) :
    P (HandleMessage env r msg).state := by
  unfold HandleMessage
  by_cases h0 : r.txFinalLSN = InvalidLSN ∧ isBeginVal msg = false
  · rw [if_pos h0]; exact h
  · rw [if_neg h0]
    cases msg with
    | Insert oid isNew newRow => exact processInsert_preserves P hP env r oid newRow h
    | Update oid isKey isOld isNew oldRow newRow =>
      exact processUpdate_preserves P hP env r oid oldRow newRow h
    | Delete oid isKey isOld oldRow => exact processDelete_preserves P hP env r oid oldRow h
    | Truncate c ri oids => exact processTruncate_preserves P hP env oids r h
    | Relation oid ns n ri cols => exact processRelation_preserves P hP env r _ oid h
    | Type_ o ns n => exact h
    | Origin l n => exact h
    | _ => simp [isDML, isMeta] at hm

/-! ### Engine: the `Begin` call on a buffer -/

theorem TxCalls.enter {L : Nat} {T : List PgTableName} {seg : List Effect} {t : PgTableName}
    (h : TxCalls L T seg) (ht : t ∉ T) : TxCalls L (T ++ [t]) (seg ++ [.tblBegin t L]) := by
  constructor
  · intro e he t1 ht1
    rw [List.mem_append, List.mem_singleton] at he
    rcases he with he | rfl
    · exact List.mem_append_left _ (h.inTx e he t1 ht1)
    · simp only [Effect.table, Option.some.injEq] at ht1
      subst ht1
      simp
  · intro pre t1 l post hsplit
    rcases List.eq_nil_or_concat post with rfl | ⟨post1, e1, rfl⟩
    · obtain ⟨e1, e2⟩ := List.append_inj' hsplit rfl
      simp only [List.cons.injEq, Effect.tblBegin.injEq, and_true] at e2
      obtain ⟨rfl, rfl⟩ := e2
      subst e1
      refine ⟨rfl, ?_⟩
      intro e he htab
      exact ht (h.inTx e he t htab)
    · have hs : seg ++ [Effect.tblBegin t L] = (pre ++ Effect.tblBegin t1 l :: post1) ++ [e1] := by
        rw [hsplit]; simp
      obtain ⟨e2, -⟩ := List.append_inj' hs rfl
      exact h.beginFirst pre t1 l post1 e2

theorem TxCalls.change {L : Nat} {T : List PgTableName} {seg : List Effect} {t : PgTableName}
    {e : Effect} (h : TxCalls L T seg) (he : e.table = some t) (ht : t ∈ T)
    (hc : e.isChange = true) : TxCalls L T (seg ++ [e]) := by
  constructor
  · intro e1 he1 t1 ht1
    rw [List.mem_append, List.mem_singleton] at he1
    rcases he1 with he1 | rfl
    · exact h.inTx e1 he1 t1 ht1
    · rw [he] at ht1
      simp only [Option.some.injEq] at ht1
      subst ht1
      exact ht
  · intro pre t1 l post hsplit
    rcases List.eq_nil_or_concat post with rfl | ⟨post1, e1, rfl⟩
    · obtain ⟨-, e2⟩ := List.append_inj' hsplit rfl
      simp only [List.cons.injEq, and_true] at e2
      rw [e2] at hc
      simp [Effect.isChange] at hc
    · have hs : seg ++ [e] = (pre ++ Effect.tblBegin t1 l :: post1) ++ [e1] := by
        rw [hsplit]; simp
      obtain ⟨e2, -⟩ := List.append_inj' hs rfl
      exact h.beginFirst pre t1 l post1 e2

/-- The state of a transaction is kept by the state changes of its records. -/
theorem TxState.closed (base : List Effect) (L : Nat) : TxClosed (TxState base L) := by
  constructor
  · intro r t h _
    exact ⟨h.txFinalLSN, h.calls⟩
  · intro r t h _ ht
    obtain ⟨seg, e1, e2⟩ := h.calls
    refine ⟨h.txFinalLSN, seg ++ [.tblBegin t L], ?_, e2.enter ht⟩
    simp only [e1, h.txFinalLSN, List.append_assoc]
  · intro r e t h he ht hc
    obtain ⟨seg, e1, e2⟩ := h.calls
    refine ⟨h.txFinalLSN, seg ++ [e], ?_, e2.change he ht hc⟩
    simp only [e1, List.append_assoc]
  · intro r h
    exact ⟨h.txFinalLSN, h.calls⟩

/-- With `txFinalLSN = InvalidLSN` the records of a run are dropped one after the
other. -/
theorem run_dropped (env : EngineEnv) (mid : List Message) (r : Replicator)
    (h0 : r.txFinalLSN = InvalidLSN) (hmid : ∀ m ∈ mid, isDML m = true ∨ isMeta m = true) :
    run env r (mid.map .record) = r := by
  induction mid with
  | nil => rfl
  | cons m mid ih =>
    have hb : isBeginVal m = false := by
      have hm := hmid m (List.mem_cons_self _ _)
      cases m <;> first | rfl | (simp [isDML, isMeta] at hm)
    simp only [List.map_cons, run_record]
    have : HandleMessage env r m = .returned none r := by
      unfold HandleMessage
      rw [if_pos ⟨h0, hb⟩]
    rw [this]
    exact ih (fun m hm => hmid m (List.mem_cons_of_mem _ hm))

theorem run_txState (env : EngineEnv) (base : List Effect) (L : Nat) (mid : List Message) :
    ∀ r : Replicator, (∀ m ∈ mid, isDML m = true ∨ isMeta m = true) → TxState base L r →
      TxState base L (run env r (mid.map .record)) := by
  induction mid with
  | nil => intro r _ h; exact h
  | cons m mid ih =>
    intro r hmid h
    have h1 := HandleMessage_preserves _ (TxState.closed base L) env r m
      (hmid m (List.mem_cons_self _ _)) h
    simp only [List.map_cons, run_record]
    cases hh : HandleMessage env r m with
    | returned v r1 =>
      rw [hh] at h1
      exact ih r1 (fun m hm => hmid m (List.mem_cons_of_mem _ hm)) h1
    | aborted w r1 =>
      rw [hh] at h1
      exact h1

/-- C25. For every engine state, every Begin record and all records with row changes
and Relation, Type and Origin records handled after it, up to the Commit: every
`Begin` call the engine makes on a table buffer carries the final LSN of the Begin
record and is the first call on that buffer since the Begin record, before any
insert, update, delete or truncate on it; so there is at most one per buffer. -/
theorem run_begin_call_once_and_first (env : EngineEnv) (r : Replicator) (L : Nat)
    (bts xid : Int) (mid : List Message)
    (hmid : ∀ m ∈ mid, isDML m = true ∨ isMeta m = true) :
    ∃ seg, (run env r (.record (.Begin L bts xid) :: mid.map .record)).log = r.log ++ seg ∧
      ∀ pre t l post, seg = pre ++ Effect.tblBegin t l :: post →
        l = L ∧ (∀ e ∈ pre, e.table ≠ some t) ∧ (∀ l1, Effect.tblBegin t l1 ∉ post) := by
  have fin : ∀ r1 : Replicator, TxState r.log L r1 →
      ∃ seg, r1.log = r.log ++ seg ∧
        ∀ pre t l post, seg = pre ++ Effect.tblBegin t l :: post →
          l = L ∧ (∀ e ∈ pre, e.table ≠ some t) ∧ (∀ l1, Effect.tblBegin t l1 ∉ post) := by
    intro r1 h
    obtain ⟨seg, e1, e2⟩ := h.calls
    refine ⟨seg, e1, ?_⟩
    intro pre t l post hsplit
    obtain ⟨h1, h2⟩ := e2.beginFirst pre t l post hsplit
    refine ⟨h1, h2, ?_⟩
    intro l1 hmem
    obtain ⟨p1, p2, rfl⟩ := List.append_of_mem hmem
    have hs : seg = (pre ++ Effect.tblBegin t l :: p1) ++ Effect.tblBegin t l1 :: p2 := by
      rw [hsplit]; simp
    have := (e2.beginFirst _ t l1 p2 hs).2 (Effect.tblBegin t l) (by simp)
    simp [Effect.table] at this
  have same : ∀ r1 : Replicator, r1.log = r.log →
      ∃ seg, r1.log = r.log ++ seg ∧
        ∀ pre t l post, seg = pre ++ Effect.tblBegin t l :: post →
          l = L ∧ (∀ e ∈ pre, e.table ≠ some t) ∧ (∀ l1, Effect.tblBegin t l1 ∉ post) := by
    intro r1 h
    refine ⟨[], by simpa using h, ?_⟩
    intro pre t l post hsplit
    simp at hsplit
  rw [run_record]
  unfold HandleMessage
  by_cases h0 : r.txFinalLSN = InvalidLSN ∧ isBeginVal (.Begin L bts xid) = false
  · rw [if_pos h0]
    simp only []
    rw [run_dropped env mid r h0.1 hmid]
    exact same r rfl
  · rw [if_neg h0]
    simp only []
    by_cases hs : r.curState = .StateShuttingDown
    · rw [if_pos hs]
      simp only []
      rw [run_dropped env mid _ rfl hmid]
      exact same _ rfl
    · rw [if_neg hs]
      unfold processBegin
      by_cases hl : r.inTxMutex = true
      · rw [if_pos hl]
        exact same r rfl
      · rw [if_neg hl]
        simp only []
        apply fin
        apply run_txState env r.log L mid _ hmid
        exact ⟨rfl, [], by simp, ⟨by simp, by simp⟩⟩

/-- The transaction with final LSN 6 on an engine with nothing pending: a Relation, an
Insert and a Delete for `public.t`; one `Begin` call with LSN 6, before the Insert. -/
theorem run_begin_call_once_and_first_witness :
    (run quietEnv { freshEngine with txFinalLSN := 5 }
      (.record (.Begin 6 0 0) :: [Message.Relation 7 [] [] 0 [], .Insert 7 true [],
        .Delete 7 true false []].map .record)).log =
      [.tblBegin "public.t" 6, .tblInsert "public.t" [], .tblDelete "public.t" []] ∧
    ∃ seg, (run quietEnv { freshEngine with txFinalLSN := 5 }
      (.record (.Begin 6 0 0) :: [Message.Relation 7 [] [] 0 [], .Insert 7 true [],
        .Delete 7 true false []].map .record)).log =
        ({ freshEngine with txFinalLSN := 5 } : Replicator).log ++ seg ∧
      ∀ pre t l post, seg = pre ++ Effect.tblBegin t l :: post →
        l = 6 ∧ (∀ e ∈ pre, e.table ≠ some t) ∧ (∀ l1, Effect.tblBegin t l1 ∉ post) :=
  ⟨by decide,
   run_begin_call_once_and_first quietEnv { freshEngine with txFinalLSN := 5 } 6 0 0
     [.Relation 7 [] [] 0 [], .Insert 7 true [], .Delete 7 true false []] (by decide)⟩

/-! ### Engine: the tables of a transaction are marked for flushing -/

theorem subset_closed : TxClosed (fun r => ∀ t ∈ r.inTxTables, t ∈ r.tablesToFlush) := by
  constructor
  · intro r t h _ t1 ht1
    exact List.mem_append_left _ (h t1 ht1)
  · intro r t h hf _ t1 ht1
    rw [List.mem_append, List.mem_singleton] at ht1
    rcases ht1 with ht1 | rfl
    · exact h t1 ht1
    · exact hf
  · intro r e t h _ _ _
    exact h
  · intro r h
    exact h

theorem flushLoop_inTxTables (env : EngineEnv) (pending : List PgTableName) :
    ∀ r : Replicator, (flushLoop env r pending).2.inTxTables = r.inTxTables := by
  induction pending with
  | nil => intro r; rfl
  | cons t pending ih =>
    intro r
    simp only [flushLoop, Replicator.call]
    split_ifs
    · rfl
    · rfl
    · rw [ih]

/-- The locked part of a tick leaves `inTxTables` alone. -/
theorem flushLocked_inTxTables (env : EngineEnv) (r : Replicator) :
    (flushLocked env r).inTxTables = r.inTxTables := by
  have h := flushLoop_inTxTables env r.tablesToFlush { r with inTxMutex := true }
  simp only [flushLocked, tblBuffersFlush]
  cases hf : flushLoop env { r with inTxMutex := true } r.tablesToFlush with
  | mk ret r1 =>
    rw [hf] at h
    cases ret <;> exact h

theorem commitLoop_commits_succeed (env : EngineEnv)
    (hc : ∀ log t, env.tblErr log (.tblCommit t) = false) (ts : List PgTableName) :
    ∀ r : Replicator, (commitLoop env r ts).1 = false := by
  induction ts with
  | nil => intro r; rfl
  | cons t ts ih =>
    intro r
    simp only [commitLoop, Replicator.call, hc, Bool.false_eq_true, if_false]
    exact ih _

/-- When no `Commit()` of a buffer fails, `processCommit` leaves `inTxTables` empty. -/
theorem processCommit_inTxTables (env : EngineEnv)
    (hc : ∀ log t, env.tblErr log (.tblCommit t) = false) (r : Replicator) :
    (processCommit env r).state.inTxTables = [] := by
  have h1 := commitLoop_commits_succeed env hc r.inTxTables r
  unfold processCommit unlockDeferred
  cases he : r.isEmptyTx
  · simp only [Bool.not_false, if_true]
    generalize commitLoop env r r.inTxTables = res at h1
    obtain ⟨failed, r1⟩ := res
    simp only [] at h1
    subst h1
    simp only [Bool.false_eq_true, if_false]
    split_ifs <;> rfl
  · simp only [Bool.not_true, Bool.false_eq_true, if_false]
    split_ifs <;> rfl

/-- A Begin record, however it is handled, leaves both sets of tables alone. -/
theorem HandleMessage_begin_sets (env : EngineEnv) (r : Replicator) (L : Nat) (bts xid : Int) :
    (HandleMessage env r (.Begin L bts xid)).state.inTxTables = r.inTxTables ∧
    (HandleMessage env r (.Begin L bts xid)).state.tablesToFlush = r.tablesToFlush := by
  unfold HandleMessage
  by_cases h0 : r.txFinalLSN = InvalidLSN ∧ isBeginVal (.Begin L bts xid) = false
  · rw [if_pos h0]; exact ⟨rfl, rfl⟩
  · rw [if_neg h0]
    simp only []
    by_cases hs : r.curState = .StateShuttingDown
    · rw [if_pos hs]; exact ⟨rfl, rfl⟩
    · rw [if_neg hs]
      unfold processBegin
      split_ifs <;> exact ⟨rfl, rfl⟩

/-- One step of a run of transactions keeps: the tables of the transaction are marked
for flushing; between transactions, and in a transaction whose records are dropped,
no table is in `inTxTables`. -/
theorem stepEngine_betweenTx (env : EngineEnv)
    (hc : ∀ log t, env.tblErr log (.tblCommit t) = false) (b : Bool) (r : Replicator)
    (w : Nat) (s : Step) (ss : List Step) (hg : betweenTx b (s :: ss) = true)
    (hk : (∀ t ∈ r.inTxTables, t ∈ r.tablesToFlush) ∧ (b = false → r.inTxTables = []) ∧
      (b = true → r.txFinalLSN = InvalidLSN → r.inTxTables = [])) :
    ∃ b1, betweenTx b1 ss = true ∧
      (∀ t ∈ (stepEngine env r w s).1.inTxTables,
        t ∈ (stepEngine env r w s).1.tablesToFlush) ∧
      (b1 = false → (stepEngine env r w s).1.inTxTables = []) ∧
      (b1 = true → (stepEngine env r w s).1.txFinalLSN = InvalidLSN →
        (stepEngine env r w s).1.inTxTables = []) := by
  obtain ⟨k1, k2, k3⟩ := hk
  have empty : ∀ r1 : Replicator, r1.inTxTables = [] → ∀ b1 : Bool,
      (∀ t ∈ r1.inTxTables, t ∈ r1.tablesToFlush) ∧ (b1 = false → r1.inTxTables = []) ∧
      (b1 = true → r1.txFinalLSN = InvalidLSN → r1.inTxTables = []) := by
    intro r1 h b1
    exact ⟨by rw [h]; simp, fun _ => h, fun _ _ => h⟩
  cases s with
  | lifecycle st =>
    have hg1 : betweenTx b ss = true := by
      cases b <;> simpa [betweenTx] using hg
    refine ⟨b, hg1, ?_⟩
    have e1 : (stepEngine env r w (.lifecycle st)).1.inTxTables = r.inTxTables := by
      simp only [stepEngine, setState]; split_ifs <;> rfl
    have e2 : (stepEngine env r w (.lifecycle st)).1.tablesToFlush = r.tablesToFlush := by
      simp only [stepEngine, setState]; split_ifs <;> rfl
    have e3 : (stepEngine env r w (.lifecycle st)).1.txFinalLSN = r.txFinalLSN := by
      simp only [stepEngine, setState]; split_ifs <;> rfl
    rw [e1, e2, e3]
    exact ⟨k1, k2, k3⟩
  | flushTick =>
    have hg1 : betweenTx b ss = true := by
      cases b <;> simpa [betweenTx] using hg
    refine ⟨b, hg1, ?_⟩
    have e : (stepEngine env r w .flushTick).1 = r := by
      simp only [stepEngine]; split_ifs <;> rfl
    rw [e]
    exact ⟨k1, k2, k3⟩
  | flushLock =>
    cases b with
    | true => simp [betweenTx] at hg
    | false =>
      have hg1 : betweenTx false ss = true := by simpa [betweenTx] using hg
      refine ⟨false, hg1, ?_⟩
      apply empty
      simp only [stepEngine]
      split_ifs
      · exact k2 rfl
      · rw [flushLocked_inTxTables]
        exact k2 rfl
  | record m =>
    rw [stepEngine_record_fst]
    cases b with
    | false =>
      cases m with
      | Begin L bts xid =>
        have hg1 : betweenTx true ss = true := by simpa [betweenTx] using hg
        refine ⟨true, hg1, ?_⟩
        apply empty
        rw [(HandleMessage_begin_sets env r L bts xid).1]
        exact k2 rfl
      | _ => simp [betweenTx] at hg
    | true =>
      by_cases hcm : ∃ f l tl ts, m = .Commit f l tl ts
      · obtain ⟨f, l, tl, ts, rfl⟩ := hcm
        have hg1 : betweenTx false ss = true := by simpa [betweenTx] using hg
        refine ⟨false, hg1, ?_⟩
        apply empty
        unfold HandleMessage
        by_cases h0 : r.txFinalLSN = InvalidLSN ∧ isBeginVal (.Commit f l tl ts) = false
        · rw [if_pos h0]
          exact k3 rfl h0.1
        · rw [if_neg h0]
          exact processCommit_inTxTables env hc r
      · have hg1 : (isDML m = true ∨ isMeta m = true) ∧ betweenTx true ss = true := by
          cases m <;> first
            | (exfalso; exact hcm ⟨_, _, _, _, rfl⟩)
            | (simp [betweenTx, isDML, isMeta] at hg ⊢; exact hg)
            | (simp [betweenTx, isDML, isMeta] at hg)
        refine ⟨true, hg1.2, ?_⟩
        have hsub := HandleMessage_preserves _ subset_closed env r m hg1.1 k1
        refine ⟨hsub, by simp, ?_⟩
        intro _ htx
        have hd := HandleMessage_dataStep env r m hg1.1
        rw [hd.txFinalLSN] at htx
        have hb : isBeginVal m = false := by
          have hm := hg1.1
          cases m <;> first | rfl | (simp [isDML, isMeta] at hm)
        have : HandleMessage env r m = .returned none r := by
          unfold HandleMessage
          rw [if_pos ⟨htx, hb⟩]
        rw [this]
        exact k3 rfl htx

theorem runFrom_betweenTx (env : EngineEnv)
    (hc : ∀ log t, env.tblErr log (.tblCommit t) = false) (pre : List Step) :
    ∀ (b : Bool) (r : Replicator) (w : Nat) (post : List Step),
      betweenTx b (pre ++ post) = true →
      ((∀ t ∈ r.inTxTables, t ∈ r.tablesToFlush) ∧ (b = false → r.inTxTables = []) ∧
        (b = true → r.txFinalLSN = InvalidLSN → r.inTxTables = [])) →
      ∀ t ∈ (runFrom env r w pre).inTxTables, t ∈ (runFrom env r w pre).tablesToFlush := by
  induction pre with
  | nil => intro b r w post _ hk; exact hk.1
  | cons s pre ih =>
    intro b r w post hg hk
    obtain ⟨b1, hg1, hk1⟩ := stepEngine_betweenTx env hc b r w s (pre ++ post) hg hk
    simp only [runFrom]
    cases hse : stepEngine env r w s with
    | mk r1 p =>
      obtain ⟨w1, go⟩ := p
      rw [hse] at hk1
      cases go
      · exact hk1.1
      · exact ih b1 r1 w1 post hg1 hk1

/-- C26 (as amended). In every run that starts between transactions with `inTxTables`
empty, in which the records come as transactions, a tick runs only between
transactions and no `Commit()` of a buffer fails: at the moment a Commit record is
processed every table in `inTxTables` is also in `tablesToFlush`. -/
theorem run_inTxTables_marked_at_commit (env : EngineEnv)
    (hcommit : ∀ log t, env.tblErr log (.tblCommit t) = false) (r : Replicator)
    (hstart : r.inTxTables = []) (pre post : List Step) (flags lsn txLSN : Nat) (ts : Int)
    (hsteps : betweenTx false (pre ++ .record (.Commit flags lsn txLSN ts) :: post) = true) :
    ∀ t ∈ (run env r pre).inTxTables, t ∈ (run env r pre).tablesToFlush :=
  runFrom_betweenTx env hcommit pre false r 0 _ hsteps
    ⟨by rw [hstart]; simp, fun _ => hstart, fun h => by simp at h⟩

/-- A transaction with an Insert, a tick, and a second transaction with a Delete: at
the second Commit `public.t` is in both sets. -/
theorem run_inTxTables_marked_at_commit_witness :
    (run quietEnv { freshEngine with txFinalLSN := 3 }
      [.record (.Begin 5 0 0), .record (.Insert 7 true []), .record (.Commit 0 5 6 0),
        .flushTick, .flushLock, .record (.Begin 7 0 0),
        .record (.Delete 7 true false [])]).inTxTables = ["public.t"] ∧
    ∀ t ∈ (run quietEnv { freshEngine with txFinalLSN := 3 }
      [.record (.Begin 5 0 0), .record (.Insert 7 true []), .record (.Commit 0 5 6 0),
        .flushTick, .flushLock, .record (.Begin 7 0 0),
        .record (.Delete 7 true false [])]).inTxTables,
      t ∈ (run quietEnv { freshEngine with txFinalLSN := 3 }
      [.record (.Begin 5 0 0), .record (.Insert 7 true []), .record (.Commit 0 5 6 0),
        .flushTick, .flushLock, .record (.Begin 7 0 0),
        .record (.Delete 7 true false [])]).tablesToFlush :=
  ⟨by decide,
   run_inTxTables_marked_at_commit quietEnv (fun _ _ => rfl) { freshEngine with txFinalLSN := 3 }
     rfl _ [] 0 7 8 0 (by decide)⟩

/-- C26 (counterexample). The engine stands between transactions with both sets empty.
In the first transaction an Insert is forwarded to `public.t` and the `Commit()` of
its buffer fails: `processCommit` returns the error before it empties `inTxTables`.
A tick between the transactions flushes `public.t` and deletes it from
`tablesToFlush`. When the Commit record of the second transaction is processed,
`public.t` is in `inTxTables` and not in `tablesToFlush`. -/
theorem run_failed_commit_leaves_inTxTables :
    betweenTx false
      ([.record (.Begin 5 0 0), .record (.Insert 7 true []), .record (.Commit 0 5 6 0),
        .flushTick, .flushLock, .record (.Begin 7 0 0)] ++ [.record (.Commit 0 7 8 0)]) = true ∧
    (run failingCommitEnv { freshEngine with txFinalLSN := 3 }
      [.record (.Begin 5 0 0), .record (.Insert 7 true []), .record (.Commit 0 5 6 0),
        .flushTick, .flushLock, .record (.Begin 7 0 0)]).inTxTables = ["public.t"] ∧
    (run failingCommitEnv { freshEngine with txFinalLSN := 3 }
      [.record (.Begin 5 0 0), .record (.Insert 7 true []), .record (.Commit 0 5 6 0),
        .flushTick, .flushLock, .record (.Begin 7 0 0)]).tablesToFlush = [] := by
  decide

/-! ### Copy-line decoder: octal escapes -/

/-- C29. For a backslash followed by the octal digits `ds`, one to three of them, which
are the longest such run up to three (three digits, or the input ends or goes on with
a byte that is no octal digit): one iteration of the loop of `DecodeCopyToTuples`
takes the backslash and the digits and appends one byte to the column buffer, the
value of the digits modulo 256. After three digits a fourth octal digit is taken by
the next iteration as a byte of the column. -/
theorem copyLoop_octal_escape {κ : Type} (env : CopyEnv κ) (fuel : Nat) (ds rest : List Nat)
    (st : CopyState κ) (hne : ds ≠ []) (hlen : ds.length ≤ 3)
    (hoct : ∀ d ∈ ds, isOctalDigit d = true)
    (hlong : ds.length = 3 ∨ rest = [] ∨ ∃ c rest1, rest = c :: rest1 ∧ isOctalDigit c = false) :
    copyLoop env (fuel + 1) (92 :: (ds ++ rest)) st =
      copyLoop env fuel rest { st with colBuf := st.colBuf ++ [octalValue ds % 256] } ∧
    (∀ o4 rest1, ds.length = 3 → rest = o4 :: rest1 → isOctalDigit o4 = true →
      copyLoop env (fuel + 2) (92 :: (ds ++ rest)) st =
        copyLoop env fuel rest1
          { st with colBuf := st.colBuf ++ [octalValue ds % 256] ++ [o4] }) := by
  have hdig : ∀ d, isOctalDigit d = true → 48 ≤ d ∧ d ≤ 55 := by
    intro d h; simpa [isOctalDigit] using h
  have hnd : ∀ d, isOctalDigit d = false → (decodeOctDigit d).2 = false := by
    intro d h
    have : ¬ (48 ≤ d ∧ d ≤ 55) := by simpa [isOctalDigit] using h
    simp [decodeOctDigit, decodeDigit, this]
  have hyd : ∀ d, 48 ≤ d ∧ d ≤ 55 → decodeOctDigit d = (d - 48, true) := by
    intro d h
    simp [decodeOctDigit, decodeDigit, h]
  have hesc : ∀ d, 48 ≤ d ∧ d ≤ 55 → d ≠ 78 ∧ d ≠ 120 ∧
      ¬ (d = 98 ∨ d = 102 ∨ d = 110 ∨ d = 114 ∨ d = 116 ∨ d = 118 ∨ d = 92) := by
    intro d h; omega
  have first : ∀ f, copyLoop env (f + 1) (92 :: (ds ++ rest)) st =
      copyLoop env f rest { st with colBuf := st.colBuf ++ [octalValue ds % 256] } := by
    intro f
    match ds, hne, hlen, hoct, hlong with
    | [a], _, _, hoct, hlong =>
      have ha := hdig a (hoct a (by simp))
      obtain ⟨e1, e2, e3⟩ := hesc a ha
      have hv : octalValue [a] % 256 = a - 48 := by
        simp only [octalValue, List.foldl]; omega
      rw [hv]
      rcases hlong with h | h | ⟨c, rest1, h, hc⟩
      · simp at h
      · subst h
        simp [copyLoop, e1, e2, e3, ha, hyd a ha]
      · subst h
        simp [copyLoop, e1, e2, e3, ha, hyd a ha, hnd c hc]
    | [a, b], _, _, hoct, hlong =>
      have ha := hdig a (hoct a (by simp))
      have hb := hdig b (hoct b (by simp))
      obtain ⟨e1, e2, e3⟩ := hesc a ha
      have hv : octalValue [a, b] % 256 = ((a - 48) * 8 % 256 + (b - 48)) % 256 := by
        simp only [octalValue, List.foldl]; omega
      rw [hv]
      rcases hlong with h | h | ⟨c, rest1, h, hc⟩
      · simp at h
      · subst h
        simp [copyLoop, e1, e2, e3, ha, hyd a ha, hyd b hb]
      · subst h
        simp [copyLoop, e1, e2, e3, ha, hyd a ha, hyd b hb, hnd c hc]
    | [a, b, c], _, _, hoct, _ =>
      have ha := hdig a (hoct a (by simp))
      have hb := hdig b (hoct b (by simp))
      have hc := hdig c (hoct c (by simp))
      obtain ⟨e1, e2, e3⟩ := hesc a ha
      have hv : octalValue [a, b, c] % 256 =
          (((a - 48) * 8 % 256 + (b - 48)) % 256 * 8 % 256 + (c - 48)) % 256 := by
        simp only [octalValue, List.foldl]; omega
      rw [hv]
      simp [copyLoop, e1, e2, e3, ha, hyd a ha, hyd b hb, hyd c hc]
    | [], hne, _, _, _ => exact absurd rfl hne
    | _ :: _ :: _ :: _ :: _, _, hlen, _, _ => simp at hlen
  refine ⟨first fuel, ?_⟩
  intro o4 rest1 _ hr ho4
  have h4 := hdig o4 ho4
  have e9 : o4 ≠ 9 := by omega
  have e10 : o4 ≠ 10 := by omega
  have e92 : o4 ≠ 92 := by omega
  have e : fuel + 2 = (fuel + 1) + 1 := rfl
  rw [e, first (fuel + 1), hr]
  simp [copyLoop, e9, e10, e92]

theorem copyLoop_octal_escape_witness :
    copyLoop oneColumnEnv (5 + 1) (92 :: ([55, 55, 55] ++ [55, 10])) ⟨[], 0, .TupleText, []⟩ =
      copyLoop oneColumnEnv 5 [55, 10] ⟨[] ++ [octalValue [55, 55, 55] % 256], 0, .TupleText, []⟩ ∧
    octalValue [55, 55, 55] % 256 = 255 ∧
    DecodeCopyToTuples oneColumnEnv [92, 55, 55, 55, 55, 10] =
      (none, [.convert 0 () ⟨.TupleText, [255, 55]⟩]) :=
  ⟨(copyLoop_octal_escape oneColumnEnv 5 [55, 55, 55] [55, 10] ⟨[], 0, .TupleText, []⟩
      (by decide) (by decide) (by decide) (Or.inl rfl)).1,
   by decide, by decide⟩

/-! ### Checkpoint store: reading an unsigned integer -/

/-- C22. For every key whose stored bytes do not parse as a decimal unsigned 64-bit
integer, `ReadUint` returns the value 0 together with a nil error. -/
theorem ReadUint_corrupt_returns_zero_nil (read : String → Except StoreError (List Nat))
    (key : String) (data : List Nat) (hread : read key = .ok data)
    (hbad : ParseUint data = none) :
    ReadUint read key = (0, none) := by
  simp [ReadUint, hread, hbad]

theorem ReadUint_corrupt_returns_zero_nil_witness :
    corruptStore "k" = .ok [97, 98, 99] ∧ ParseUint [97, 98, 99] = none ∧
    ReadUint corruptStore "k" = (0, none) :=
  ⟨rfl, by decide, ReadUint_corrupt_returns_zero_nil corruptStore "k" [97, 98, 99] rfl
    (by decide)⟩

/-! ### The tables to snapshot -/

theorem mem_insertStable {α : Type} (less : α → α → Bool) (x y : α) (l : List α) :
    y ∈ insertStable less x l ↔ y = x ∨ y ∈ l := by
  induction l with
  | nil => simp [insertStable]
  | cons z zs ih =>
    simp only [insertStable]
    split_ifs
    · simp only [List.mem_cons, ih]
      tauto
    · simp only [List.mem_cons]

/-- Sorting keeps the elements. -/
theorem mem_sliceStable {α : Type} (less : α → α → Bool) (y : α) (l : List α) :
    y ∈ sliceStable less l ↔ y ∈ l := by
  induction l with
  | nil => simp [sliceStable]
  | cons x xs ih => simp only [sliceStable, mem_insertStable, ih, List.mem_cons]

theorem pairwise_insertStable (f : PgTableName → Nat) (x : PgTableName)
    (l : List PgTableName) (h : l.Pairwise (fun a b => f a ≥ f b)) :
    (insertStable (fun a b => decide (f a > f b)) x l).Pairwise (fun a b => f a ≥ f b) := by
  induction l with
  | nil => simp [insertStable]
  | cons y ys ih =>
    rw [List.pairwise_cons] at h
    simp only [insertStable]
    by_cases hyx : f y > f x
    · simp only [hyx, decide_True, if_true]
      rw [List.pairwise_cons]
      refine ⟨?_, ih h.2⟩
      intro z hz
      rw [mem_insertStable] at hz
      rcases hz with rfl | hz
      · exact Nat.le_of_lt hyx
      · exact h.1 z hz
    · simp only [hyx, decide_False, Bool.false_eq_true, if_false]
      have hxy : f x ≥ f y := Nat.le_of_not_lt hyx
      rw [List.pairwise_cons, List.pairwise_cons]
      refine ⟨?_, h.1, h.2⟩
      intro z hz
      rw [List.mem_cons] at hz
      rcases hz with rfl | hz
      · exact hxy
      · exact Nat.le_trans (h.1 z hz) hxy

/-- The stable sort with `less a b` when the count of `a` is above the count of `b`
gives a list in non-increasing order of the counts. -/
theorem pairwise_sliceStable (f : PgTableName → Nat) (l : List PgTableName) :
    (sliceStable (fun a b => decide (f a > f b)) l).Pairwise (fun a b => f a ≥ f b) := by
  induction l with
  | nil => simp [sliceStable]
  | cons x xs ih => exact pairwise_insertStable f x _ ih

theorem lookupKey_of_mem {ν : Type} (t : PgTableName) (c : List (PgTableName × ν))
    (h : ∃ n, (t, n) ∈ c) : ∃ n, lookupKey t c = some n ∧ (t, n) ∈ c := by
  induction c with
  | nil => simp at h
  | cons p c ih =>
    obtain ⟨k, v⟩ := p
    simp only [lookupKey]
    by_cases hk : k = t
    · subst hk
      exact ⟨v, by simp, by simp⟩
    · rw [if_neg hk]
      obtain ⟨n, hn⟩ := h
      simp only [List.mem_cons, Prod.mk.injEq] at hn
      rcases hn with ⟨rfl, -⟩ | hn
      · exact absurd rfl hk
      · obtain ⟨m, h1, h2⟩ := ih ⟨n, hn⟩
        exact ⟨m, h1, List.mem_cons_of_mem _ h2⟩

/-- Whether the loop passes a table by: what the stored LSN amounts to. -/
theorem noValidLSN_iff (env : SyncEnv) (t : PgTableName)
    (hc : lookupKey t env.persStorage ≠ some .corrupted) :
    env.noValidLSN t ↔
      (match lookupKey t env.persStorage with
        | some (.value lsn) => decide (lsn ≠ InvalidLSN)
        | some (.failure lsn) => decide (lsn ≠ InvalidLSN)
        | _ => false) = false := by
  unfold SyncEnv.noValidLSN
  cases h : lookupKey t env.persStorage with
  | none => simp
  | some v =>
    cases v with
    | value l => simp
    | failure l => simp
    | corrupted => exact absurd h hc

/-- What the loop over the configured tables leaves: the tables chosen, and a count
for each of them that is the estimate of the table. -/
theorem selectLoop_spec (env : SyncEnv) (tbls : List PgTableName) :
    ∀ (s : List PgTableName) (c : List (PgTableName × Nat)) (s1 : List PgTableName)
      (c1 : List (PgTableName × Nat)),
      selectLoop env tbls s c = .inr (s1, c1) →
      (∀ t, t ∈ s1 ↔ t ∈ s ∨ (t ∈ tbls ∧ env.initSyncSkip t = false ∧ env.noValidLSN t)) ∧
      ((∀ t n, (t, n) ∈ c → env.liveTuples t = some n) →
        ∀ t n, (t, n) ∈ c1 → env.liveTuples t = some n) ∧
      ((∀ t ∈ s, ∃ n, (t, n) ∈ c) → ∀ t ∈ s1, ∃ n, (t, n) ∈ c1) := by
  induction tbls with
  | nil =>
    intro s c s1 c1 h
    simp only [selectLoop, Sum.inr.injEq, Prod.mk.injEq] at h
    obtain ⟨rfl, rfl⟩ := h
    exact ⟨by simp, fun h => h, fun h => h⟩
  | cons tbl rest ih =>
    intro s c s1 c1 h
    simp only [selectLoop] at h
    by_cases hskip : env.initSyncSkip tbl = true
    · rw [if_pos hskip] at h
      obtain ⟨h1, h2, h3⟩ := ih s c s1 c1 h
      refine ⟨?_, h2, h3⟩
      intro t
      rw [h1 t]
      constructor
      · rintro (ht | ⟨ht, hs, hv⟩)
        · exact Or.inl ht
        · exact Or.inr ⟨List.mem_cons_of_mem _ ht, hs, hv⟩
      · rintro (ht | ⟨ht, hs, hv⟩)
        · exact Or.inl ht
        · rcases List.mem_cons.1 ht with rfl | ht
          · rw [hskip] at hs; exact absurd hs (by simp)
          · exact Or.inr ⟨ht, hs, hv⟩
    · rw [if_neg hskip] at h
      have hskipf : env.initSyncSkip tbl = false := by simpa using hskip
      by_cases hcor : lookupKey tbl env.persStorage = some .corrupted
      · rw [hcor] at h
        simp at h
      · have hiff := noValidLSN_iff env tbl hcor
        have hmatch : ∀ {β : Type} (a : β) (b : Option StoredLSN → β),
            (match lookupKey tbl env.persStorage with
              | some .corrupted => a
              | stored => b stored) = b (lookupKey tbl env.persStorage) := by
          intro β a b
          cases hl : lookupKey tbl env.persStorage with
          | none => rfl
          | some v =>
            cases v with
            | value l => rfl
            | failure l => rfl
            | corrupted => exact absurd hl hcor
        rw [hmatch] at h
        by_cases hval : (match lookupKey tbl env.persStorage with
            | some (.value lsn) => decide (lsn ≠ InvalidLSN)
            | some (.failure lsn) => decide (lsn ≠ InvalidLSN)
            | _ => false) = true
        · rw [if_pos hval] at h
          have hnv : ¬ env.noValidLSN tbl := by
            rw [hiff, hval]; simp
          obtain ⟨h1, h2, h3⟩ := ih s c s1 c1 h
          refine ⟨?_, h2, h3⟩
          intro t
          rw [h1 t]
          constructor
          · rintro (ht | ⟨ht, hs, hv⟩)
            · exact Or.inl ht
            · exact Or.inr ⟨List.mem_cons_of_mem _ ht, hs, hv⟩
          · rintro (ht | ⟨ht, hs, hv⟩)
            · exact Or.inl ht
            · rcases List.mem_cons.1 ht with rfl | ht
              · exact absurd hv hnv
              · exact Or.inr ⟨ht, hs, hv⟩
        · rw [if_neg hval] at h
          have hnv : env.noValidLSN tbl := by
            rw [hiff]; simpa using hval
          cases hlt : env.liveTuples tbl with
          | none => rw [hlt] at h; simp at h
          | some n =>
            rw [hlt] at h
            simp only [] at h
            obtain ⟨h1, h2, h3⟩ := ih _ _ s1 c1 h
            refine ⟨?_, ?_, ?_⟩
            · intro t
              rw [h1 t, List.mem_append, List.mem_singleton]
              constructor
              · rintro ((ht | rfl) | ⟨ht, hs, hv⟩)
                · exact Or.inl ht
                · exact Or.inr ⟨List.mem_cons_self _ _, hskipf, hnv⟩
                · exact Or.inr ⟨List.mem_cons_of_mem _ ht, hs, hv⟩
              · rintro (ht | ⟨ht, hs, hv⟩)
                · exact Or.inl (Or.inl ht)
                · rcases List.mem_cons.1 ht with rfl | ht
                  · exact Or.inl (Or.inr rfl)
                  · exact Or.inr ⟨ht, hs, hv⟩
            · intro hc
              apply h2
              intro t m hm
              rcases List.mem_cons.1 hm with e | hm
              · simp only [Prod.mk.injEq] at e
                obtain ⟨rfl, rfl⟩ := e
                exact hlt
              · exact hc t m hm
            · intro hs
              apply h3
              intro t ht
              rcases List.mem_append.1 ht with ht | ht
              · obtain ⟨m, hm⟩ := hs t ht
                exact ⟨m, List.mem_cons_of_mem _ hm⟩
              · rw [List.mem_singleton] at ht
                subst ht
                exact ⟨n, List.mem_cons_self _ _⟩

theorem selectLoop_total (env : SyncEnv) (tbls : List PgTableName)
    (h : ∀ t ∈ tbls, env.initSyncSkip t = false →
      lookupKey t env.persStorage ≠ some .corrupted ∧
      (env.noValidLSN t → env.liveTuples t ≠ none)) :
    ∀ (s : List PgTableName) (c : List (PgTableName × Nat)),
      ∃ s1 c1, selectLoop env tbls s c = .inr (s1, c1) := by
  induction tbls with
  | nil => intro s c; exact ⟨s, c, rfl⟩
  | cons tbl rest ih =>
    intro s c
    have ih := ih (fun t ht => h t (List.mem_cons_of_mem _ ht))
    simp only [selectLoop]
    by_cases hskip : env.initSyncSkip tbl = true
    · rw [if_pos hskip]; exact ih s c
    · rw [if_neg hskip]
      obtain ⟨hcor, hlt⟩ := h tbl (List.mem_cons_self _ _) (by simpa using hskip)
      have hiff := noValidLSN_iff env tbl hcor
      cases hl : lookupKey tbl env.persStorage with
      | none =>
        rw [hl] at hiff
        simp only [Bool.false_eq_true, if_false]
        have hnv : env.noValidLSN tbl := hiff.2 rfl
        cases hn : env.liveTuples tbl with
        | none => exact absurd hn (hlt hnv)
        | some n => exact ih _ _
      | some v =>
        rw [hl] at hiff
        cases v with
        | corrupted => exact absurd hl hcor
        | value l =>
          simp only [] at hiff ⊢
          by_cases hv : decide (l ≠ InvalidLSN) = true
          · rw [if_pos hv]; exact ih s c
          · rw [if_neg hv]
            have hnv : env.noValidLSN tbl := hiff.2 (by simpa using hv)
            cases hn : env.liveTuples tbl with
            | none => exact absurd hn (hlt hnv)
            | some n => exact ih _ _
        | failure l =>
          simp only [] at hiff ⊢
          by_cases hv : decide (l ≠ InvalidLSN) = true
          · rw [if_pos hv]; exact ih s c
          · rw [if_neg hv]
            have hnv : env.noValidLSN tbl := hiff.2 (by simpa using hv)
            cases hn : env.liveTuples tbl with
            | none => exact absurd hn (hlt hnv)
            | some n => exact ih _ _

theorem selectLoop_valid (env : SyncEnv) (tbls : List PgTableName)
    (h : ∀ t ∈ tbls, ∃ lsn, lsn ≠ InvalidLSN ∧ lookupKey t env.persStorage = some (.value lsn)) :
    ∀ (s : List PgTableName) (c : List (PgTableName × Nat)),
      selectLoop env tbls s c = .inr (s, c) := by
  induction tbls with
  | nil => intro s c; rfl
  | cons tbl rest ih =>
    intro s c
    have ih := ih (fun t ht => h t (List.mem_cons_of_mem _ ht))
    obtain ⟨lsn, hlsn, hl⟩ := h tbl (List.mem_cons_self _ _)
    simp only [selectLoop, hl]
    split_ifs with h1 h2
    · exact ih s c
    · exact ih s c
    · exact absurd (by simpa using hlsn) h2

theorem initSyncLoop_ok (env : SyncEnv) (l : List PgTableName)
    (h : ∀ t ∈ l, env.initSyncErr t = false) : initSyncLoop env l = none := by
  induction l with
  | nil => rfl
  | cons t ts ih =>
    simp only [initSyncLoop, h t (List.mem_cons_self _ _), Bool.false_eq_true, if_false]
    exact ih (fun x hx => h x (List.mem_cons_of_mem _ hx))

/-- The loop ends early only with an error or in the panic. -/
theorem selectLoop_inl (env : SyncEnv) (tbls : List PgTableName) :
    ∀ (s : List PgTableName) (c : List (PgTableName × Nat)) (out : SyncOutcome)
      (l : List PgTableName), selectLoop env tbls s c = .inl out → out ≠ .returned l := by
  induction tbls with
  | nil => intro s c out l h; simp [selectLoop] at h
  | cons tbl rest ih =>
    intro s c out l h
    simp only [selectLoop] at h
    split_ifs at h with h1
    · exact ih s c out l h
    · cases hl : lookupKey tbl env.persStorage with
      | none =>
        rw [hl] at h
        simp only [Bool.false_eq_true, if_false] at h
        cases hn : env.liveTuples tbl with
        | none => rw [hn] at h; simp only [Sum.inl.injEq] at h; rw [← h]; simp
        | some n => rw [hn] at h; exact ih _ _ out l h
      | some v =>
        rw [hl] at h
        cases v with
        | corrupted => simp only [Sum.inl.injEq] at h; rw [← h]; simp
        | value lsn =>
          simp only [] at h
          split_ifs at h
          · exact ih s c out l h
          · cases hn : env.liveTuples tbl with
            | none => rw [hn] at h; simp only [Sum.inl.injEq] at h; rw [← h]; simp
            | some n => rw [hn] at h; exact ih _ _ out l h
        | failure lsn =>
          simp only [] at h
          split_ifs at h
          · exact ih s c out l h
          · cases hn : env.liveTuples tbl with
            | none => rw [hn] at h; simp only [Sum.inl.injEq] at h; rw [← h]; simp
            | some n => rw [hn] at h; exact ih _ _ out l h

/-- A returned list is the sorted choice of the loop. -/
theorem GetTablesToSync_returned (env : SyncEnv) (l : List PgTableName)
    (h : GetTablesToSync env = .returned l) :
    ∃ s c, selectLoop env env.tables [] [] = .inr (s, c) ∧
      l = (if 0 < s.length then
          sliceStable (fun a b => decide (rowsCntOf c a > rowsCntOf c b)) s
        else s) := by
  unfold GetTablesToSync at h
  split_ifs at h
  cases hs : selectLoop env env.tables [] [] with
  | inl out =>
    rw [hs] at h
    simp only [] at h
    exact absurd h (selectLoop_inl env env.tables [] [] out l hs)
  | inr p =>
    obtain ⟨s, c⟩ := p
    rw [hs] at h
    simp only [] at h
    refine ⟨s, c, rfl, ?_⟩
    cases hi : initSyncLoop env (if 0 < s.length then
          sliceStable (fun a b => decide (rowsCntOf c a > rowsCntOf c b)) s
        else s) with
    | some e => rw [hi] at h; simp at h
    | none =>
      rw [hi] at h
      simp only [SyncOutcome.returned.injEq] at h
      exact h.symm

/-- C23. When `GetTablesToSync` returns a list, a table is in it if and only if it is a
configured table whose `InitSyncSkip` option is false and for which the checkpoint
store has no entry or gives `InvalidLSN`. It returns a list whenever connecting,
starting the transaction, the statistics query and `InitSync` do not fail and no
stored LSN is corrupt; and when every configured table has a valid recorded LSN the
list is empty. -/
theorem GetTablesToSync_selects (env : SyncEnv) :
    (∀ l, GetTablesToSync env = .returned l →
      ∀ t, (t ∈ l ↔ t ∈ env.tables ∧ env.initSyncSkip t = false ∧ env.noValidLSN t)) ∧
    (env.connectErr = false → env.beginErr = false →
      (∀ t ∈ env.tables, env.initSyncSkip t = false →
        lookupKey t env.persStorage ≠ some .corrupted ∧
        (env.noValidLSN t → env.liveTuples t ≠ none ∧ env.initSyncErr t = false)) →
      ∃ l, GetTablesToSync env = .returned l) ∧
    (env.connectErr = false → env.beginErr = false →
      (∀ t ∈ env.tables, ∃ lsn, lsn ≠ InvalidLSN ∧
        lookupKey t env.persStorage = some (.value lsn)) →
      GetTablesToSync env = .returned []) := by
  have hmem : ∀ l, GetTablesToSync env = .returned l →
      ∀ t, (t ∈ l ↔ t ∈ env.tables ∧ env.initSyncSkip t = false ∧ env.noValidLSN t) := by
    intro l h t
    obtain ⟨s, c, hs, rfl⟩ := GetTablesToSync_returned env l h
    obtain ⟨h1, -, -⟩ := selectLoop_spec env env.tables [] [] s c hs
    have e : t ∈ (if 0 < s.length then
          sliceStable (fun a b => decide (rowsCntOf c a > rowsCntOf c b)) s
        else s) ↔ t ∈ s := by
      split_ifs
      · exact mem_sliceStable _ t s
      · exact Iff.rfl
    rw [e, h1 t]
    simp
  refine ⟨hmem, ?_, ?_⟩
  · intro hc hb hok
    obtain ⟨s, c, hs⟩ := selectLoop_total env env.tables
      (fun t ht hskip => ⟨(hok t ht hskip).1, fun hv => ((hok t ht hskip).2 hv).1⟩) [] []
    obtain ⟨h1, -, -⟩ := selectLoop_spec env env.tables [] [] s c hs
    have hinit : initSyncLoop env (if 0 < s.length then
          sliceStable (fun a b => decide (rowsCntOf c a > rowsCntOf c b)) s
        else s) = none := by
      apply initSyncLoop_ok
      intro t ht
      have ht' : t ∈ s := by
        split_ifs at ht
        · exact (mem_sliceStable _ t s).1 ht
        · exact ht
      rcases (h1 t).1 ht' with hx | ⟨hx, hskip, hv⟩
      · simp at hx
      · exact ((hok t hx hskip).2 hv).2
    refine ⟨(if 0 < s.length then
          sliceStable (fun a b => decide (rowsCntOf c a > rowsCntOf c b)) s
        else s), ?_⟩
    simp only [GetTablesToSync, hc, hb, Bool.false_eq_true, if_false, hs, hinit]
  · intro hc hb hall
    have hs := selectLoop_valid env env.tables hall [] []
    simp [GetTablesToSync, hc, hb, hs, initSyncLoop]

theorem GetTablesToSync_selects_witness :
    GetTablesToSync sampleSyncEnv = .returned ["c", "b"] ∧
    ("b" ∈ ["c", "b"] ↔ "b" ∈ sampleSyncEnv.tables ∧ sampleSyncEnv.initSyncSkip "b" = false ∧
      sampleSyncEnv.noValidLSN "b") ∧
    ("a" ∈ ["c", "b"] ↔ "a" ∈ sampleSyncEnv.tables ∧ sampleSyncEnv.initSyncSkip "a" = false ∧
      sampleSyncEnv.noValidLSN "a") :=
  ⟨by decide, (GetTablesToSync_selects sampleSyncEnv).1 ["c", "b"] (by decide) "b",
   (GetTablesToSync_selects sampleSyncEnv).1 ["c", "b"] (by decide) "a"⟩

/-- C24. Whatever the configuration and the estimated row counts, a list returned by
`GetTablesToSync` is in non-increasing order of the estimated row count: each table's
count is at least the count of every later table, in particular of the next one. -/
theorem GetTablesToSync_sorted (env : SyncEnv) (l : List PgTableName)
    (h : GetTablesToSync env = .returned l) :
    l.Pairwise (fun a b => env.estimate a ≥ env.estimate b) ∧
    l.Chain' (fun a b => env.estimate a ≥ env.estimate b) := by
  have hp : l.Pairwise (fun a b => env.estimate a ≥ env.estimate b) := by
    obtain ⟨s, c, hs, rfl⟩ := GetTablesToSync_returned env l h
    obtain ⟨-, h2, h3⟩ := selectLoop_spec env env.tables [] [] s c hs
    have h2 := h2 (by simp)
    have h3 := h3 (by simp)
    have hest : ∀ t ∈ s, rowsCntOf c t = env.estimate t := by
      intro t ht
      obtain ⟨n, hn, hm⟩ := lookupKey_of_mem t c (h3 t ht)
      simp only [rowsCntOf, SyncEnv.estimate, hn, h2 t n hm, Option.getD_some]
    split_ifs
    · have hsorted := pairwise_sliceStable (rowsCntOf c) s
      refine hsorted.imp_of_mem ?_
      intro a b ha hb hab
      rw [mem_sliceStable] at ha hb
      rw [← hest a ha, ← hest b hb]
      exact hab
    · have : s = [] := by
        cases s with
        | nil => rfl
        | cons x xs => simp at *
      rw [this]
      exact List.Pairwise.nil
  exact ⟨hp, hp.chain'⟩

theorem GetTablesToSync_sorted_witness :
    GetTablesToSync sampleSyncEnv = .returned ["c", "b"] ∧
    sampleSyncEnv.estimate "c" = 9 ∧ sampleSyncEnv.estimate "b" = 3 ∧
    ["c", "b"].Pairwise (fun a b => sampleSyncEnv.estimate a ≥ sampleSyncEnv.estimate b) :=
  ⟨by decide, by decide, by decide,
   (GetTablesToSync_sorted sampleSyncEnv ["c", "b"] (by decide)).1⟩

end Pg2ch
